import Mathlib

/-!
# Verification development for `lvtlib`

Shallow embedding of the generic array/string algorithms of the `lvt` utility
library and machine-checked statements about them.  Definitions come first,
lemmas and theorems afterwards.
-/

namespace lvt

/-! ## Definitions -/

/-! ### `maxSubarraySum` (`lvtlib.cpp`, Kadane's algorithm) -/

/-- Loop body of `maxSubarraySum`: the state is the pair `(max, local)`.
`local += el; if (local > max) max = local; if (local < 0) local = 0;`
(`local` is spelled `loc` because the word is reserved). -/
def maxSubarraySumStep (st : Int × Int) (el : Int) : Int × Int :=
  let loc := st.2 + el
  let max := if loc > st.1 then loc else st.1
  let loc2 := if loc < 0 then 0 else loc
  (max, loc2)

/-- `T maxSubarraySum(std::span<const T> arr)` in exact arithmetic:
`T max{0}, local{0};` then the range-for loop, then `return max`.  This is what
the call returns as long as every `local += el` stays inside the range of `T`;
`maxSubarraySumT` below is the call at a fixed-width `T`, where it may not. -/
def maxSubarraySum (arr : List Int) : Int :=
  (arr.foldl maxSubarraySumStep (0, 0)).1

/-- Sum `xs[i] + ... + xs[j-1]` of the contiguous run of `xs` from index `i`
(inclusive) to index `j` (exclusive); the empty run has sum `0`. -/
def runSum (xs : List Int) (i j : Nat) : Int :=
  ((xs.drop i).take (j - i)).sum


/-- Smallest value of a signed integer type of `w` bits, `-2 ^ (w - 1)`
(`INT_MIN` for `w = 32`). -/
def tMin (w : Nat) : Int := -((2 ^ (w - 1) : Nat) : Int)

/-- Largest value of a signed integer type of `w` bits, `2 ^ (w - 1) - 1`
(`INT_MAX` for `w = 32`). -/
def tMax (w : Nat) : Int := ((2 ^ (w - 1) : Nat) : Int) - 1

/-- The range-for loop of `maxSubarraySum` at `T` a signed integer type of `w`
bits, `int` or wider, from the state `(max, local)`, followed by `return max`.
`local += el` is evaluated in `T`: when the exact sum is not a value of `T` the
addition overflows, which is undefined behaviour for a signed type, and the
call has no result (`none`).  `max` only ever takes the value of `local`. -/
def maxSubarraySumLoopT (w : Nat) : List Int → Int × Int → Option Int
  | [], st => some st.1
  | el :: rest, st =>
    if tMin w ≤ st.2 + el ∧ st.2 + el ≤ tMax w then
      maxSubarraySumLoopT w rest (maxSubarraySumStep st el)
    else none

/-- `T maxSubarraySum(std::span<const T> arr)` at `T` a signed integer type of
`w` bits (`maxSubarraySum<int>` is `w = 32`): `T max{0}, local{0};`, the loop,
`return max`.  The elements of `arr` are values of `T`. -/
def maxSubarraySumT (w : Nat) (arr : List Int) : Option Int :=
  maxSubarraySumLoopT w arr (0, 0)
/-! ### Sorting engine (`lvt::algorithm::sorting`, declared in `lvt.hpp`)

The bodies of the sorting functions are in `lvt_impl.hpp`, which is absent; the
six strategies are modelled from their description in the spec.  A vector is a
list; the comparator `r a b` reads "`a` must come strictly before `b`": it is
`<` in the Ascending forms and `>` in the Descending forms. -/

section Sorting

variable {α : Type}

/-- The laws of the element comparison assumed by the sorting contract (a total
order: "equal elements must compare as neither less nor greater"): `r` is
irreflexive, transitive and any two distinct elements are related one way. -/
structure StrictTotal (r : α → α → Prop) : Prop where
  irrefl : ∀ a, ¬ r a a
  trans : ∀ a b c, r a b → r b c → r a c
  total : ∀ a b, r a b ∨ a = b ∨ r b a

/-- Modelled from the spec: in-place exchange of the elements at positions `i`
and `j` of a vector, the primitive of the in-place strategies whose bodies are
in the absent `lvt_impl.hpp`.  Positions outside the vector leave it unchanged. -/
def swapAt (l : List α) (i j : Nat) : List α :=
  match l[i]?, l[j]? with
  | some a, some b => (l.set i b).set j a
  | _, _ => l

/-- The elements at positions `a` and `b` of `l` are in order: the one at `b`
need not come before the one at `a` (vacuous outside the vector). -/
def LeAt (r : α → α → Prop) (l : List α) (a b : Nat) : Prop :=
  ∀ u v, l[a]? = some u → l[b]? = some v → ¬ r v u

/-! #### Bubble sort -/

/-- Modelled from the spec: one "adjacent-swap pass" of bubble sort (body in the
absent `lvt_impl.hpp`), from the position holding `cur` to the end: when the
next element must come before `cur` the two are swapped.  Returns the vector
after the pass and whether a swap occurred. -/
def bubbleCarry (r : α → α → Prop) [DecidableRel r] (cur : α) : List α → List α × Bool
  | [] => ([cur], false)
  | y :: rest =>
    if r y cur then (y :: (bubbleCarry r cur rest).1, true)
    else (cur :: (bubbleCarry r y rest).1, (bubbleCarry r y rest).2)

/-- Modelled from the spec: a whole adjacent-swap pass over the vector (absent
`lvt_impl.hpp`). -/
def bubblePass (r : α → α → Prop) [DecidableRel r] : List α → List α × Bool
  | [] => ([], false)
  | x :: rest => bubbleCarry r x rest

/-- Modelled from the spec: "adjacent-swap passes until no swap occurs" (absent
`lvt_impl.hpp`); the first argument bounds the number of passes. -/
def bubbleLoop (r : α → α → Prop) [DecidableRel r] : Nat → List α → List α
  | 0, l => l
  | fuel + 1, l =>
    if (bubblePass r l).2 then bubbleLoop r fuel (bubblePass r l).1 else (bubblePass r l).1

/-- Modelled from the spec: bubble sort for the comparator `r` (absent
`lvt_impl.hpp`); `n` passes are allowed on a vector of `n` elements. -/
def bubbleSortBy (r : α → α → Prop) [DecidableRel r] (v : List α) : List α :=
  bubbleLoop r v.length v

/-- Modelled from the spec: `bubbleSortAscending(std::vector<T> &)` (declared in
`lvt.hpp`, body in the absent `lvt_impl.hpp`); the result is the vector after
the call. -/
def bubbleSortAscending [LinearOrder α] (v : List α) : List α :=
  bubbleSortBy (fun a b => a < b) v

/-- Modelled from the spec: `bubbleSortDescending(std::vector<T> &)` (declared
in `lvt.hpp`, body in the absent `lvt_impl.hpp`). -/
def bubbleSortDescending [LinearOrder α] (v : List α) : List α :=
  bubbleSortBy (fun a b => a > b) v

/-! #### Insertion sort -/

/-- Modelled from the spec: insertion sort "shifts each new element into its
sorted prefix" (body in the absent `lvt_impl.hpp`).  The sorted prefix is held
right-to-left, so its head is the element next to the new one: while the key
must come before that element the element shifts and the key moves on. -/
def shiftInto (r : α → α → Prop) [DecidableRel r] (key : α) : List α → List α
  | [] => [key]
  | y :: ys => if r key y then y :: shiftInto r key ys else key :: y :: ys

/-- Modelled from the spec: insertion sort for the comparator `r` (absent
`lvt_impl.hpp`): every element in turn is shifted into the sorted prefix. -/
def insertionSortBy (r : α → α → Prop) [DecidableRel r] (v : List α) : List α :=
  (v.foldl (fun revPrefix key => shiftInto r key revPrefix) []).reverse

/-- Modelled from the spec: `insertionSortAscending(std::vector<T> &)` (declared
in `lvt.hpp`, body in the absent `lvt_impl.hpp`). -/
def insertionSortAscending [LinearOrder α] (v : List α) : List α :=
  insertionSortBy (fun a b => a < b) v

/-- Modelled from the spec: `insertionSortDescending(std::vector<T> &)`
(declared in `lvt.hpp`, body in the absent `lvt_impl.hpp`). -/
def insertionSortDescending [LinearOrder α] (v : List α) : List α :=
  insertionSortBy (fun a b => a > b) v

/-! #### Selection sort -/

/-- Modelled from the spec: selection sort "selects the extremum from the
unsorted suffix" (body in the absent `lvt_impl.hpp`): scan of the suffix that
keeps the position `bestIdx` of the first extremum `best` seen so far; `j` is
the position of the head of the remaining elements. -/
def extremumIndex (r : α → α → Prop) [DecidableRel r] (best : α) (bestIdx j : Nat) :
    List α → Nat
  | [] => bestIdx
  | y :: ys =>
    if r y best then extremumIndex r y j (j + 1) ys
    else extremumIndex r best bestIdx (j + 1) ys

/-- Modelled from the spec: one step of selection sort on the unsorted suffix
(absent `lvt_impl.hpp`): the extremum is exchanged with the first element. -/
def selectionStep (r : α → α → Prop) [DecidableRel r] : List α → List α
  | [] => []
  | x :: xs => swapAt (x :: xs) 0 (extremumIndex r x 0 1 xs)

/-- Modelled from the spec: selection sort "repeatedly selects extremum from
unsorted suffix" (absent `lvt_impl.hpp`); the argument list is the unsorted
suffix and the first argument bounds the number of steps. -/
def selectionLoop (r : α → α → Prop) [DecidableRel r] : Nat → List α → List α
  | 0, l => l
  | fuel + 1, l =>
    match selectionStep r l with
    | [] => []
    | m :: rest => m :: selectionLoop r fuel rest

/-- Modelled from the spec: selection sort for the comparator `r` (absent
`lvt_impl.hpp`). -/
def selectionSortBy (r : α → α → Prop) [DecidableRel r] (v : List α) : List α :=
  selectionLoop r v.length v

/-- Modelled from the spec: `selectionSortAscending(std::vector<T> &)` (declared
in `lvt.hpp`, body in the absent `lvt_impl.hpp`). -/
def selectionSortAscending [LinearOrder α] (v : List α) : List α :=
  selectionSortBy (fun a b => a < b) v

/-- Modelled from the spec: `selectionSortDescending(std::vector<T> &)`
(declared in `lvt.hpp`, body in the absent `lvt_impl.hpp`). -/
def selectionSortDescending [LinearOrder α] (v : List α) : List α :=
  selectionSortBy (fun a b => a > b) v

/-! #### Shell sort -/

/-- Modelled from the spec: comparison used by the gapped insertion of Shell
sort (body in the absent `lvt_impl.hpp`): both positions are inside the vector
and the element at `j` must come before the element at `i`. -/
def outOfOrder (r : α → α → Prop) [DecidableRel r] (l : List α) (i j : Nat) : Bool :=
  match l[i]?, l[j]? with
  | some a, some b => decide (r b a)
  | _, _ => false

/-- Modelled from the spec: Shell sort is a "gap-sequence refinement of
insertion sort" (body in the absent `lvt_impl.hpp`): the element at position
`j` moves towards the front in steps of `gap` while it must come before the
element `gap` positions earlier.  The first argument bounds the number of
moves. -/
def gapInsert (r : α → α → Prop) [DecidableRel r] (gap : Nat) : Nat → Nat → List α → List α
  | 0, _, l => l
  | fuel + 1, j, l =>
    if gap ≤ j ∧ outOfOrder r l (j - gap) j = true then
      gapInsert r gap fuel (j - gap) (swapAt l (j - gap) j)
    else l

/-- Modelled from the spec: one pass of Shell sort for a given gap (absent
`lvt_impl.hpp`): the gapped insertion of the elements at positions `i`,
`i + 1`, ..., `count` of them. -/
def gapPass (r : α → α → Prop) [DecidableRel r] (gap : Nat) : Nat → Nat → List α → List α
  | 0, _, l => l
  | count + 1, i, l => gapPass r gap count (i + 1) (gapInsert r gap i i l)

/-- Modelled from the spec: the gap sequence of Shell sort (absent
`lvt_impl.hpp`): a pass for the current gap over the positions `gap .. n - 1`,
then the gap is halved, until the gap is zero.  The first argument bounds the
number of gaps. -/
def shellLoop (r : α → α → Prop) [DecidableRel r] : Nat → Nat → List α → List α
  | 0, _, l => l
  | fuel + 1, gap, l =>
    if 0 < gap then shellLoop r fuel (gap / 2) (gapPass r gap (l.length - gap) gap l) else l

/-- Modelled from the spec: Shell sort for the comparator `r` (absent
`lvt_impl.hpp`), gaps `n / 2`, `n / 4`, ..., `1`. -/
def ShellSortBy (r : α → α → Prop) [DecidableRel r] (v : List α) : List α :=
  shellLoop r v.length (v.length / 2) v

/-- Modelled from the spec: `ShellSortAscending(std::vector<T> &)` (declared in
`lvt.hpp`, body in the absent `lvt_impl.hpp`). -/
def ShellSortAscending [LinearOrder α] (v : List α) : List α :=
  ShellSortBy (fun a b => a < b) v

/-- Modelled from the spec: `ShellSortDescending(std::vector<T> &)` (declared in
`lvt.hpp`, body in the absent `lvt_impl.hpp`). -/
def ShellSortDescending [LinearOrder α] (v : List α) : List α :=
  ShellSortBy (fun a b => a > b) v

/-! #### Quicksort (Hoare partition scheme) -/

/-- Modelled from the spec: test of the left scan of the Hoare partition (body
in the absent `lvt_impl.hpp`): the element at `i` must come strictly before the
pivot. -/
def isBefore (r : α → α → Prop) [DecidableRel r] (pivot : α) (l : List α) (i : Nat) : Bool :=
  match l[i]? with
  | some x => decide (r x pivot)
  | none => false

/-- Modelled from the spec: test of the right scan of the Hoare partition
(absent `lvt_impl.hpp`): the pivot must come strictly before the element at
`j`. -/
def isAfter (r : α → α → Prop) [DecidableRel r] (pivot : α) (l : List α) (j : Nat) : Bool :=
  match l[j]? with
  | some x => decide (r pivot x)
  | none => false

/-- Modelled from the spec: left scan of the Hoare partition (absent
`lvt_impl.hpp`): the index moves up while the element under it comes before
the pivot.  The first argument bounds the number of moves. -/
def scanUp (r : α → α → Prop) [DecidableRel r] (pivot : α) (l : List α) : Nat → Nat → Nat
  | 0, i => i
  | fuel + 1, i => if isBefore r pivot l i = true then scanUp r pivot l fuel (i + 1) else i

/-- Modelled from the spec: right scan of the Hoare partition (absent
`lvt_impl.hpp`): the index moves down while the pivot comes before the element
under it. -/
def scanDown (r : α → α → Prop) [DecidableRel r] (pivot : α) (l : List α) : Nat → Nat
  | 0 => 0
  | j + 1 => if isAfter r pivot l (j + 1) = true then scanDown r pivot l j else j + 1

/-- Modelled from the spec: main loop of the Hoare partition (absent
`lvt_impl.hpp`): scan up from `i`, scan down from `j`; when the scans have not
met, the two elements are exchanged in place and the loop goes on inside them;
otherwise the position of the right scan is the split point.  The first
argument bounds the number of exchanges. -/
def hoareLoop (r : α → α → Prop) [DecidableRel r] (pivot : α) :
    Nat → List α → Nat → Nat → List α × Nat
  | 0, l, _, j => (l, j)
  | fuel + 1, l, i, j =>
    if scanUp r pivot l l.length i < scanDown r pivot l j then
      hoareLoop r pivot fuel
        (swapAt l (scanUp r pivot l l.length i) (scanDown r pivot l j))
        (scanUp r pivot l l.length i + 1) (scanDown r pivot l j - 1)
    else (l, scanDown r pivot l j)

/-- Modelled from the spec: Hoare partition of the positions `lo .. hi`
(absent `lvt_impl.hpp`); "partition index selection must use floor-division":
the pivot is the element at `(lo + hi) / 2`.  Returns the vector and the split
point. -/
def hoarePartition (r : α → α → Prop) [DecidableRel r] (l : List α) (lo hi : Nat) :
    List α × Nat :=
  match l[(lo + hi) / 2]? with
  | some pivot => hoareLoop r pivot (hi + 2 - lo) l lo hi
  | none => (l, lo)

/-- Modelled from the spec: quicksort, "Hoare partition scheme, recursive,
in-place" (absent `lvt_impl.hpp`): a range of at least two positions is
partitioned and both sides of the split are sorted recursively.  The first
argument bounds the depth of the recursion. -/
def qSortBy (r : α → α → Prop) [DecidableRel r] : Nat → List α → Nat → Nat → List α
  | 0, l, _, _ => l
  | fuel + 1, l, lo, hi =>
    if lo < hi then
      qSortBy r fuel
        (qSortBy r fuel (hoarePartition r l lo hi).1 lo (hoarePartition r l lo hi).2)
        ((hoarePartition r l lo hi).2 + 1) hi
    else l

/-- Modelled from the spec: the auxiliary method of quicksort on the positions
`low .. high` (absent `lvt_impl.hpp`); the recursion is at most `high - low`
deep because both sides of a split are strictly shorter. -/
def qSortRange (r : α → α → Prop) [DecidableRel r] (arr : List α) (low high : Nat) : List α :=
  qSortBy r (high - low) arr low high

/-- Modelled from the spec: quicksort of a whole vector for the comparator `r`
(absent `lvt_impl.hpp`): the auxiliary method on the positions `0 .. n - 1`. -/
def quickSortBy (r : α → α → Prop) [DecidableRel r] (v : List α) : List α :=
  qSortRange r v 0 (v.length - 1)

/-- Modelled from the spec: `qSortAscending(std::vector<T> &arr, size_t, size_t)`
(declared in `lvt.hpp`, body in the absent `lvt_impl.hpp`). -/
def qSortAscending [LinearOrder α] (arr : List α) (low high : Nat) : List α :=
  qSortRange (fun a b => a < b) arr low high

/-- Modelled from the spec: `quickSortAscending(std::vector<T> &)` (declared in
`lvt.hpp`, body in the absent `lvt_impl.hpp`). -/
def quickSortAscending [LinearOrder α] (v : List α) : List α :=
  qSortAscending v 0 (v.length - 1)

/-- Modelled from the spec: `qSortDescending(std::vector<T> &arr, size_t,
size_t)` (declared in `lvt.hpp`, body in the absent `lvt_impl.hpp`). -/
def qSortDescending [LinearOrder α] (arr : List α) (low high : Nat) : List α :=
  qSortRange (fun a b => a > b) arr low high

/-- Modelled from the spec: `quickSortDescending(std::vector<T> &)` (declared in
`lvt.hpp`, body in the absent `lvt_impl.hpp`). -/
def quickSortDescending [LinearOrder α] (v : List α) : List α :=
  qSortDescending v 0 (v.length - 1)

/-- The vector `l2` is `l` rearranged inside the positions `lo .. hi`: a
permutation that leaves every other position alone and keeps inside the range
every property shared by the elements of the range. -/
structure RangeStep (lo hi : Nat) (l l2 : List α) : Prop where
  perm : l2.Perm l
  frame : ∀ k, (k < lo ∨ hi < k) → l2[k]? = l[k]?
  pres : ∀ P : α → Prop, (∀ k, lo ≤ k → k ≤ hi → ∀ v, l[k]? = some v → P v) →
    ∀ k, lo ≤ k → k ≤ hi → ∀ v, l2[k]? = some v → P v

/-- Invariant of the Hoare partition loop on the positions `lo .. hi` with the
scans about to start at `i` and `j`: nothing left of `i` comes after the pivot,
nothing right of `j` comes before it, each scan has an element that stops it
inside the range, and the split point will be below `hi`. -/
structure HoareInv (r : α → α → Prop) (pivot : α) (lo hi : Nat) (l : List α) (i j : Nat) :
    Prop where
  lo_le : lo ≤ i
  le_hi : j ≤ hi
  i_le : i ≤ j + 1
  left : ∀ k, lo ≤ k → k < i → ∀ v, l[k]? = some v → ¬ r pivot v
  right : ∀ k, j < k → k ≤ hi → ∀ v, l[k]? = some v → ¬ r v pivot
  upS : ∃ k v, i ≤ k ∧ k ≤ hi ∧ l[k]? = some v ∧ ¬ r v pivot
  downS : ∃ k v, lo ≤ k ∧ k ≤ j ∧ l[k]? = some v ∧ ¬ r pivot v
  strict : j < hi ∨ ∃ k v, i ≤ k ∧ k < hi ∧ l[k]? = some v ∧ ¬ r v pivot
  hi_lt : hi < l.length

/-! #### Merge sort -/

/-- Modelled from the spec: "merge two sorted halves into an auxiliary buffer"
(body in the absent `lvt_impl.hpp`): the next element of the buffer is the head
of the right half when it must come before the head of the left half, and the
head of the left half otherwise.  The first argument bounds the number of
elements moved. -/
def mergeInto (r : α → α → Prop) [DecidableRel r] : Nat → List α → List α → List α
  | 0, xs, ys => xs ++ ys
  | _ + 1, [], ys => ys
  | _ + 1, x :: xs, [] => x :: xs
  | fuel + 1, x :: xs, y :: ys =>
    if r y x then y :: mergeInto r fuel (x :: xs) ys else x :: mergeInto r fuel xs (y :: ys)

/-- Modelled from the spec: the recursive helper of merge sort on the part
`arr[start; end)` of the vector, here the list argument (body in the absent
`lvt_impl.hpp`): "divide at midpoint" with floor division, sort both halves,
merge them.  The first argument bounds the depth of the recursion. -/
def mergeSortHelperBy (r : α → α → Prop) [DecidableRel r] : Nat → List α → List α
  | 0, l => l
  | fuel + 1, l =>
    if l.length < 2 then l
    else
      mergeInto r l.length (mergeSortHelperBy r fuel (l.take (l.length / 2)))
        (mergeSortHelperBy r fuel (l.drop (l.length / 2)))

/-- Modelled from the spec: merge sort for the comparator `r` (absent
`lvt_impl.hpp`). -/
def mergeSortBy (r : α → α → Prop) [DecidableRel r] (v : List α) : List α :=
  mergeSortHelperBy r v.length v

/-- Modelled from the spec: `mergeSortAscendingHelper` (declared in `lvt.hpp`,
body in the absent `lvt_impl.hpp`) on the part of the vector given as a list. -/
def mergeSortAscendingHelper [LinearOrder α] (fuel : Nat) (arr : List α) : List α :=
  mergeSortHelperBy (fun a b => a < b) fuel arr

/-- Modelled from the spec: `mergeSortAscending(std::vector<T> &vec)` (declared
in `lvt.hpp`, body in the absent `lvt_impl.hpp`). -/
def mergeSortAscending [LinearOrder α] (vec : List α) : List α :=
  mergeSortAscendingHelper vec.length vec

/-- Modelled from the spec: `mergeSortHelper`, the helper of the descending
merge sort (declared in `lvt.hpp`, body in the absent `lvt_impl.hpp`). -/
def mergeSortHelper [LinearOrder α] (fuel : Nat) (arr : List α) : List α :=
  mergeSortHelperBy (fun a b => a > b) fuel arr

/-- Modelled from the spec: `mergeSortDescending(std::vector<T> &vec)` (declared
in `lvt.hpp`, body in the absent `lvt_impl.hpp`). -/
def mergeSortDescending [LinearOrder α] (vec : List α) : List α :=
  mergeSortHelper vec.length vec

end Sorting

/-! ### `findClosest` (declared in `lvt.hpp`) -/

/-- Modelled from the spec: the body of `findClosest` lives in `lvt_impl.hpp`,
which is absent; only the declaration `constexpr T findClosest(std::span<T const>
range, T value)` is in `lvt.hpp`.  One step of the scan over the sorted
reference sequence: the candidate `x` replaces the current best only when its
absolute difference to `value` is strictly smaller. -/
def findClosestStep (value : Int) (best x : Int) : Int :=
  if (x - value).natAbs < (best - value).natAbs then x else best

/-- Modelled from the spec: the body of `findClosest` (absent `lvt_impl.hpp`).
"Finds the element in a sorted reference sequence with minimal absolute
difference; if two reference elements are equidistant, the lower value wins":
a left-to-right scan of the ascending sequence that keeps the first element of
minimal distance.  An empty reference sequence has no closest element (`none`). -/
def findClosest (range : List Int) (value : Int) : Option Int :=
  match range with
  | [] => none
  | r :: rest => some (rest.foldl (findClosestStep value) r)

/-! ### `isBracketSequenceValid` (declared in `lvt.hpp`) -/

/-- Modelled from the spec: helper of `isBracketSequenceValid`, whose body is in
the absent `lvt_impl.hpp`.  The three opening brackets of `()[]{}`. -/
def isOpeningBracket (c : Char) : Bool :=
  c == '(' || c == '[' || c == '{'

/-- Modelled from the spec: helper of `isBracketSequenceValid` (absent
`lvt_impl.hpp`).  The three closing brackets of `()[]{}`. -/
def isClosingBracket (c : Char) : Bool :=
  c == ')' || c == ']' || c == '}'

/-- Modelled from the spec: helper of `isBracketSequenceValid` (absent
`lvt_impl.hpp`).  The "compare" of pop-and-compare: opener `o` and closer `c`
form one of the pairs `()`, `[]`, `{}`. -/
def bracketsMatch (o c : Char) : Bool :=
  (o == '(' && c == ')') || (o == '[' && c == ']') || (o == '{' && c == '}')

/-- Modelled from the spec: the loop of `isBracketSequenceValid` (absent
`lvt_impl.hpp`): "stack-based matching of `()[]{}` pairs; push on open,
pop-and-compare on close; valid iff the stack is empty at end and no mismatch
occurred during any pop".  A closer on an empty stack has nothing to pop and is
a mismatch.  Characters other than the six brackets are not described by the
spec; the model leaves the stack untouched on them. -/
def bracketScan : List Char → List Char → Bool
  | [], stack => stack.isEmpty
  | c :: cs, stack =>
    if isOpeningBracket c then bracketScan cs (c :: stack)
    else if isClosingBracket c then
      match stack with
      | [] => false
      | top :: below => if bracketsMatch top c then bracketScan cs below else false
    else bracketScan cs stack

/-- Modelled from the spec: `bool isBracketSequenceValid(std::string_view seq)`
(declared in `lvt.hpp`, body in the absent `lvt_impl.hpp`): the scan started on
an empty stack. -/
def isBracketSequenceValid (seq : String) : Bool :=
  bracketScan seq.data []

/-- Properly nested, balanced bracket strings: the empty string, a balanced
string wrapped in a matching pair, and the concatenation of two balanced
strings. -/
inductive Balanced : List Char → Prop
  | nil : Balanced []
  | wrap (o c : Char) (s : List Char) :
      bracketsMatch o c = true → Balanced s → Balanced (o :: s ++ [c])
  | append (s t : List Char) : Balanced s → Balanced t → Balanced (s ++ t)

/-- The string `s` closes the pending openers `stack` (most recent first): it is
a balanced string when nothing is pending, and otherwise a balanced string, the
closer of the most recent opener, and a string closing the remaining openers. -/
inductive Closes : List Char → List Char → Prop
  | done (s : List Char) : Balanced s → Closes [] s
  | close (o c : Char) (stack b s : List Char) :
      bracketsMatch o c = true → Balanced b → Closes stack s →
      Closes (o :: stack) (b ++ c :: s)

/-! ### `lengthOfLongestSubstring` (declared in `lvt.hpp`) -/

/-- Modelled from the spec: helper of `lengthOfLongestSubstring`, whose body is
in the absent `lvt_impl.hpp`.  "Whenever a repeat is found inside the current
window, advances the window start past the previous occurrence": `prev` is the
last-seen position of the character being read. -/
def windowStart (start : Nat) (prev : Option Nat) : Nat :=
  match prev with
  | some p => if start ≤ p then p + 1 else start
  | none => start

/-- Modelled from the spec: the sliding-window loop of `lengthOfLongestSubstring`
(absent `lvt_impl.hpp`).  The state is the current index `i`, the window start
index, the map of last-seen positions of each character, and the maximum
window length observed so far. -/
def lolsLoop : List Char → Nat → Nat → (Char → Option Nat) → Nat → Nat
  | [], _, _, _, best => best
  | c :: cs, i, start, lastSeen, best =>
    lolsLoop cs (i + 1) (windowStart start (lastSeen c))
      (fun x => if x = c then some i else lastSeen x)
      (max best (i + 1 - windowStart start (lastSeen c)))

/-- Modelled from the spec: `int lengthOfLongestSubstring(std::string_view s)`
(declared in `lvt.hpp`, body in the absent `lvt_impl.hpp`): the loop started at
index `0` with an empty window, an empty map and maximum `0`. -/
def lengthOfLongestSubstring (s : String) : Int :=
  (lolsLoop s.data 0 0 (fun _ => none) 0 : Nat)

/-- The characters of `s` at the positions `a ≤ x < b` are pairwise distinct. -/
def DistinctOn (s : List Char) (a b : Nat) : Prop :=
  ∀ x y, a ≤ x → x < y → y < b → s[x]? ≠ s[y]?

/-- Loop invariant of `lolsLoop` after reading the first `i` characters of `s`:
the window `[start, i)` has distinct characters and cannot be extended to the
left, the map holds the last position of every character read, and `best` is
the greatest length of a run of distinct characters ending at or before `i`. -/
structure LolsInv (s : List Char) (i start : Nat) (last : Char → Option Nat)
    (best : Nat) : Prop where
  start_le : start ≤ i
  i_le : i ≤ s.length
  window : DistinctOn s start i
  minimal : ∀ a, a < start → ¬ DistinctOn s a i
  last_some : ∀ c q, last c = some q →
    q < i ∧ s[q]? = some c ∧ ∀ r, q < r → r < i → s[r]? ≠ some c
  last_none : ∀ c, last c = none → ∀ r, r < i → s[r]? ≠ some c
  best_ub : ∀ a b, a ≤ b → b ≤ i → DistinctOn s a b → b - a ≤ best
  best_at : ∃ a b, a ≤ b ∧ b ≤ i ∧ DistinctOn s a b ∧ b - a = best

/-! ### `calculateIntervalsLength` (declared in `lvt.hpp`) -/

/-- Modelled from the spec: the sweep of `calculateIntervalsLength`, whose body
is in the absent `lvt_impl.hpp`: "sweep merging any interval whose start ≤
current merged end".  The state is the current merged interval
`[curStart, curEnd]` and the total length of the merged intervals already
closed; the input is the remaining intervals, sorted by start. -/
def sweepIntervals : List (Int × Int) → Int → Int → Int → Int
  | [], curStart, curEnd, total => total + (curEnd - curStart)
  | (s, e) :: rest, curStart, curEnd, total =>
    if s ≤ curEnd then sweepIntervals rest curStart (max curEnd e) total
    else sweepIntervals rest s e (total + (curEnd - curStart))

/-- Modelled from the spec: helper of `calculateIntervalsLength` (absent
`lvt_impl.hpp`): the sweep over a list sorted by start, opened with its first
interval; no interval covers length `0`. -/
def mergedLength (sorted : List (Int × Int)) : Int :=
  match sorted with
  | [] => 0
  | (s, e) :: rest => sweepIntervals rest s e 0

/-- Modelled from the spec: the order "by start" used to sort the intervals of
`calculateIntervalsLength` (absent `lvt_impl.hpp`). -/
def startLE (a b : Int × Int) : Prop := a.1 ≤ b.1

/-- Comparison of starts is decidable. -/
instance startLE_decidable : DecidableRel startLE :=
  fun a b => inferInstanceAs (Decidable (a.1 ≤ b.1))

/-- Modelled from the spec: `int calculateIntervalsLength(std::vector<std::pair<
int, int>> intervals)` (declared in `lvt.hpp`, body in the absent
`lvt_impl.hpp`): "returns -1 as an explicit sentinel failure value when input
is malformed (any interval with start > end)"; otherwise "sort by start, sweep
merging any interval whose start ≤ current merged end" and sum the lengths. -/
def calculateIntervalsLength (intervals : List (Int × Int)) : Int :=
  if intervals.any (fun p => decide (p.1 > p.2)) then -1
  else mergedLength (intervals.insertionSort startLE)

/-- The unit cells `[k, k+1)` covered by the union of the intervals, each named
by its left end `k`: the length of the union of integer intervals is the number
of these cells, overlapping parts counted once. -/
def coveredCells (intervals : List (Int × Int)) : Finset Int :=
  intervals.foldr (fun p acc => Finset.Ico p.1 p.2 ∪ acc) ∅

/-! ### `stringPermutations` (declared in `lvt.hpp`) -/

/-- Modelled from the spec: the enumeration behind `stringPermutations`, whose
body is in the absent `lvt_impl.hpp`: "exhaustive enumeration of all distinct
orderings of a string's characters; duplicate characters must not produce
duplicate permutations".  Every distinct character of `s` is taken once as the
first character, followed by every ordering of the remaining characters; the
first argument is the number of characters still to place. -/
def permutationsAux : Nat → List Char → List (List Char)
  | 0, _ => [[]]
  | n + 1, s =>
    s.dedup.flatMap (fun c => (permutationsAux n (s.erase c)).map (fun t => c :: t))

/-- Modelled from the spec: `std::vector<std::string> stringPermutations(
std::string s)` (declared in `lvt.hpp`, body in the absent `lvt_impl.hpp`). -/
def stringPermutations (s : String) : List String :=
  (permutationsAux s.data.length s.data).map String.mk

/-! ### `tribonacci` (declared in `lvt.hpp`) -/

/-- Modelled from the spec: the loop of `tribonacci`, whose body is in the
absent `lvt_impl.hpp`: "each new term is the sum of the preceding k terms".
The first argument is the seed length `k`, the second the number of terms still
to append. -/
def tribonacciGrow (k : Nat) : Nat → List Int → List Int
  | 0, acc => acc
  | m + 1, acc => tribonacciGrow k m (acc ++ [(acc.drop (acc.length - k)).sum])

/-- Modelled from the spec: `std::vector<int> tribonacci(std::vector<int>
signature, int n)` (declared in `lvt.hpp`, body in the absent `lvt_impl.hpp`):
"given a seed sequence of length k and a target length n, produces n terms".
A target length not above `k` keeps the first `n` seed elements.  The target
length is a count, so it is a natural number here. -/
def tribonacci (signature : List Int) (n : Nat) : List Int :=
  if n ≤ signature.length then signature.take n
  else tribonacciGrow signature.length (n - signature.length) signature

/-! ### String checks (`lvt::string::checkings`, `lvtlib.cpp`)

A `std::string` is the list of its characters; an iterator into it is the part
of the string from the iterator to the end, so `it == __str.end()` reads "the
remaining part is empty". -/

/-- `std::isdigit` on a character of a string: true exactly for the ten decimal
digits. -/
def isdigit (c : Char) : Bool := c.isDigit

/-- `bool is_uint_number(const std::string &__str)`:
`while (it != __str.end() && std::isdigit(*it)) ++it;` then
`return ((!__str.empty()) && (it == __str.end()));`. -/
def is_uint_number (str : String) : Bool :=
  !str.data.isEmpty && (str.data.dropWhile isdigit).isEmpty

/-- `bool is_int_number(const std::string &__str)`: the first loop counts the
minus signs the string starts with (it stops at the first other character);
the iterator goes back to the beginning; when `minus_count <= 1U` the second
loop advances over digits and minus signs; the result is
`(!__str.empty()) && (it == __str.end())`.  The counter is a natural number
(no wrap-around of `unsigned int`). -/
def is_int_number (str : String) : Bool :=
  let minus_count := (str.data.takeWhile (fun c => c == '-')).length
  let it :=
    if minus_count ≤ 1 then str.data.dropWhile (fun c => isdigit c || c == '-')
    else str.data
  !str.data.isEmpty && it.isEmpty

/-- `bool is_floating_number(const std::string &__str)`: the first loop counts
all minus signs and all points (the pair `(count_minus, count_point)`); then
`__str.at(0UL)` is read, which throws `std::out_of_range` on the empty string
(the result `none`); a leading point returns `false`; when both counts are at
most one the last loop advances over digits, points and minus signs; the
result is `(!__str.empty()) && (it == __str.end())`.  The counters are natural
numbers (no wrap-around of `unsigned int`). -/
def is_floating_number (str : String) : Option Bool :=
  let counts := str.data.foldl
    (fun (cnt : Nat × Nat) c =>
      (if c == '-' then cnt.1 + 1 else cnt.1, if c == '.' then cnt.2 + 1 else cnt.2)) (0, 0)
  match str.data with
  | [] => none
  | c0 :: _ =>
    if c0 == '.' then some false
    else
      let it :=
        if counts.2 ≤ 1 ∧ counts.1 ≤ 1 then
          str.data.dropWhile (fun c => isdigit c || c == '.' || c == '-')
        else str.data
      some (!str.data.isEmpty && it.isEmpty)

/-- A signed integer number as text: an optional single leading minus sign
followed by one or more decimal digits, with no minus sign anywhere else. -/
def isSignedIntegerText (s : List Char) : Bool :=
  match s with
  | '-' :: ds => !ds.isEmpty && ds.all isdigit
  | ds => !ds.isEmpty && ds.all isdigit

/-- A floating number as text: at least one decimal digit, a minus sign only as
the first character, at most one point, and every other character a digit. -/
def isFloatingText (s : List Char) : Bool :=
  s.any isdigit && (s.drop 1).all (fun c => c != '-') && decide (s.count '.' ≤ 1) &&
    s.all (fun c => isdigit c || c == '-' || c == '.')

/-! ### Vowels (`is_vowel`, `remove_vowels_`, `remove_vowels_regex`, `lvtlib.cpp`) -/

/-- `bool is_vowel(const char &__ch)`: the disjunction of the ten comparisons
`__ch == 'a' || ... || __ch == 'U'`. -/
def is_vowel (ch : Char) : Bool :=
  ch == 'a' || ch == 'e' || ch == 'i' || ch == 'o' || ch == 'u' ||
    ch == 'A' || ch == 'E' || ch == 'I' || ch == 'O' || ch == 'U'

/-- The compaction loop of `std::remove_if` over a buffer: `i` is the position
being read, `first` the position of the next element to keep; an element that
does not satisfy the predicate is moved to `first`.  Returns the buffer and the
new logical end.  The first argument bounds the number of positions read. -/
def removeIfLoop {α : Type} (pred : α → Bool) : Nat → Nat → Nat → List α → List α × Nat
  | 0, _, first, buf => (buf, first)
  | fuel + 1, i, first, buf =>
    match buf[i]? with
    | none => (buf, first)
    | some x =>
      if pred x then removeIfLoop pred fuel (i + 1) first buf
      else removeIfLoop pred fuel (i + 1) (first + 1) (buf.set first x)

/-- `std::remove_if(std::begin(str), std::end(str), pred)`: the buffer after the
compaction and the iterator to its new logical end. -/
def remove_if {α : Type} (pred : α → Bool) (range : List α) : List α × Nat :=
  removeIfLoop pred range.length 0 0 range

/-- `str.erase(first, std::cend(str))`: everything from `first` on is erased. -/
def eraseToEnd {α : Type} (range : List α) (first : Nat) : List α :=
  range.take first

/-- `std::string remove_vowels_(const std::string &__str)`: a copy of the
string, `str.erase(std::remove_if(begin, end, is_vowel), std::cend(str))`, and
the copy is returned. -/
def remove_vowels_ (str : String) : String :=
  String.mk (eraseToEnd (remove_if is_vowel str.data).1 (remove_if is_vowel str.data).2)

/-- `std::regex_replace(s, std::regex("[...]"), "")` for a bracket expression
listing the characters `cls`: every character of the class is a match and is
replaced by the empty string. -/
def regexReplaceClass (cls : List Char) (s : List Char) : List Char :=
  s.filter (fun c => !cls.contains c)

/-- `std::string remove_vowels_regex(const std::string &__str)`: returns
`std::regex_replace(str, vowels, "")` for `vowels("[aeiouAEOIOU]")`. -/
def remove_vowels_regex (str : String) : String :=
  String.mk (regexReplaceClass "aeiouAEOIOU".data str.data)

/-- `void remove_vowels_regex(std::string &__str)`: the statement
`std::regex_replace(__str, vowels, "");` computes a new string and drops it;
nothing is assigned to `__str`.  The result is the value of `__str` after the
call. -/
def remove_vowels_regex_inplace (str : String) : String :=
  let _discarded := regexReplaceClass "aeiouAEOIOU".data str.data
  str

/-! ### Erasing runs (`remove_consecutive_spaces`, `remove_same_elems`, `lvtlib.cpp`)

Both functions are the same pair of loops,
`for (it = cbegin; it != cend; ++it) while ((it + 1) != cend && COND) erase(it);`
with a different condition on the elements at `it` and `it + 1`.  A valid
iterator is the index it points to.  `erase(it)` invalidates every iterator at
or after the erased element, `it` itself included, and the value it returns is
dropped; any later use of `it` is undefined behaviour, so from there on the
call has no result (`none`). -/

section EraseRuns

variable {α : Type}

/-- The inner loop `while (((it + 1) != cend(range)) && cond(*it, *(it + 1)))
range.erase(it);` entered with a valid `it`.  When the test fails the loop ends
with the range as it is.  When it holds, `range.erase(it)` runs and the test is
evaluated again, now on the invalidated `it`: undefined behaviour. -/
def eraseInner (cond : α → α → Bool) (it : Nat) (range : List α) : Option (List α) :=
  match range[it]?, range[it + 1]? with
  | some a, some b => if cond a b then none else some range
  | _, _ => some range

/-- The outer loop `for (auto it{cbegin(range)}; it != cend(range); ++it)` around
the inner loop.  The first argument bounds the number of iterations. -/
def eraseOuter (cond : α → α → Bool) : Nat → Nat → List α → Option (List α)
  | 0, _, range => some range
  | fuel + 1, it, range =>
    if it = range.length then some range
    else
      match eraseInner cond it range with
      | none => none
      | some range2 => eraseOuter cond fuel (it + 1) range2

/-- `void remove_same_elems(std::vector<T> &__range)`, condition
`*it == *(it + 1)`; the result is the vector after the call, `none` when the
call runs into undefined behaviour. -/
def remove_same_elems [DecidableEq α] (range : List α) : Option (List α) :=
  eraseOuter (fun a b => decide (a = b)) range.length 0 range

/-- The list with every maximal run collapsed to one element: an element is
dropped exactly when it forms, with the element after it, a pair satisfying
`cond` (two equal neighbours; two neighbouring spaces). -/
def collapseRuns (cond : α → α → Bool) : List α → List α
  | [] => []
  | [a] => [a]
  | a :: b :: t =>
    if cond a b then collapseRuns cond (b :: t) else a :: collapseRuns cond (b :: t)

end EraseRuns

/-- `std::string remove_consecutive_spaces(const std::string &__str)` (and the
in-place overload, which has the same loops), condition
`*it == *(it + 1) && (*it == ' ')`; the result is the returned string, `none`
when the call runs into undefined behaviour. -/
def remove_consecutive_spaces (str : String) : Option String :=
  (eraseOuter (fun a b => a == b && a == ' ') str.data.length 0 str.data).map String.mk

/-! ### `split_number_on_digits` (`lvtlib.cpp`) -/

/-- The loop `while (true)` of `split_number_on_digits`:
`digits.push_back(number_copy % 10); number_copy /= 10;
if (number_copy == 0) return digits;`.  The first argument bounds the number
of iterations. -/
def splitDigitsLoop : Nat → Nat → List Int → List Int
  | 0, _, digits => digits
  | fuel + 1, number_copy, digits =>
    if number_copy / 10 = 0 then digits ++ [((number_copy % 10 : Nat) : Int)]
    else splitDigitsLoop fuel (number_copy / 10) (digits ++ [((number_copy % 10 : Nat) : Int)])

/-- `std::vector<int> split_number_on_digits(const unumeric_t &__number)` for a
non-negative integer: the loop started on the number with no digits; a number
`n` needs fewer than `n + 1` iterations. -/
def split_number_on_digits (number : Nat) : List Int :=
  splitDigitsLoop (number + 1) number []

/-- The number written by the digits `d_0, d_1, ...`, least significant first:
the sum of `d_i * 10 ^ i`. -/
def digitsValue (ds : List Int) : Int :=
  ∑ i in Finset.range ds.length, ds.getD i 0 * 10 ^ i

/-! ### `split_str` (`lvtlib.cpp`)

Positions and sizes are natural numbers and `std::string::npos` is `none`.
The only subtraction of the function that can wrap around, in the count of the
last `substr` when `initial_pos` is past the end, belongs to a call that throws
before the count is used. -/

/-- Result of a call of `split_str`: the returned vector, or the
`std::out_of_range` thrown by `std::string::substr`; `unfinished` is the
outcome of the model when the bound on the iterations is reached, which does
not happen with the bound used by `split_str`. -/
inductive SplitOutcome where
  | returned (splitted_str : List String)
  | out_of_range
  | unfinished
  deriving DecidableEq

/-- The search of `std::string::find` through the part `rest` of the string that
starts at position `p`: the first position at which the string continues with
`d`.  The empty string continues with the empty `d` only. -/
def findAt (d : List Char) : List Char → Nat → Option Nat
  | [], p => if d.isPrefixOf [] then some p else none
  | c :: cs, p => if d.isPrefixOf (c :: cs) then some p else findAt d cs (p + 1)

/-- `str.find(d, start)`: the lowest position `>= start` at which `d` occurs in
`str`, `npos` (`none`) when there is none or when `start > str.size()`. -/
def find (str d : List Char) (start : Nat) : Option Nat :=
  if start ≤ str.length then findAt d (str.drop start) start else none

/-- `str.substr(pos, count)`: the characters `[pos, pos + count)` cut at the end
of the string; throws `std::out_of_range` (`none`) when `pos > str.size()`. -/
def substr (str : List Char) (pos count : Nat) : Option (List Char) :=
  if pos ≤ str.length then some ((str.drop pos).take count) else none

/-- The body of `split_str` from the `while (pos != std::string::npos)` loop on:
while `pos` is a position, `str.substr(initial_pos, pos - initial_pos)` is
pushed, `initial_pos = pos + 1UL` and `pos = str.find(__delimiter, initial_pos)`;
then the last word `str.substr(initial_pos, std::min(pos, str.size()) -
initial_pos + 1)` is pushed (`pos` is `npos` there, so the minimum is the size).
The first argument bounds the number of iterations. -/
def splitLoop (str d : List Char) :
    Nat → Option Nat → Nat → List String → SplitOutcome
  | 0, _, _, _ => SplitOutcome.unfinished
  | fuel + 1, some pos, initial_pos, splitted_str =>
    match substr str initial_pos (pos - initial_pos) with
    | none => SplitOutcome.out_of_range
    | some word =>
      splitLoop str d fuel (find str d (pos + 1)) (pos + 1) (splitted_str ++ [String.mk word])
  | _ + 1, none, initial_pos, splitted_str =>
    match substr str initial_pos (str.length - initial_pos + 1) with
    | none => SplitOutcome.out_of_range
    | some word => SplitOutcome.returned (splitted_str ++ [String.mk word])

/-- `std::vector<std::string> split_str(const std::string &__str, const
std::string &__delimiter)`: `pos{str.find(__delimiter)}`, `initial_pos{0UL}`,
an empty vector, then the loop.  Every iteration moves `initial_pos` forward,
at most to `size + 1`, so `size + 2` iterations are allowed. -/
def split_str (str delimiter : String) : SplitOutcome :=
  splitLoop str.data delimiter.data (str.data.length + 2) (find str.data delimiter.data 0) 0 []

/-! ### `sliceVector` and `make_vector_of_pairs_by_two_vectors` (`lvtlib.cpp`) -/

section Vectors

variable {α β : Type}

/-- `std::vector<T> sliceVector(std::span<const T> vec, first, last)`: the new
vector `res(std::cbegin(vec) + first, std::cbegin(vec) + last + 1)`, the
elements from position `first` up to, not including, position `last + 1`.  An
iterator range that is not inside the vector is undefined behaviour (`none`).
The indices are natural numbers. -/
def sliceVector (vec : List α) (first last : Nat) : Option (List α) :=
  if first ≤ last + 1 ∧ last + 1 ≤ vec.length then
    some ((vec.drop first).take (last + 1 - first))
  else none

/-- The binary `std::transform(begin(vec1), end(vec1), begin(vec2),
back_inserter(result_vec), make_pair)`: for every element of the first range
the element at the same position of the second range is read and the pair is
appended.  Reading past the end of the second range is undefined behaviour
(`none`). -/
def transformPairs : List α → List β → Option (List (α × β))
  | [], _ => some []
  | _ :: _, [] => none
  | value1 :: rest1, value2 :: rest2 =>
    match transformPairs rest1 rest2 with
    | some result => some ((value1, value2) :: result)
    | none => none

/-- `make_vector_of_pairs_by_two_vectors(__vec1, __vec2)`: copies of the two
vectors are walked by `std::transform` into the empty `result_vec`, which is
returned. -/
def make_vector_of_pairs_by_two_vectors (vec1 : List α) (vec2 : List β) :
    Option (List (α × β)) :=
  transformPairs vec1 vec2

end Vectors

/-! ### Comparison wrappers (`is_equal`, `is_lower`, `is_bigger`, `lvtlib.cpp`) -/

section Comparisons

variable {α : Type}

/-- `bool is_equal(const T &__num1, const T &__num2)`:
`return (__num1 == __num2) ? true : false;`. -/
def is_equal [DecidableEq α] (num1 num2 : α) : Bool := if num1 = num2 then true else false

/-- `bool is_lower(const T &__num1, const T &__num2)`:
`return (__num1 < __num2) ? true : false;`. -/
def is_lower [LinearOrder α] (num1 num2 : α) : Bool := if num1 < num2 then true else false

/-- `bool is_bigger(const T &__num1, const T &__num2)`:
`return (__num1 > __num2) ? true : false;`. -/
def is_bigger [LinearOrder α] (num1 num2 : α) : Bool := if num1 > num2 then true else false

end Comparisons

/-! ## Theorems -/

/-! ### `maxSubarraySum` -/

/-- Generalised loop invariant of Kadane's algorithm: started in a state
`(m, l)` with `0 ≤ l ≤ m`, the final maximum dominates `m`, every `l + ` prefix
sum and every run sum of the remaining input, and it is one of those values. -/
theorem maxSubarraySum_fold_spec (xs : List Int) :
    ∀ m l : Int, 0 ≤ l → l ≤ m →
      (m ≤ (xs.foldl maxSubarraySumStep (m, l)).1) ∧
      (∀ s, s <+: xs → l + s.sum ≤ (xs.foldl maxSubarraySumStep (m, l)).1) ∧
      (∀ s, s <:+: xs → s.sum ≤ (xs.foldl maxSubarraySumStep (m, l)).1) ∧
      ((xs.foldl maxSubarraySumStep (m, l)).1 = m ∨
        (∃ s, s <+: xs ∧ (xs.foldl maxSubarraySumStep (m, l)).1 = l + s.sum) ∨
        (∃ s, s <:+: xs ∧ (xs.foldl maxSubarraySumStep (m, l)).1 = s.sum)) := by
  induction xs with
  | nil =>
    intro m l h0 hlm
    refine ⟨le_refl _, ?_, ?_, Or.inl rfl⟩
    · intro s hs
      have : s = [] := List.prefix_nil.mp hs
      subst this; simpa using hlm
    · intro s hs
      have : s = [] := List.infix_nil.mp hs
      subst this; simp; omega
  | cons x t ih =>
    intro m l h0 hlm
    rw [List.foldl_cons]
    have hstep : maxSubarraySumStep (m, l) x
        = (if l + x > m then l + x else m, if l + x < 0 then 0 else l + x) := rfl
    rw [hstep]
    set m2 : Int := if l + x > m then l + x else m with hm2
    set l2 : Int := if l + x < 0 then 0 else l + x with hl2
    have hm2a : m ≤ m2 := by rw [hm2]; split <;> omega
    have hm2b : l + x ≤ m2 := by rw [hm2]; split <;> omega
    have hl2a : 0 ≤ l2 := by rw [hl2]; split <;> omega
    have hl2b : l + x ≤ l2 := by rw [hl2]; split <;> omega
    have hl2m : l2 ≤ m2 := by rw [hl2, hm2]; split <;> split <;> omega
    obtain ⟨a1, a2, a3, a4⟩ := ih m2 l2 hl2a hl2m
    have hpre : ∀ s, s <+: x :: t →
        l + s.sum ≤ (List.foldl maxSubarraySumStep (m2, l2) t).1 := by
      intro s hs
      rcases List.prefix_cons_iff.mp hs with h | ⟨s2, rfl, hs2⟩
      · subst h; simp; omega
      · have := a2 s2 hs2
        simp only [List.sum_cons]; omega
    refine ⟨le_trans hm2a a1, hpre, ?_, ?_⟩
    · intro s hs
      rcases List.infix_cons_iff.mp hs with h | h
      · have := hpre s h; omega
      · exact a3 s h
    · rcases a4 with h | ⟨s, hs, h⟩ | ⟨s, hs, h⟩
      · by_cases hc : l + x > m
        · right; left
          refine ⟨[x], ?_, ?_⟩
          · simp [List.prefix_cons_iff]
          · rw [h, hm2, if_pos hc]; simp
        · left; rw [h, hm2, if_neg hc]
      · by_cases hc : l + x < 0
        · right; right
          refine ⟨s, List.infix_cons_iff.mpr (Or.inr hs.isInfix), ?_⟩
          rw [h, hl2, if_pos hc]; simp
        · right; left
          refine ⟨x :: s, ?_, ?_⟩
          · exact List.prefix_cons_iff.mpr (Or.inr ⟨s, rfl, hs⟩)
          · rw [h, hl2, if_neg hc]; simp only [List.sum_cons]; omega
      · right; right
        exact ⟨s, List.infix_cons_iff.mpr (Or.inr hs), h⟩

/-- The contiguous sublists of `xs` are exactly the index runs `xs[i..j)`. -/
theorem infix_iff_run {α : Type} (xs ys : List α) :
    ys <:+: xs ↔ ∃ i j, i ≤ j ∧ j ≤ xs.length ∧ ys = (xs.drop i).take (j - i) := by
  constructor
  · rintro ⟨s, t, rfl⟩
    refine ⟨s.length, s.length + ys.length, by omega, by simp, ?_⟩
    simp
  · rintro ⟨i, j, _, _, rfl⟩
    exact (List.take_prefix _ _).isInfix.trans (List.drop_suffix _ _).isInfix

/-- An input without positive elements never moves the state away from `(0, 0)`. -/
theorem maxSubarraySum_fold_nonpos (xs : List Int) (h : ∀ x ∈ xs, x ≤ 0) :
    xs.foldl maxSubarraySumStep (0, 0) = (0, 0) := by
  induction xs with
  | nil => rfl
  | cons x t ih =>
    have hx : x ≤ 0 := h x (List.mem_cons_self _ _)
    have hstep : maxSubarraySumStep (0, 0) x = (0, 0) := by
      have e : maxSubarraySumStep (0, 0) x
          = (if 0 + x > 0 then 0 + x else 0, if 0 + x < 0 then 0 else 0 + x) := rfl
      rw [e]
      have h1 : ¬ (0 + x > 0) := by omega
      rw [if_neg h1]
      by_cases h2 : 0 + x < 0
      · rw [if_pos h2]
      · rw [if_neg h2]
        have : 0 + x = 0 := by omega
        rw [this]
    rw [List.foldl_cons, hstep]
    exact ih (fun y hy => h y (List.mem_cons_of_mem _ hy))

/-- In exact arithmetic the loop computes the largest sum over all contiguous
runs `xs[i..j)` with `0 ≤ i ≤ j ≤ |xs|`, the empty run (sum `0`) included: the
value bounds every run sum from above and is itself the sum of some run.  On
`[1, -2, 3, 4, -1]` it is `7`. -/
theorem maxSubarraySum_eq_max_run (xs : List Int) :
    ((∀ i j, i ≤ j → j ≤ xs.length → runSum xs i j ≤ maxSubarraySum xs) ∧
      (∃ i j, i ≤ j ∧ j ≤ xs.length ∧ runSum xs i j = maxSubarraySum xs)) ∧
    maxSubarraySum [1, -2, 3, 4, -1] = 7 := by
  obtain ⟨_, _, h3, h4⟩ := maxSubarraySum_fold_spec xs 0 0 (le_refl _) (le_refl _)
  refine ⟨⟨?_, ?_⟩, by decide⟩
  · intro i j hij hj
    exact h3 _ ((infix_iff_run xs _).mpr ⟨i, j, hij, hj, rfl⟩)
  · rcases h4 with h | ⟨s, hs, h⟩ | ⟨s, hs, h⟩
    · exact ⟨0, 0, le_refl _, Nat.zero_le _, by unfold runSum maxSubarraySum; rw [h]; simp⟩
    · obtain ⟨i, j, hij, hj, rfl⟩ := (infix_iff_run xs s).mp hs.isInfix
      exact ⟨i, j, hij, hj, by unfold runSum maxSubarraySum; omega⟩
    · obtain ⟨i, j, hij, hj, rfl⟩ := (infix_iff_run xs s).mp hs
      exact ⟨i, j, hij, hj, by unfold runSum maxSubarraySum; omega⟩

/-- The largest value of a signed integer type is not negative. -/
theorem tMax_nonneg (w : Nat) : 0 ≤ tMax w := by
  have : 1 ≤ 2 ^ (w - 1) := Nat.one_le_two_pow
  unfold tMax
  omega

/-- Whenever the fixed-width loop returns a value, it is the value computed in
exact arithmetic, and it is a value of `T` if the starting maximum is. -/
theorem maxSubarraySumLoopT_some (w : Nat) (xs : List Int) :
    ∀ (st : Int × Int) (r : Int), maxSubarraySumLoopT w xs st = some r →
      r = (xs.foldl maxSubarraySumStep st).1 ∧ (st.1 ≤ tMax w → r ≤ tMax w) := by
  induction xs with
  | nil =>
    intro st r h
    rw [maxSubarraySumLoopT] at h
    cases h
    exact ⟨rfl, id⟩
  | cons x t ih =>
    intro st r h
    rw [maxSubarraySumLoopT] at h
    by_cases hr : tMin w ≤ st.2 + x ∧ st.2 + x ≤ tMax w
    · rw [if_pos hr] at h
      obtain ⟨h1, h2⟩ := ih _ r h
      refine ⟨by rw [List.foldl_cons]; exact h1, fun hm => h2 ?_⟩
      have e : (maxSubarraySumStep st x).1 = if st.2 + x > st.1 then st.2 + x else st.1 := rfl
      rw [e]
      split <;> omega
    · rw [if_neg hr] at h
      cases h

/-- Started in a state `(m, l)` with `0 ≤ l ≤ m`, on elements that are values of
`T`, the fixed-width loop returns the value computed in exact arithmetic when
`l` plus any prefix sum and every run sum of the remaining input are at most
the largest value of `T`: no addition overflows. -/
theorem maxSubarraySumLoopT_eq (w : Nat) (xs : List Int) :
    ∀ m l : Int, 0 ≤ l → l ≤ m → (∀ x ∈ xs, tMin w ≤ x) →
      (∀ s, s <+: xs → l + s.sum ≤ tMax w) → (∀ s, s <:+: xs → s.sum ≤ tMax w) →
      maxSubarraySumLoopT w xs (m, l) = some (xs.foldl maxSubarraySumStep (m, l)).1 := by
  induction xs with
  | nil => intro m l _ _ _ _ _; rfl
  | cons x t ih =>
    intro m l h0 hlm hT hpre hinf
    have hx : tMin w ≤ x := hT x (List.mem_cons_self _ _)
    have hlx : l + x ≤ tMax w := by
      have := hpre [x] (by simp [List.prefix_cons_iff])
      simpa using this
    rw [maxSubarraySumLoopT, if_pos ⟨by show tMin w ≤ l + x; omega, hlx⟩, List.foldl_cons]
    have hstep : maxSubarraySumStep (m, l) x
        = (if l + x > m then l + x else m, if l + x < 0 then 0 else l + x) := rfl
    rw [hstep]
    apply ih
    · split <;> omega
    · split <;> split <;> omega
    · exact fun y hy => hT y (List.mem_cons_of_mem _ hy)
    · intro s hs
      by_cases hc : l + x < 0
      · rw [if_pos hc]
        have := hinf s (List.infix_cons_iff.mpr (Or.inr hs.isInfix))
        omega
      · rw [if_neg hc]
        have := hpre (x :: s) (List.prefix_cons_iff.mpr (Or.inr ⟨s, rfl, hs⟩))
        simp only [List.sum_cons] at this
        omega
    · exact fun s hs => hinf s (List.infix_cons_iff.mpr (Or.inr hs))

/-- A run whose sum is above the largest value of `T` makes an addition of the
fixed-width loop overflow: the call has no result. -/
theorem maxSubarraySumT_overflow (w : Nat) (xs : List Int) (i j : Nat) (hij : i ≤ j)
    (hj : j ≤ xs.length) (h : tMax w < runSum xs i j) : maxSubarraySumT w xs = none := by
  cases hres : maxSubarraySumT w xs with
  | none => rfl
  | some r =>
    exfalso
    obtain ⟨h1, h2⟩ := maxSubarraySumLoopT_some w xs (0, 0) r hres
    have hr : r ≤ tMax w := h2 (tMax_nonneg w)
    obtain ⟨_, _, h3, _⟩ := maxSubarraySum_fold_spec xs 0 0 (le_refl _) (le_refl _)
    have := h3 _ ((infix_iff_run xs _).mpr ⟨i, j, hij, hj, rfl⟩)
    unfold runSum at h
    omega

/-- At a fixed-width signed `T`, a sequence of values of `T` without positive
elements (the empty sequence included) gives `0`, with no overflow: `local`
never leaves the values of the elements and `0`. -/
theorem maxSubarraySumT_nonpos (w : Nat) (xs : List Int) (hT : ∀ x ∈ xs, tMin w ≤ x)
    (h : ∀ x ∈ xs, x ≤ 0) : maxSubarraySumT w xs = some 0 := by
  unfold maxSubarraySumT
  induction xs with
  | nil => rfl
  | cons x t ih =>
    have hx : x ≤ 0 := h x (List.mem_cons_self _ _)
    have hx2 : tMin w ≤ x := hT x (List.mem_cons_self _ _)
    have h0 := tMax_nonneg w
    have hstep : maxSubarraySumStep (0, 0) x = (0, 0) := by
      have e : maxSubarraySumStep (0, 0) x
          = (if 0 + x > 0 then 0 + x else 0, if 0 + x < 0 then 0 else 0 + x) := rfl
      rw [e, if_neg (by omega)]
      by_cases h2 : 0 + x < 0
      · rw [if_pos h2]
      · rw [if_neg h2]
        have : 0 + x = 0 := by omega
        rw [this]
    rw [maxSubarraySumLoopT, if_pos ⟨by show tMin w ≤ 0 + x; omega, by show 0 + x ≤ tMax w; omega⟩,
      hstep]
    exact ih (fun y hy => hT y (List.mem_cons_of_mem _ hy))
      (fun y hy => h y (List.mem_cons_of_mem _ hy))

/-- C1, as amended: for every finite sequence `xs` of values of a signed integer
type `T` of `w` bits in which no contiguous run has a sum above the largest
value of `T`, `maxSubarraySum` returns the largest sum over all contiguous runs
`xs[i..j)` with `0 ≤ i ≤ j ≤ |xs|`, the empty run (sum `0`) included: the
returned value bounds every run sum from above and is itself the sum of some
run.  On `[1, -2, 3, 4, -1]` at `T = int` it returns `7`. -/
theorem maxSubarraySumT_eq_max_run (w : Nat) (xs : List Int)
    (hT : ∀ x ∈ xs, tMin w ≤ x ∧ x ≤ tMax w)
    (hrun : ∀ i j, i ≤ j → j ≤ xs.length → runSum xs i j ≤ tMax w) :
    (∃ m, maxSubarraySumT w xs = some m ∧
      (∀ i j, i ≤ j → j ≤ xs.length → runSum xs i j ≤ m) ∧
      (∃ i j, i ≤ j ∧ j ≤ xs.length ∧ runSum xs i j = m)) ∧
    maxSubarraySumT 32 [1, -2, 3, 4, -1] = some 7 := by
  have hinf : ∀ s, s <:+: xs → s.sum ≤ tMax w := by
    intro s hs
    obtain ⟨i, j, hij, hj, rfl⟩ := (infix_iff_run xs s).mp hs
    exact hrun i j hij hj
  have e : maxSubarraySumT w xs = some (maxSubarraySum xs) :=
    maxSubarraySumLoopT_eq w xs 0 0 (le_refl _) (le_refl _) (fun x hx => (hT x hx).1)
      (fun s hs => by have := hinf s hs.isInfix; omega) hinf
  refine ⟨⟨maxSubarraySum xs, e, ?_⟩, by decide⟩
  exact (maxSubarraySum_eq_max_run xs).1

/-- Witness for C1 as amended, at `T = int` on `[1, -2, 3, 4, -1]`: the elements
are values of `int` and no run sum exceeds `7`. -/
theorem maxSubarraySumT_eq_max_run_witness :
    (∀ x ∈ ([1, -2, 3, 4, -1] : List Int), tMin 32 ≤ x ∧ x ≤ tMax 32) ∧
    (∀ i j, i ≤ j → j ≤ ([1, -2, 3, 4, -1] : List Int).length →
      runSum [1, -2, 3, 4, -1] i j ≤ tMax 32) ∧
    ((∃ m, maxSubarraySumT 32 [1, -2, 3, 4, -1] = some m ∧
      (∀ i j, i ≤ j → j ≤ ([1, -2, 3, 4, -1] : List Int).length →
        runSum [1, -2, 3, 4, -1] i j ≤ m) ∧
      (∃ i j, i ≤ j ∧ j ≤ ([1, -2, 3, 4, -1] : List Int).length ∧
        runSum [1, -2, 3, 4, -1] i j = m)) ∧
    maxSubarraySumT 32 [1, -2, 3, 4, -1] = some 7) :=
  have hrun : ∀ i j, i ≤ j → j ≤ ([1, -2, 3, 4, -1] : List Int).length →
      runSum [1, -2, 3, 4, -1] i j ≤ tMax 32 :=
    fun i j hij hj =>
      le_trans ((maxSubarraySum_eq_max_run [1, -2, 3, 4, -1]).1.1 i j hij hj) (by decide)
  ⟨by decide, hrun, maxSubarraySumT_eq_max_run 32 [1, -2, 3, 4, -1] (by decide) hrun⟩

/-- C1, counterexample to the claim as stated: at `T = int` the sequence
`[2147483647, 1]` consists of values of `int`, its largest run sum is
`2147483648`, which is not a value of `int`, and the call does not return it:
`local += el` overflows at the second element. -/
theorem maxSubarraySumT_not_max_run :
    (∀ x ∈ ([2147483647, 1] : List Int), tMin 32 ≤ x ∧ x ≤ tMax 32) ∧
    runSum [2147483647, 1] 0 2 = 2147483648 ∧
    maxSubarraySumT 32 [2147483647, 1] = none ∧
    ¬ ∃ m, maxSubarraySumT 32 [2147483647, 1] = some m ∧
      ∀ i j, i ≤ j → j ≤ ([2147483647, 1] : List Int).length →
        runSum [2147483647, 1] i j ≤ m := by
  have e : maxSubarraySumT 32 [2147483647, 1] = none := by decide
  refine ⟨by decide, by decide, e, ?_⟩
  rintro ⟨m, hm, _⟩
  rw [e] at hm
  cases hm

/-- C2: for every sequence all of whose elements are `≤ 0` (the empty sequence
included), `maxSubarraySum` returns `0`. -/
theorem maxSubarraySum_nonpos (xs : List Int) (h : ∀ x ∈ xs, x ≤ 0) :
    maxSubarraySum xs = 0 := by
  unfold maxSubarraySum
  rw [maxSubarraySum_fold_nonpos xs h]

/-- Witness for C2 at the all-negative input `[-2, -3, -1]`. -/
theorem maxSubarraySum_nonpos_witness :
    (∀ x ∈ ([-2, -3, -1] : List Int), x ≤ 0) ∧ maxSubarraySum [-2, -3, -1] = 0 :=
  ⟨by decide, maxSubarraySum_nonpos [-2, -3, -1] (by decide)⟩

/-! ### Sorting engine -/

section SortingProofs

variable {α : Type}

/-- A strict comparison never holds both ways. -/
theorem StrictTotal.asymm {r : α → α → Prop} (h : StrictTotal r) {a b : α} (hab : r a b) :
    ¬ r b a := fun hba => h.irrefl a (h.trans a b a hab hba)

/-- The relation "does not come after" is transitive. -/
theorem StrictTotal.le_trans {r : α → α → Prop} (h : StrictTotal r) {a b c : α}
    (hab : ¬ r b a) (hbc : ¬ r c b) : ¬ r c a := by
  intro hca
  rcases h.total b c with h1 | h1 | h1
  · exact hab (h.trans _ _ _ h1 hca)
  · subst h1; exact hab hca
  · exact hbc h1

/-- The order `<` of a linear order satisfies the comparator laws. -/
theorem strictTotal_lt [LinearOrder α] : StrictTotal (fun a b : α => a < b) :=
  ⟨fun a => lt_irrefl a, fun _ _ _ h1 h2 => lt_trans h1 h2, fun a b => lt_trichotomy a b⟩

/-- The order `>` of a linear order satisfies the comparator laws. -/
theorem strictTotal_gt [LinearOrder α] : StrictTotal (fun a b : α => a > b) :=
  ⟨fun a => lt_irrefl a, fun _ _ _ h1 h2 => lt_trans h2 h1,
    fun a b => (lt_trichotomy a b).elim (fun h => Or.inr (Or.inr h))
      (fun h => h.elim (fun h => Or.inr (Or.inl h)) (fun h => Or.inl h))⟩

/-- Overwriting position `i` is, up to order, removing it and adding the new
element. -/
theorem set_perm_cons_eraseIdx (l : List α) :
    ∀ i a, l[i]? = some a → ∀ b, (l.set i b).Perm (b :: l.eraseIdx i) := by
  induction l with
  | nil => intro i a h; simp at h
  | cons x t ih =>
    intro i a h b
    cases i with
    | zero => exact List.Perm.refl _
    | succ i =>
      have h2 : t[i]? = some a := by simpa using h
      rw [List.set_cons_succ, List.eraseIdx_cons_succ]
      exact ((ih i a h2 b).cons x).trans (List.Perm.swap b x _)

/-- A list is, up to order, its element at `i` and the rest. -/
theorem perm_cons_eraseIdx_of_getElem? (l : List α) (i : Nat) (a : α) (h : l[i]? = some a) :
    l.Perm (a :: l.eraseIdx i) := by
  have h1 := set_perm_cons_eraseIdx l i a h a
  have h2 : l.set i a = l := by
    apply List.ext_getElem?
    intro k
    rw [List.getElem?_set]
    by_cases hk : i = k
    · subst hk
      rw [if_pos rfl, h]
      have : i < l.length := by
        by_contra hc
        rw [List.getElem?_eq_none (by omega)] at h
        exact Option.noConfusion h
      rw [if_pos this]
    · rw [if_neg hk]
  rwa [h2] at h1

/-- Exchanging two positions permutes the vector. -/
theorem swapAt_perm (l : List α) (i j : Nat) : (swapAt l i j).Perm l := by
  unfold swapAt
  cases hi : l[i]? with
  | none => exact List.Perm.refl _
  | some a =>
    cases hj : l[j]? with
    | none => exact List.Perm.refl _
    | some b =>
      show ((l.set i b).set j a).Perm l
      have hjl : j < l.length := by
        by_contra hc
        rw [List.getElem?_eq_none (by omega)] at hj
        exact Option.noConfusion hj
      have hil : i < l.length := by
        by_contra hc
        rw [List.getElem?_eq_none (by omega)] at hi
        exact Option.noConfusion hi
      have h2j : (l.set i b)[j]? = some b := by
        rw [List.getElem?_set]
        by_cases hij : i = j
        · rw [if_pos hij, if_pos hil]
        · rw [if_neg hij, hj]
      have p1 : ((l.set i b).set j a).Perm (a :: (l.set i b).eraseIdx j) :=
        set_perm_cons_eraseIdx _ j b h2j a
      have p2 : (l.set i b).Perm (b :: (l.set i b).eraseIdx j) :=
        perm_cons_eraseIdx_of_getElem? _ j b h2j
      have p3 : (l.set i b).Perm (b :: l.eraseIdx i) := set_perm_cons_eraseIdx l i a hi b
      have p4 : l.Perm (a :: l.eraseIdx i) := perm_cons_eraseIdx_of_getElem? l i a hi
      have q : (b :: (l.set i b).set j a).Perm (b :: l) :=
        (p1.cons b).trans ((List.Perm.swap a b _).trans ((p2.symm.cons a).trans
          ((p3.cons a).trans ((List.Perm.swap b a _).trans (p4.symm.cons b)))))
      exact q.cons_inv

/-- Exchanging two positions keeps the length. -/
theorem swapAt_length (l : List α) (i j : Nat) : (swapAt l i j).length = l.length :=
  (swapAt_perm l i j).length_eq

/-- Contents of a vector after an exchange of two valid positions. -/
theorem swapAt_getElem? (l : List α) (i j k : Nat) (hi : i < l.length) (hj : j < l.length) :
    (swapAt l i j)[k]? = if k = j then l[i]? else if k = i then l[j]? else l[k]? := by
  unfold swapAt
  rw [List.getElem?_eq_getElem hi, List.getElem?_eq_getElem hj]
  show ((l.set i l[j]).set j l[i])[k]? = _
  rw [List.getElem?_set, List.getElem?_set, List.length_set]
  by_cases hkj : k = j
  · subst hkj
    rw [if_pos rfl, if_pos hj, if_pos rfl]
  · rw [if_neg (Ne.symm hkj), if_neg hkj]
    by_cases hki : k = i
    · subst hki
      rw [if_pos rfl, if_pos hi, if_pos rfl]
    · rw [if_neg (Ne.symm hki), if_neg hki]

/-- A position holding an element is inside the vector. -/
theorem lt_length_of_getElem? {l : List α} {i : Nat} {a : α} (h : l[i]? = some a) :
    i < l.length := by
  by_contra hc
  rw [List.getElem?_eq_none (by omega)] at h
  exact Option.noConfusion h

/-- Contents of a vector after exchanging the positions of `a` and `b`. -/
theorem swapAt_getElem?_of_some (l : List α) (i j k : Nat) (a b : α)
    (hi : l[i]? = some a) (hj : l[j]? = some b) :
    (swapAt l i j)[k]? = if k = j then some a else if k = i then some b else l[k]? := by
  rw [swapAt_getElem? l i j k (lt_length_of_getElem? hi) (lt_length_of_getElem? hj), hi, hj]

/-- A vector whose positions are pairwise in order is sorted. -/
theorem sorted_of_leAt (r : α → α → Prop) (l : List α)
    (h : ∀ a b, a < b → LeAt r l a b) : l.Sorted (fun x y => ¬ r y x) := by
  refine List.pairwise_iff_getElem.mpr ?_
  intro i j hi hj hij
  exact h i j hij _ _ (List.getElem?_eq_getElem hi) (List.getElem?_eq_getElem hj)

/-- A vector of at most one element is sorted. -/
theorem sorted_of_length_le_one (r : α → α → Prop) (l : List α) (h : l.length ≤ 1) :
    l.Sorted (fun x y => ¬ r y x) := by
  match l, h with
  | [], _ => exact List.sorted_nil
  | [x], _ => exact List.sorted_singleton _
  | _ :: _ :: _, h => simp at h

/-! #### Bubble sort -/

/-- An adjacent-swap pass permutes the elements. -/
theorem bubbleCarry_perm (r : α → α → Prop) [DecidableRel r] (l : List α) :
    ∀ cur, ((bubbleCarry r cur l).1).Perm (cur :: l) := by
  induction l with
  | nil => intro cur; exact List.Perm.refl _
  | cons y rest ih =>
    intro cur
    rw [bubbleCarry]
    by_cases h : r y cur
    · rw [if_pos h]
      exact ((ih cur).cons y).trans (List.Perm.swap cur y rest)
    · rw [if_neg h]
      exact (ih y).cons cur

/-- A pass without a swap means that the input was already in order and is
returned unchanged. -/
theorem bubbleCarry_noswap (r : α → α → Prop) [DecidableRel r] (hr : StrictTotal r)
    (l : List α) :
    ∀ cur, (bubbleCarry r cur l).2 = false →
      (bubbleCarry r cur l).1 = cur :: l ∧ (cur :: l).Sorted (fun a b => ¬ r b a) := by
  induction l with
  | nil => intro cur _; exact ⟨rfl, List.sorted_singleton _⟩
  | cons y rest ih =>
    intro cur h
    rw [bubbleCarry] at h ⊢
    by_cases hc : r y cur
    · rw [if_pos hc] at h; exact absurd h (by simp)
    · rw [if_neg hc] at h ⊢
      obtain ⟨h1, h2⟩ := ih y h
      refine ⟨by simp only []; rw [h1], ?_⟩
      refine List.sorted_cons.mpr ⟨?_, h2⟩
      intro b hb
      rcases List.mem_cons.mp hb with rfl | hb
      · exact hc
      · exact hr.le_trans hc (List.rel_of_sorted_cons h2 b hb)

/-- A pass over a vector in order changes nothing and reports no swap. -/
theorem bubbleCarry_sorted (r : α → α → Prop) [DecidableRel r]
    (l : List α) :
    ∀ cur, (cur :: l).Sorted (fun a b => ¬ r b a) → bubbleCarry r cur l = (cur :: l, false) := by
  induction l with
  | nil => intro cur _; rfl
  | cons y rest ih =>
    intro cur h
    have hc : ¬ r y cur := List.rel_of_sorted_cons h y (List.mem_cons_self _ _)
    rw [bubbleCarry, if_neg hc, ih y (List.Sorted.of_cons h)]

/-- After a pass the last element is an extremum of the vector. -/
theorem bubbleCarry_last (r : α → α → Prop) [DecidableRel r] (hr : StrictTotal r)
    (l : List α) :
    ∀ cur, ∃ init m, (bubbleCarry r cur l).1 = init ++ [m] ∧ ∀ x ∈ cur :: l, ¬ r m x := by
  induction l with
  | nil =>
    intro cur
    exact ⟨[], cur, rfl, fun x hx => by
      rw [List.mem_singleton.mp hx]; exact hr.irrefl _⟩
  | cons y rest ih =>
    intro cur
    rw [bubbleCarry]
    by_cases hc : r y cur
    · rw [if_pos hc]
      obtain ⟨init, m, h1, h2⟩ := ih cur
      refine ⟨y :: init, m, by simp only []; rw [h1]; rfl, ?_⟩
      intro x hx
      rcases List.mem_cons.mp hx with rfl | hx
      · exact h2 _ (List.mem_cons_self _ _)
      · rcases List.mem_cons.mp hx with rfl | hx
        · exact hr.le_trans (hr.asymm hc) (h2 cur (List.mem_cons_self _ _))
        · exact h2 x (List.mem_cons_of_mem _ hx)
    · rw [if_neg hc]
      obtain ⟨init, m, h1, h2⟩ := ih y
      refine ⟨cur :: init, m, by simp only []; rw [h1]; rfl, ?_⟩
      intro x hx
      rcases List.mem_cons.mp hx with rfl | hx
      · exact hr.le_trans hc (h2 y (List.mem_cons_self _ _))
      · exact h2 x hx

/-- A pass does not touch a tail that is in order and dominates the front. -/
theorem bubbleCarry_append (r : α → α → Prop) [DecidableRel r]
    (b : List α) (l : List α) :
    ∀ cur, (∀ x ∈ cur :: l, ∀ y ∈ b, ¬ r y x) → b.Sorted (fun a b => ¬ r b a) →
      bubbleCarry r cur (l ++ b) = ((bubbleCarry r cur l).1 ++ b, (bubbleCarry r cur l).2) := by
  induction l with
  | nil =>
    intro cur h hb
    have : (cur :: b).Sorted (fun a b => ¬ r b a) :=
      List.sorted_cons.mpr ⟨fun y hy => h cur (List.mem_cons_self _ _) y hy, hb⟩
    rw [List.nil_append, bubbleCarry_sorted r b cur this]
    rfl
  | cons y rest ih =>
    intro cur h hb
    rw [List.cons_append, bubbleCarry, bubbleCarry]
    by_cases hc : r y cur
    · rw [if_pos hc, if_pos hc, ih cur (fun x hx => by
        rcases List.mem_cons.mp hx with rfl | hx
        · exact h _ (List.mem_cons_self _ _)
        · exact h x (List.mem_cons_of_mem _ (List.mem_cons_of_mem _ hx))) hb]
      rfl
    · rw [if_neg hc, if_neg hc, ih y (fun x hx => h x (List.mem_cons_of_mem _ hx)) hb]
      rfl

/-- A whole pass permutes the elements. -/
theorem bubblePass_perm (r : α → α → Prop) [DecidableRel r] (l : List α) :
    ((bubblePass r l).1).Perm l := by
  cases l with
  | nil => exact List.Perm.refl _
  | cons x rest => exact bubbleCarry_perm r rest x

/-- Any number of passes permutes the elements. -/
theorem bubbleLoop_perm (r : α → α → Prop) [DecidableRel r] :
    ∀ fuel (l : List α), (bubbleLoop r fuel l).Perm l := by
  intro fuel
  induction fuel with
  | zero => intro l; exact List.Perm.refl _
  | succ fuel ih =>
    intro l
    rw [bubbleLoop]
    split
    · exact (ih _).trans (bubblePass_perm r l)
    · exact bubblePass_perm r l

/-- With as many passes allowed as the front `a` is long, the loop ends on a
vector in order, the tail `b` being already in place. -/
theorem bubbleLoop_sorted (r : α → α → Prop) [DecidableRel r] (hr : StrictTotal r) :
    ∀ fuel (a b : List α), a.length ≤ fuel → b.Sorted (fun x y => ¬ r y x) →
      (∀ x ∈ a, ∀ y ∈ b, ¬ r y x) →
      (bubbleLoop r fuel (a ++ b)).Sorted (fun x y => ¬ r y x) := by
  intro fuel
  induction fuel with
  | zero =>
    intro a b ha hb _
    have : a = [] := List.length_eq_zero.mp (Nat.le_zero.mp ha)
    subst this
    exact hb
  | succ fuel ih =>
    intro a b ha hb hab
    rw [bubbleLoop]
    cases a with
    | nil =>
      have e : bubblePass r ([] ++ b) = (b, false) := by
        cases b with
        | nil => rfl
        | cons x t => exact bubbleCarry_sorted r t x hb
      rw [e]
      simpa using hb
    | cons x a2 =>
      have e : bubblePass r (x :: a2 ++ b)
          = ((bubbleCarry r x a2).1 ++ b, (bubbleCarry r x a2).2) :=
        bubbleCarry_append r b a2 x hab hb
      rw [e]
      by_cases hs : (bubbleCarry r x a2).2 = true
      · simp only [hs, if_true]
        obtain ⟨init, m, h1, h2⟩ := bubbleCarry_last r hr a2 x
        have hperm := bubbleCarry_perm r a2 x
        rw [h1] at hperm ⊢
        have hm : m ∈ x :: a2 := hperm.subset (by simp)
        have hinit : ∀ z ∈ init, z ∈ x :: a2 := fun z hz =>
          hperm.subset (List.mem_append_left _ hz)
        rw [List.append_assoc]
        refine ih init ([m] ++ b) ?_ ?_ ?_
        · have := hperm.length_eq
          simp at this ha
          omega
        · exact List.sorted_cons.mpr ⟨fun y hy => hab m hm y hy, hb⟩
        · intro z hz y hy
          rcases List.mem_cons.mp hy with rfl | hy
          · exact h2 z (hinit z hz)
          · exact hab z (hinit z hz) y hy
      · have hs2 : (bubbleCarry r x a2).2 = false := by simpa using hs
        simp only [hs2, Bool.false_eq_true, if_false]
        obtain ⟨h1, h2⟩ := bubbleCarry_noswap r hr a2 x hs2
        rw [h1]
        have : (x :: a2 ++ b) = (x :: a2) ++ b := rfl
        refine List.pairwise_append.mpr ⟨h2, hb, ?_⟩
        intro z hz y hy
        exact hab z hz y hy

/-- Bubble sort returns a permutation of its input, in order. -/
theorem bubbleSortBy_spec (r : α → α → Prop) [DecidableRel r] (hr : StrictTotal r)
    (v : List α) :
    (bubbleSortBy r v).Perm v ∧ (bubbleSortBy r v).Sorted (fun x y => ¬ r y x) := by
  refine ⟨bubbleLoop_perm r _ _, ?_⟩
  have := bubbleLoop_sorted r hr v.length v [] (le_refl _) List.sorted_nil (by simp)
  simpa [bubbleSortBy] using this

/-! #### Insertion sort -/

/-- Shifting a key into the prefix adds exactly that key. -/
theorem shiftInto_perm (r : α → α → Prop) [DecidableRel r] (key : α) (p : List α) :
    (shiftInto r key p).Perm (key :: p) := by
  induction p with
  | nil => exact List.Perm.refl _
  | cons y ys ih =>
    rw [shiftInto]
    by_cases h : r key y
    · rw [if_pos h]
      exact (ih.cons y).trans (List.Perm.swap key y ys)
    · rw [if_neg h]

/-- Shifting a key into a sorted prefix keeps it sorted. -/
theorem shiftInto_sorted (r : α → α → Prop) [DecidableRel r] (hr : StrictTotal r) (key : α)
    (p : List α) (hp : p.Sorted (fun a b => ¬ r a b)) :
    (shiftInto r key p).Sorted (fun a b => ¬ r a b) := by
  induction p with
  | nil => exact List.sorted_singleton _
  | cons y ys ih =>
    rw [shiftInto]
    have hy := List.rel_of_sorted_cons hp
    by_cases h : r key y
    · rw [if_pos h]
      refine List.sorted_cons.mpr ⟨?_, ih (List.Sorted.of_cons hp)⟩
      intro z hz
      rcases List.mem_cons.mp ((shiftInto_perm r key ys).subset hz) with rfl | hz
      · exact hr.asymm h
      · exact hy z hz
    · rw [if_neg h]
      refine List.sorted_cons.mpr ⟨?_, hp⟩
      intro z hz
      rcases List.mem_cons.mp hz with rfl | hz
      · exact h
      · exact hr.le_trans (hy z hz) h

/-- The prefix built by insertion sort is a sorted permutation of the elements
read so far. -/
theorem insertionFold_spec (r : α → α → Prop) [DecidableRel r] (hr : StrictTotal r)
    (v : List α) :
    ∀ acc : List α, acc.Sorted (fun a b => ¬ r a b) →
      (v.foldl (fun revPrefix key => shiftInto r key revPrefix) acc).Perm (v ++ acc) ∧
      (v.foldl (fun revPrefix key => shiftInto r key revPrefix) acc).Sorted
        (fun a b => ¬ r a b) := by
  induction v with
  | nil => intro acc h; exact ⟨List.Perm.refl _, h⟩
  | cons x t ih =>
    intro acc h
    rw [List.foldl_cons]
    obtain ⟨h1, h2⟩ := ih (shiftInto r x acc) (shiftInto_sorted r hr x acc h)
    refine ⟨h1.trans ?_, h2⟩
    exact ((shiftInto_perm r x acc).append_left t).trans List.perm_middle

/-- Insertion sort returns a permutation of its input, in order. -/
theorem insertionSortBy_spec (r : α → α → Prop) [DecidableRel r] (hr : StrictTotal r)
    (v : List α) :
    (insertionSortBy r v).Perm v ∧ (insertionSortBy r v).Sorted (fun x y => ¬ r y x) := by
  obtain ⟨h1, h2⟩ := insertionFold_spec r hr v [] List.sorted_nil
  rw [List.append_nil] at h1
  exact ⟨(List.reverse_perm _).trans h1, List.pairwise_reverse.mpr h2⟩

/-! #### Selection sort -/

/-- The scan of the suffix ends on the position of an extremum. -/
theorem extremumIndex_spec (r : α → α → Prop) [DecidableRel r] (hr : StrictTotal r)
    (ys : List α) :
    ∀ (pre : List α) (best : α) (bestIdx : Nat),
      (pre ++ ys)[bestIdx]? = some best → (∀ y ∈ pre, ¬ r y best) →
      ∃ e, (pre ++ ys)[extremumIndex r best bestIdx pre.length ys]? = some e ∧
        ∀ y ∈ pre ++ ys, ¬ r y e := by
  induction ys with
  | nil =>
    intro pre best bestIdx h1 h2
    exact ⟨best, h1, by simpa using h2⟩
  | cons y t ih =>
    intro pre best bestIdx h1 h2
    have e : pre ++ y :: t = (pre ++ [y]) ++ t := by simp
    have elen : pre.length + 1 = (pre ++ [y]).length := by simp
    rw [extremumIndex]
    by_cases hc : r y best
    · rw [if_pos hc, e, elen]
      refine ih (pre ++ [y]) y pre.length ?_ ?_
      · rw [← e, List.getElem?_append_right (le_refl _)]; simp
      · intro z hz
        rcases List.mem_append.mp hz with hz | hz
        · exact hr.le_trans (hr.asymm hc) (h2 z hz)
        · rw [List.mem_singleton.mp hz]; exact hr.irrefl _
    · rw [if_neg hc, e, elen]
      refine ih (pre ++ [y]) best bestIdx (by rw [← e]; exact h1) ?_
      intro z hz
      rcases List.mem_append.mp hz with hz | hz
      · exact h2 z hz
      · rw [List.mem_singleton.mp hz]; exact hc

/-- A selection step permutes the suffix. -/
theorem selectionStep_perm (r : α → α → Prop) [DecidableRel r] (l : List α) :
    (selectionStep r l).Perm l := by
  cases l with
  | nil => exact List.Perm.refl _
  | cons x xs => exact swapAt_perm _ _ _

/-- After a selection step nothing in the suffix comes before its head. -/
theorem selectionStep_head (r : α → α → Prop) [DecidableRel r] (hr : StrictTotal r)
    (l : List α) (m : α) (rest : List α) (h : selectionStep r l = m :: rest) :
    ∀ y ∈ rest, ¬ r y m := by
  cases l with
  | nil => simp [selectionStep] at h
  | cons x xs =>
    obtain ⟨e, he1, he2⟩ := extremumIndex_spec r hr xs [x] x 0 (by simp)
      (fun y hy => by rw [List.mem_singleton.mp hy]; exact hr.irrefl _)
    have hidx : extremumIndex r x 0 1 xs < (x :: xs).length := by
      by_contra hc
      have : ([x] ++ xs)[extremumIndex r x 0 [x].length xs]? = none :=
        List.getElem?_eq_none (by simpa using hc)
      rw [this] at he1
      exact Option.noConfusion he1
    have h0 := swapAt_getElem? (x :: xs) 0 (extremumIndex r x 0 1 xs) 0 (by simp) hidx
    have hm : m = e := by
      have h3 : (selectionStep r (x :: xs))[0]? = some e := by
        show (swapAt (x :: xs) 0 (extremumIndex r x 0 1 xs))[0]? = some e
        rw [h0]
        by_cases hz : 0 = extremumIndex r x 0 1 xs
        · rw [if_pos hz]
          have he1b : (x :: xs)[extremumIndex r x 0 1 xs]? = some e := he1
          rw [← hz] at he1b
          exact he1b
        · rw [if_neg hz, if_pos rfl]; exact he1
      rw [h] at h3
      simpa using h3
    subst hm
    intro y hy
    have hy2 : y ∈ x :: xs := by
      have := (selectionStep_perm r (x :: xs)).subset
      rw [h] at this
      exact this (List.mem_cons_of_mem _ hy)
    exact he2 y hy2

/-- Selection steps permute the vector. -/
theorem selectionLoop_perm (r : α → α → Prop) [DecidableRel r] :
    ∀ fuel (l : List α), (selectionLoop r fuel l).Perm l := by
  intro fuel
  induction fuel with
  | zero => intro l; exact List.Perm.refl _
  | succ fuel ih =>
    intro l
    rw [selectionLoop]
    have hp := selectionStep_perm r l
    cases hs : selectionStep r l with
    | nil => rw [hs] at hp; exact hp
    | cons m rest =>
      rw [hs] at hp
      exact ((ih rest).cons m).trans hp

/-- Selection sort puts every list not longer than the allowed steps in order. -/
theorem selectionLoop_sorted (r : α → α → Prop) [DecidableRel r] (hr : StrictTotal r) :
    ∀ fuel (l : List α), l.length ≤ fuel →
      (selectionLoop r fuel l).Sorted (fun a b => ¬ r b a) := by
  intro fuel
  induction fuel with
  | zero =>
    intro l hl
    have : l = [] := List.length_eq_zero.mp (by omega)
    subst this
    exact List.sorted_nil
  | succ fuel ih =>
    intro l hl
    rw [selectionLoop]
    have hp := selectionStep_perm r l
    cases hs : selectionStep r l with
    | nil => exact List.sorted_nil
    | cons m rest =>
      rw [hs] at hp
      have hlen : rest.length ≤ fuel := by
        have := hp.length_eq
        simp at this
        omega
      refine List.sorted_cons.mpr ⟨?_, ih rest hlen⟩
      intro y hy
      exact selectionStep_head r hr l m rest hs y ((selectionLoop_perm r fuel rest).subset hy)

/-- Selection sort returns a permutation of its input, in order. -/
theorem selectionSortBy_spec (r : α → α → Prop) [DecidableRel r] (hr : StrictTotal r)
    (v : List α) :
    (selectionSortBy r v).Perm v ∧ (selectionSortBy r v).Sorted (fun x y => ¬ r y x) :=
  ⟨selectionLoop_perm r _ _, selectionLoop_sorted r hr _ _ (le_refl _)⟩

/-! #### Shell sort -/

/-- A positive comparison names two elements inside the vector, the later one
coming before the earlier one. -/
theorem outOfOrder_true (r : α → α → Prop) [DecidableRel r] (l : List α) (i j : Nat)
    (h : outOfOrder r l i j = true) : ∃ a b, l[i]? = some a ∧ l[j]? = some b ∧ r b a := by
  unfold outOfOrder at h
  cases hi : l[i]? with
  | none => rw [hi] at h; simp at h
  | some a =>
    cases hj : l[j]? with
    | none => rw [hi, hj] at h; simp at h
    | some b =>
      rw [hi, hj] at h
      exact ⟨a, b, rfl, rfl, by simpa using h⟩

/-- A negative comparison means that the two positions are in order. -/
theorem outOfOrder_false (r : α → α → Prop) [DecidableRel r] (l : List α) (i j : Nat)
    (h : ¬ outOfOrder r l i j = true) : LeAt r l i j := by
  intro u v hu hv
  unfold outOfOrder at h
  rw [hu, hv] at h
  simpa using h

/-- A gapped insertion permutes the vector. -/
theorem gapInsert_perm (r : α → α → Prop) [DecidableRel r] (gap : Nat) :
    ∀ fuel j (l : List α), (gapInsert r gap fuel j l).Perm l := by
  intro fuel
  induction fuel with
  | zero => intro j l; exact List.Perm.refl _
  | succ fuel ih =>
    intro j l
    rw [gapInsert]
    split
    · exact (ih _ _).trans (swapAt_perm _ _ _)
    · exact List.Perm.refl _

/-- A pass of Shell sort permutes the vector. -/
theorem gapPass_perm (r : α → α → Prop) [DecidableRel r] (gap : Nat) :
    ∀ count i (l : List α), (gapPass r gap count i l).Perm l := by
  intro count
  induction count with
  | zero => intro i l; exact List.Perm.refl _
  | succ count ih =>
    intro i l
    rw [gapPass]
    exact (ih _ _).trans (gapInsert_perm r gap _ _ _)

/-- The gap loop of Shell sort permutes the vector. -/
theorem shellLoop_perm (r : α → α → Prop) [DecidableRel r] :
    ∀ fuel gap (l : List α), (shellLoop r fuel gap l).Perm l := by
  intro fuel
  induction fuel with
  | zero => intro gap l; exact List.Perm.refl _
  | succ fuel ih =>
    intro gap l
    rw [shellLoop]
    split
    · exact (ih _ _).trans (gapPass_perm r gap _ _ _)
    · exact List.Perm.refl _

/-- Gapped insertion with gap one: when the positions `0 .. i` are in order
except for the element at `j`, which does not come after those on its right,
the insertion leaves the positions `0 .. i` in order. -/
theorem gapInsert_one_sorted (r : α → α → Prop) [DecidableRel r] (hr : StrictTotal r)
    (i : Nat) :
    ∀ fuel j (l : List α), j ≤ fuel → j ≤ i →
      (∀ a b, a < b → b ≤ i → a ≠ j → b ≠ j → LeAt r l a b) →
      (∀ b, j < b → b ≤ i → LeAt r l j b) →
      ∀ a b, a < b → b ≤ i → LeAt r (gapInsert r 1 fuel j l) a b := by
  intro fuel
  induction fuel with
  | zero =>
    intro j l hj _ h1 h2 a b hab hbi
    have hj0 : j = 0 := by omega
    subst hj0
    rw [gapInsert]
    by_cases ha : a = 0
    · subst ha; exact h2 b hab hbi
    · exact h1 a b hab hbi ha (by omega)
  | succ fuel ih =>
    intro j l hj hji h1 h2
    rw [gapInsert]
    by_cases hc : 1 ≤ j ∧ outOfOrder r l (j - 1) j = true
    · rw [if_pos hc]
      obtain ⟨x, y, hx, hy, hxy⟩ := outOfOrder_true r l (j - 1) j hc.2
      have hj1 := hc.1
      have hget : ∀ k, (swapAt l (j - 1) j)[k]?
          = if k = j then some x else if k = j - 1 then some y else l[k]? :=
        fun k => swapAt_getElem?_of_some l (j - 1) j k x y hx hy
      refine ih (j - 1) (swapAt l (j - 1) j) (by omega) (by omega) ?_ ?_
      · intro a b hab hbi ha hb u v hu hv
        rw [hget] at hu hv
        by_cases hbj : b = j
        · subst hbj
          rw [if_pos rfl] at hv
          have hv2 : x = v := Option.some.inj hv
          subst hv2
          have haj : a ≠ b := by omega
          rw [if_neg haj, if_neg ha] at hu
          exact h1 a (b - 1) (by omega) (by omega) haj (by omega) u x hu hx
        · rw [if_neg hbj, if_neg hb] at hv
          by_cases haj : a = j
          · subst haj
            rw [if_pos rfl] at hu
            have hu2 : x = u := Option.some.inj hu
            subst hu2
            exact h1 (a - 1) b (by omega) hbi (by omega) hbj x v hx hv
          · rw [if_neg haj, if_neg ha] at hu
            exact h1 a b hab hbi haj hbj u v hu hv
      · intro b hb hbi u v hu hv
        rw [hget] at hu hv
        have hne : j - 1 ≠ j := by omega
        rw [if_neg hne, if_pos rfl] at hu
        have hu2 : y = u := Option.some.inj hu
        subst hu2
        by_cases hbj : b = j
        · subst hbj
          rw [if_pos rfl] at hv
          have hv2 : x = v := Option.some.inj hv
          subst hv2
          exact hr.asymm hxy
        · rw [if_neg hbj, if_neg (by omega)] at hv
          exact h2 b (by omega) hbi y v hy hv
    · rw [if_neg hc]
      intro a b hab hbi
      by_cases hj0 : j = 0
      · subst hj0
        by_cases ha : a = 0
        · subst ha; exact h2 b hab hbi
        · exact h1 a b hab hbi ha (by omega)
      · have hle : LeAt r l (j - 1) j := by
          apply outOfOrder_false
          intro h
          exact hc ⟨by omega, h⟩
        by_cases ha : a = j
        · subst ha; exact h2 b hab hbi
        · by_cases hb : b = j
          · subst hb
            by_cases ha1 : a = b - 1
            · subst ha1; exact hle
            · intro u v hu hv
              have hlt : b - 1 < l.length := by
                have := lt_length_of_getElem? hv
                omega
              have hw : l[b - 1]? = some l[b - 1] := List.getElem?_eq_getElem hlt
              have s1 := h1 a (b - 1) (by omega) (by omega) ha (by omega) u _ hu hw
              have s2 := hle _ v hw hv
              exact hr.le_trans s1 s2
          · exact h1 a b hab hbi ha hb

/-- A gapped insertion keeps the length. -/
theorem gapInsert_length (r : α → α → Prop) [DecidableRel r] (gap fuel j : Nat) (l : List α) :
    (gapInsert r gap fuel j l).length = l.length :=
  (gapInsert_perm r gap fuel j l).length_eq

/-- The pass with gap one puts the whole vector in order. -/
theorem gapPass_one_sorted (r : α → α → Prop) [DecidableRel r] (hr : StrictTotal r) :
    ∀ count i (l : List α), i + count = l.length →
      (∀ a b, a < b → b < i → LeAt r l a b) →
      ∀ a b, a < b → LeAt r (gapPass r 1 count i l) a b := by
  intro count
  induction count with
  | zero =>
    intro i l hlen h a b hab u v hu hv
    rw [gapPass] at hu hv
    have := lt_length_of_getElem? hv
    exact h a b hab (by omega) u v hu hv
  | succ count ih =>
    intro i l hlen h
    rw [gapPass]
    refine ih (i + 1) _ (by rw [gapInsert_length]; omega) ?_
    intro a b hab hb
    exact gapInsert_one_sorted r hr i i i l (le_refl _) (le_refl _)
      (fun a b hab hbi _ hbne => h a b hab (by omega))
      (fun b hb1 hb2 => by omega) a b hab (by omega)

/-- Gap zero ends the gap loop. -/
theorem shellLoop_zero (r : α → α → Prop) [DecidableRel r] (fuel : Nat) (l : List α) :
    shellLoop r fuel 0 l = l := by
  cases fuel with
  | zero => rfl
  | succ f => rw [shellLoop, if_neg (by omega)]

/-- The gap loop started on a positive gap ends after the pass with gap one,
on a sorted vector. -/
theorem shellLoop_sorted (r : α → α → Prop) [DecidableRel r] (hr : StrictTotal r) :
    ∀ fuel gap (l : List α), 1 ≤ gap → gap ≤ fuel →
      (shellLoop r fuel gap l).Sorted (fun x y => ¬ r y x) := by
  intro fuel
  induction fuel with
  | zero => intro gap l h1 h2; omega
  | succ fuel ih =>
    intro gap l h1 h2
    rw [shellLoop, if_pos (by omega)]
    by_cases hg : gap = 1
    · subst hg
      rw [show (1 : Nat) / 2 = 0 from rfl, shellLoop_zero]
      by_cases hl : l.length = 0
      · have : l = [] := List.length_eq_zero.mp hl
        subst this
        exact List.sorted_nil
      · apply sorted_of_leAt
        refine gapPass_one_sorted r hr (l.length - 1) 1 l (by omega) ?_
        intro a b hab hb
        omega
    · exact ih (gap / 2) _ (by omega) (by omega)

/-- Shell sort returns a permutation of its input, in order. -/
theorem ShellSortBy_spec (r : α → α → Prop) [DecidableRel r] (hr : StrictTotal r)
    (v : List α) :
    (ShellSortBy r v).Perm v ∧ (ShellSortBy r v).Sorted (fun x y => ¬ r y x) := by
  refine ⟨shellLoop_perm r _ _ _, ?_⟩
  unfold ShellSortBy
  by_cases h : 1 ≤ v.length / 2
  · exact shellLoop_sorted r hr _ _ _ h (Nat.div_le_self _ _)
  · have h0 : v.length / 2 = 0 := by omega
    rw [h0, shellLoop_zero]
    exact sorted_of_length_le_one r v (by omega)

/-! #### Quicksort -/

/-- Doing nothing is a rearrangement inside any range. -/
theorem RangeStep.refl (lo hi : Nat) (l : List α) : RangeStep lo hi l l :=
  ⟨List.Perm.refl _, fun _ _ => rfl, fun _ h => h⟩

/-- Rearrangements inside a range compose. -/
theorem RangeStep.trans {lo hi : Nat} {l l2 l3 : List α} (h1 : RangeStep lo hi l l2)
    (h2 : RangeStep lo hi l2 l3) : RangeStep lo hi l l3 :=
  ⟨h2.perm.trans h1.perm, fun k hk => (h2.frame k hk).trans (h1.frame k hk),
    fun P hP => h2.pres P (h1.pres P hP)⟩

/-- A rearrangement inside a range is one inside every larger range. -/
theorem RangeStep.mono {lo hi lo2 hi2 : Nat} {l l2 : List α} (h : RangeStep lo2 hi2 l l2)
    (hlo : lo ≤ lo2) (hhi : hi2 ≤ hi) : RangeStep lo hi l l2 := by
  refine ⟨h.perm, fun k hk => h.frame k (by omega), ?_⟩
  intro P hP k hk1 hk2 v hv
  by_cases hin : lo2 ≤ k ∧ k ≤ hi2
  · exact h.pres P (fun k2 a b => hP k2 (by omega) (by omega)) k hin.1 hin.2 v hv
  · rw [h.frame k (by omega)] at hv
    exact hP k hk1 hk2 v hv

/-- Exchanging two positions of a range is a rearrangement inside it. -/
theorem RangeStep.swap (lo hi : Nat) (l : List α) (i j : Nat) (a b : α)
    (hi1 : l[i]? = some a) (hj1 : l[j]? = some b)
    (hilo : lo ≤ i) (hihi : i ≤ hi) (hjlo : lo ≤ j) (hjhi : j ≤ hi) :
    RangeStep lo hi l (swapAt l i j) := by
  have hget := fun k => swapAt_getElem?_of_some l i j k a b hi1 hj1
  refine ⟨swapAt_perm _ _ _, ?_, ?_⟩
  · intro k hk
    rw [hget, if_neg (by omega), if_neg (by omega)]
  · intro P hP k hk1 hk2 v hv
    rw [hget] at hv
    by_cases hkj : k = j
    · rw [if_pos hkj] at hv
      exact hP i hilo hihi v (by rw [hi1, hv])
    · rw [if_neg hkj] at hv
      by_cases hki : k = i
      · rw [if_pos hki] at hv
        exact hP j hjlo hjhi v (by rw [hj1, hv])
      · rw [if_neg hki] at hv
        exact hP k hk1 hk2 v hv

/-- A positive left test names an element that comes before the pivot. -/
theorem isBefore_true (r : α → α → Prop) [DecidableRel r] (pivot : α) (l : List α) (i : Nat)
    (h : isBefore r pivot l i = true) : ∃ v, l[i]? = some v ∧ r v pivot := by
  unfold isBefore at h
  cases hi : l[i]? with
  | none => rw [hi] at h; simp at h
  | some x => rw [hi] at h; exact ⟨x, rfl, by simpa using h⟩

/-- A negative left test: the element does not come before the pivot. -/
theorem isBefore_false (r : α → α → Prop) [DecidableRel r] (pivot : α) (l : List α) (i : Nat)
    (h : ¬ isBefore r pivot l i = true) : ∀ v, l[i]? = some v → ¬ r v pivot := by
  intro v hv
  unfold isBefore at h
  rw [hv] at h
  simpa using h

/-- A positive right test names an element that comes after the pivot. -/
theorem isAfter_true (r : α → α → Prop) [DecidableRel r] (pivot : α) (l : List α) (i : Nat)
    (h : isAfter r pivot l i = true) : ∃ v, l[i]? = some v ∧ r pivot v := by
  unfold isAfter at h
  cases hi : l[i]? with
  | none => rw [hi] at h; simp at h
  | some x => rw [hi] at h; exact ⟨x, rfl, by simpa using h⟩

/-- A negative right test: the element does not come after the pivot. -/
theorem isAfter_false (r : α → α → Prop) [DecidableRel r] (pivot : α) (l : List α) (i : Nat)
    (h : ¬ isAfter r pivot l i = true) : ∀ v, l[i]? = some v → ¬ r pivot v := by
  intro v hv
  unfold isAfter at h
  rw [hv] at h
  simpa using h

/-- The left scan, allowed to reach the end of the vector, passes only elements
that come before the pivot and stops on one that does not. -/
theorem scanUp_spec (r : α → α → Prop) [DecidableRel r] (pivot : α) (l : List α) :
    ∀ fuel i, l.length ≤ i + fuel →
      i ≤ scanUp r pivot l fuel i ∧
      (∀ k, i ≤ k → k < scanUp r pivot l fuel i → ∃ v, l[k]? = some v ∧ r v pivot) ∧
      (∀ v, l[scanUp r pivot l fuel i]? = some v → ¬ r v pivot) := by
  intro fuel
  induction fuel with
  | zero =>
    intro i hi
    refine ⟨le_refl _, fun k h1 h2 => ?_, fun v hv => ?_⟩
    · rw [scanUp] at h2; omega
    · rw [scanUp] at hv
      have := lt_length_of_getElem? hv
      omega
  | succ fuel ih =>
    intro i hi
    rw [scanUp]
    by_cases hc : isBefore r pivot l i = true
    · rw [if_pos hc]
      obtain ⟨h1, h2, h3⟩ := ih (i + 1) (by omega)
      refine ⟨by omega, ?_, h3⟩
      intro k hk1 hk2
      by_cases hki : k = i
      · subst hki; exact isBefore_true r pivot l k hc
      · exact h2 k (by omega) hk2
    · rw [if_neg hc]
      exact ⟨le_refl _, fun k h1 h2 => by omega, isBefore_false r pivot l i hc⟩

/-- The right scan passes only elements that come after the pivot and, above
position zero, stops on one that does not. -/
theorem scanDown_spec (r : α → α → Prop) [DecidableRel r] (pivot : α) (l : List α) :
    ∀ j, scanDown r pivot l j ≤ j ∧
      (∀ k, scanDown r pivot l j < k → k ≤ j → ∃ v, l[k]? = some v ∧ r pivot v) ∧
      (scanDown r pivot l j ≠ 0 → ∀ v, l[scanDown r pivot l j]? = some v → ¬ r pivot v) := by
  intro j
  induction j with
  | zero =>
    refine ⟨le_refl _, fun k h1 h2 => ?_, fun h => ?_⟩
    · rw [scanDown] at h1; omega
    · rw [scanDown] at h; exact absurd rfl h
  | succ j ih =>
    rw [scanDown]
    by_cases hc : isAfter r pivot l (j + 1) = true
    · rw [if_pos hc]
      obtain ⟨h1, h2, h3⟩ := ih
      refine ⟨by omega, ?_, h3⟩
      intro k hk1 hk2
      by_cases hkj : k = j + 1
      · subst hkj; exact isAfter_true r pivot l _ hc
      · exact h2 k hk1 (by omega)
    · rw [if_neg hc]
      exact ⟨le_refl _, fun k h1 h2 => by omega, fun _ => isAfter_false r pivot l _ hc⟩

/-- From a state satisfying the invariant, with enough exchanges allowed, the
Hoare loop rearranges the range and returns a split point `lo ≤ p < hi` with
nothing after the pivot up to `p` and nothing before the pivot beyond `p`. -/
theorem hoareLoop_spec (r : α → α → Prop) [DecidableRel r] (hr : StrictTotal r) (pivot : α)
    (lo hi : Nat) :
    ∀ fuel (l : List α) (i j : Nat), j + 2 - i ≤ fuel → HoareInv r pivot lo hi l i j →
      RangeStep lo hi l (hoareLoop r pivot fuel l i j).1 ∧
      lo ≤ (hoareLoop r pivot fuel l i j).2 ∧ (hoareLoop r pivot fuel l i j).2 < hi ∧
      (∀ k, lo ≤ k → k ≤ (hoareLoop r pivot fuel l i j).2 →
        ∀ v, (hoareLoop r pivot fuel l i j).1[k]? = some v → ¬ r pivot v) ∧
      (∀ k, (hoareLoop r pivot fuel l i j).2 < k → k ≤ hi →
        ∀ v, (hoareLoop r pivot fuel l i j).1[k]? = some v → ¬ r v pivot) := by
  intro fuel
  induction fuel with
  | zero =>
    intro l i j hf inv
    have := inv.i_le
    omega
  | succ fuel ih =>
    intro l i j hf inv
    rw [hoareLoop]
    obtain ⟨u1, u2, u3⟩ := scanUp_spec r pivot l l.length i (by omega)
    obtain ⟨d1, d2, d3⟩ := scanDown_spec r pivot l j
    set i2 := scanUp r pivot l l.length i with hi2
    set j2 := scanDown r pivot l j with hj2
    obtain ⟨ku, vu, ku1, ku2, ku3, ku4⟩ := inv.upS
    obtain ⟨kd, vd, kd1, kd2, kd3, kd4⟩ := inv.downS
    have hi2ku : i2 ≤ ku := by
      by_contra hc
      obtain ⟨v, hv1, hv2⟩ := u2 ku ku1 (by omega)
      rw [ku3] at hv1
      exact ku4 (by rw [Option.some.inj hv1]; exact hv2)
    have hkdj2 : kd ≤ j2 := by
      by_contra hc
      obtain ⟨v, hv1, hv2⟩ := d2 kd (by omega) kd2
      rw [kd3] at hv1
      exact kd4 (by rw [Option.some.inj hv1]; exact hv2)
    have hstop : ∀ v, l[j2]? = some v → ¬ r pivot v := by
      by_cases h0 : j2 = 0
      · intro v hv
        have hk0 : kd = j2 := by omega
        rw [hk0, hv] at kd3
        rw [Option.some.inj kd3]; exact kd4
      · exact d3 h0
    have hleft : ∀ k, lo ≤ k → k < i2 → ∀ v, l[k]? = some v → ¬ r pivot v := by
      intro k hk1 hk2 v hv
      by_cases hki : k < i
      · exact inv.left k hk1 hki v hv
      · obtain ⟨w, hw1, hw2⟩ := u2 k (by omega) hk2
        rw [hv] at hw1
        rw [Option.some.inj hw1]
        exact hr.asymm hw2
    have hright : ∀ k, j2 < k → k ≤ hi → ∀ v, l[k]? = some v → ¬ r v pivot := by
      intro k hk1 hk2 v hv
      by_cases hkj : j < k
      · exact inv.right k hkj hk2 v hv
      · obtain ⟨w, hw1, hw2⟩ := d2 k hk1 (by omega)
        rw [hv] at hw1
        rw [Option.some.inj hw1]
        exact hr.asymm hw2
    have hjhi := inv.le_hi
    have hloi := inv.lo_le
    have hhil := inv.hi_lt
    by_cases hc : i2 < j2
    · rw [if_pos hc]
      have hil : i2 < l.length := by omega
      have hjl : j2 < l.length := by omega
      have ha : l[i2]? = some l[i2] := List.getElem?_eq_getElem hil
      have hb : l[j2]? = some l[j2] := List.getElem?_eq_getElem hjl
      have hget := fun k => swapAt_getElem?_of_some l i2 j2 k _ _ ha hb
      have hstep : RangeStep lo hi l (swapAt l i2 j2) :=
        RangeStep.swap lo hi l i2 j2 _ _ ha hb (by omega) (by omega) (by omega) (by omega)
      have inv2 : HoareInv r pivot lo hi (swapAt l i2 j2) (i2 + 1) (j2 - 1) := by
        refine ⟨by omega, by omega, by omega, ?_, ?_, ?_, ?_, Or.inl (by omega), ?_⟩
        · intro k hk1 hk2 v hv
          rw [hget, if_neg (by omega)] at hv
          by_cases hki : k = i2
          · rw [if_pos hki] at hv
            exact hstop v (by rw [hb, hv])
          · rw [if_neg hki] at hv
            exact hleft k hk1 (by omega) v hv
        · intro k hk1 hk2 v hv
          rw [hget] at hv
          by_cases hkj : k = j2
          · rw [if_pos hkj] at hv
            exact u3 v (by rw [ha, hv])
          · rw [if_neg hkj, if_neg (by omega)] at hv
            exact hright k (by omega) hk2 v hv
        · exact ⟨j2, l[i2], by omega, by omega, by rw [hget, if_pos rfl], u3 _ ha⟩
        · refine ⟨i2, l[j2], by omega, by omega, ?_, hstop _ hb⟩
          rw [hget, if_neg (by omega), if_pos rfl]
        · rw [swapAt_length]; exact hhil
      obtain ⟨r1, r2, r3, r4, r5⟩ := ih (swapAt l i2 j2) (i2 + 1) (j2 - 1) (by omega) inv2
      exact ⟨hstep.trans r1, r2, r3, r4, r5⟩
    · rw [if_neg hc]
      refine ⟨RangeStep.refl _ _ _, by omega, ?_, ?_, hright⟩
      · rcases inv.strict with h | ⟨k, v, hk1, hk2, hk3, hk4⟩
        · show j2 < hi
          omega
        · have : i2 ≤ k := by
            by_contra hcc
            obtain ⟨w, hw1, hw2⟩ := u2 k hk1 (by omega)
            rw [hk3] at hw1
            exact hk4 (by rw [Option.some.inj hw1]; exact hw2)
          show j2 < hi
          omega
      · intro k hk1 hk2 v hv
        by_cases hki : k < i2
        · exact hleft k hk1 hki v hv
        · have hkj : k = j2 := by
            have : k ≤ j2 := hk2
            omega
          rw [hkj] at hv
          exact hstop v hv

/-- The Hoare partition of a range of at least two valid positions. -/
theorem hoarePartition_spec (r : α → α → Prop) [DecidableRel r] (hr : StrictTotal r)
    (l : List α) (lo hi : Nat) (hlt : lo < hi) (hhi : hi < l.length) :
    ∃ pivot,
      RangeStep lo hi l (hoarePartition r l lo hi).1 ∧
      lo ≤ (hoarePartition r l lo hi).2 ∧ (hoarePartition r l lo hi).2 < hi ∧
      (∀ k, lo ≤ k → k ≤ (hoarePartition r l lo hi).2 →
        ∀ v, (hoarePartition r l lo hi).1[k]? = some v → ¬ r pivot v) ∧
      (∀ k, (hoarePartition r l lo hi).2 < k → k ≤ hi →
        ∀ v, (hoarePartition r l lo hi).1[k]? = some v → ¬ r v pivot) := by
  have hm : (lo + hi) / 2 < l.length := by omega
  have hp : l[(lo + hi) / 2]? = some l[(lo + hi) / 2] := List.getElem?_eq_getElem hm
  refine ⟨l[(lo + hi) / 2], ?_⟩
  unfold hoarePartition
  rw [hp]
  refine hoareLoop_spec r hr _ lo hi (hi + 2 - lo) l lo hi (le_refl _) ?_
  refine ⟨le_refl _, le_refl _, by omega, fun k h1 h2 => by omega, fun k h1 h2 => by omega,
    ⟨_, _, by omega, by omega, hp, hr.irrefl _⟩, ⟨_, _, by omega, by omega, hp, hr.irrefl _⟩,
    Or.inr ⟨_, _, by omega, by omega, hp, hr.irrefl _⟩, hhi⟩

/-- Quicksort on a range, with recursion depth `hi - lo` allowed, rearranges the
range and leaves it in order. -/
theorem qSortBy_spec (r : α → α → Prop) [DecidableRel r] (hr : StrictTotal r) :
    ∀ fuel (l : List α) (lo hi : Nat), hi - lo ≤ fuel → hi < l.length →
      RangeStep lo hi l (qSortBy r fuel l lo hi) ∧
      ∀ a b, lo ≤ a → a < b → b ≤ hi → LeAt r (qSortBy r fuel l lo hi) a b := by
  intro fuel
  induction fuel with
  | zero =>
    intro l lo hi hf _
    exact ⟨RangeStep.refl _ _ _, fun a b h1 h2 h3 => by omega⟩
  | succ fuel ih =>
    intro l lo hi hf hhi
    rw [qSortBy]
    by_cases hlt : lo < hi
    · rw [if_pos hlt]
      obtain ⟨pivot, p1, p2, p3, p4, p5⟩ := hoarePartition_spec r hr l lo hi hlt hhi
      set l1 := (hoarePartition r l lo hi).1 with hl1
      set p := (hoarePartition r l lo hi).2 with hp
      have len1 : l1.length = l.length := p1.perm.length_eq
      obtain ⟨s1, s2⟩ := ih l1 lo p (by omega) (by omega)
      set l2 := qSortBy r fuel l1 lo p with hl2
      have len2 : l2.length = l1.length := s1.perm.length_eq
      obtain ⟨t1, t2⟩ := ih l2 (p + 1) hi (by omega) (by omega)
      set l3 := qSortBy r fuel l2 (p + 1) hi with hl3
      refine ⟨p1.trans ((s1.mono (le_refl _) (by omega)).trans (t1.mono (by omega) (le_refl _))),
        ?_⟩
      intro a b ha hab hb u v hu hv
      by_cases hbp : b ≤ p
      · rw [t1.frame a (by omega)] at hu
        rw [t1.frame b (by omega)] at hv
        exact s2 a b ha hab hbp u v hu hv
      · by_cases hap : p + 1 ≤ a
        · exact t2 a b hap hab hb u v hu hv
        · rw [t1.frame a (by omega)] at hu
          have hu2 : ¬ r pivot u :=
            s1.pres (fun w => ¬ r pivot w) (fun k h1 h2 w hw => p4 k h1 h2 w hw)
              a ha (by omega) u hu
          have hv2 : ¬ r v pivot :=
            t1.pres (fun w => ¬ r w pivot)
              (fun k h1 h2 w hw => p5 k (by omega) h2 w (by rw [← s1.frame k (by omega)]; exact hw))
              b (by omega) hb v hv
          exact hr.le_trans hu2 hv2
    · rw [if_neg hlt]
      exact ⟨RangeStep.refl _ _ _, fun a b h1 h2 h3 => by omega⟩

/-- Quicksort leaves a range of fewer than two positions alone. -/
theorem qSortBy_trivial (r : α → α → Prop) [DecidableRel r] (fuel : Nat) (l : List α)
    (lo hi : Nat) (h : ¬ lo < hi) : qSortBy r fuel l lo hi = l := by
  cases fuel with
  | zero => rfl
  | succ f => rw [qSortBy, if_neg h]

/-- Quicksort returns a permutation of its input, in order. -/
theorem quickSortBy_spec (r : α → α → Prop) [DecidableRel r] (hr : StrictTotal r)
    (v : List α) :
    (quickSortBy r v).Perm v ∧ (quickSortBy r v).Sorted (fun x y => ¬ r y x) := by
  unfold quickSortBy qSortRange
  by_cases h : v.length ≤ 1
  · rw [qSortBy_trivial r _ _ _ _ (by omega)]
    exact ⟨List.Perm.refl _, sorted_of_length_le_one r v h⟩
  · obtain ⟨h1, h2⟩ := qSortBy_spec r hr (v.length - 1 - 0) v 0 (v.length - 1) (le_refl _)
      (by omega)
    refine ⟨h1.perm, sorted_of_leAt r _ ?_⟩
    intro a b hab u w hu hw
    have hb := lt_length_of_getElem? hw
    rw [h1.perm.length_eq] at hb
    exact h2 a b (Nat.zero_le _) hab (by omega) u w hu hw

/-! #### Merge sort -/

/-- Merging permutes the elements of the two halves. -/
theorem mergeInto_perm (r : α → α → Prop) [DecidableRel r] :
    ∀ fuel (xs ys : List α), (mergeInto r fuel xs ys).Perm (xs ++ ys) := by
  intro fuel
  induction fuel with
  | zero => intro xs ys; exact List.Perm.refl _
  | succ fuel ih =>
    intro xs ys
    cases xs with
    | nil => rw [mergeInto]; exact List.Perm.refl _
    | cons x xs =>
      cases ys with
      | nil => rw [mergeInto, List.append_nil]
      | cons y ys =>
        rw [mergeInto]
        by_cases h : r y x
        · rw [if_pos h]
          exact ((ih (x :: xs) ys).cons y).trans List.perm_middle.symm
        · rw [if_neg h]
          exact (ih xs (y :: ys)).cons x

/-- Merging two sorted halves gives a sorted buffer. -/
theorem mergeInto_sorted (r : α → α → Prop) [DecidableRel r] (hr : StrictTotal r) :
    ∀ fuel (xs ys : List α), xs.length + ys.length ≤ fuel →
      xs.Sorted (fun a b => ¬ r b a) → ys.Sorted (fun a b => ¬ r b a) →
      (mergeInto r fuel xs ys).Sorted (fun a b => ¬ r b a) := by
  intro fuel
  induction fuel with
  | zero =>
    intro xs ys hlen hx hy
    have h1 : xs = [] := List.length_eq_zero.mp (by omega)
    have h2 : ys = [] := List.length_eq_zero.mp (by omega)
    subst h1; subst h2
    exact List.sorted_nil
  | succ fuel ih =>
    intro xs ys hlen hx hy
    cases xs with
    | nil => rw [mergeInto]; exact hy
    | cons x xs =>
      cases ys with
      | nil => rw [mergeInto]; exact hx
      | cons y ys =>
        rw [mergeInto]
        simp only [List.length_cons] at hlen
        by_cases h : r y x
        · rw [if_pos h]
          refine List.sorted_cons.mpr ⟨?_, ih (x :: xs) ys (by simp; omega) hx
            (List.Sorted.of_cons hy)⟩
          intro z hz
          rcases List.mem_append.mp ((mergeInto_perm r fuel (x :: xs) ys).subset hz) with hz | hz
          · rcases List.mem_cons.mp hz with rfl | hz
            · exact hr.asymm h
            · exact hr.le_trans (hr.asymm h) (List.rel_of_sorted_cons hx z hz)
          · exact List.rel_of_sorted_cons hy z hz
        · rw [if_neg h]
          refine List.sorted_cons.mpr ⟨?_, ih xs (y :: ys) (by simp; omega)
            (List.Sorted.of_cons hx) hy⟩
          intro z hz
          rcases List.mem_append.mp ((mergeInto_perm r fuel xs (y :: ys)).subset hz) with hz | hz
          · exact List.rel_of_sorted_cons hx z hz
          · rcases List.mem_cons.mp hz with rfl | hz
            · exact h
            · exact hr.le_trans h (List.rel_of_sorted_cons hy z hz)

/-- The merge sort helper permutes its input. -/
theorem mergeSortHelperBy_perm (r : α → α → Prop) [DecidableRel r] :
    ∀ fuel (l : List α), (mergeSortHelperBy r fuel l).Perm l := by
  intro fuel
  induction fuel with
  | zero => intro l; exact List.Perm.refl _
  | succ fuel ih =>
    intro l
    rw [mergeSortHelperBy]
    split
    · exact List.Perm.refl _
    · refine (mergeInto_perm r _ _ _).trans ?_
      refine ((ih _).append (ih _)).trans ?_
      rw [List.take_append_drop]

/-- The merge sort helper sorts every list not longer than the allowed depth. -/
theorem mergeSortHelperBy_sorted (r : α → α → Prop) [DecidableRel r] (hr : StrictTotal r) :
    ∀ fuel (l : List α), l.length ≤ fuel →
      (mergeSortHelperBy r fuel l).Sorted (fun a b => ¬ r b a) := by
  intro fuel
  induction fuel with
  | zero =>
    intro l hl
    have : l = [] := List.length_eq_zero.mp (by omega)
    subst this
    exact List.sorted_nil
  | succ fuel ih =>
    intro l hl
    rw [mergeSortHelperBy]
    by_cases h : l.length < 2
    · rw [if_pos h]
      match l, h with
      | [], _ => exact List.sorted_nil
      | [x], _ => exact List.sorted_singleton _
      | _ :: _ :: _, h => simp at h; omega
    · rw [if_neg h]
      have h1 : (l.take (l.length / 2)).length ≤ fuel := by
        rw [List.length_take]; omega
      have h2 : (l.drop (l.length / 2)).length ≤ fuel := by
        rw [List.length_drop]; omega
      refine mergeInto_sorted r hr _ _ _ ?_ (ih _ h1) (ih _ h2)
      rw [(mergeSortHelperBy_perm r fuel _).length_eq, (mergeSortHelperBy_perm r fuel _).length_eq,
        List.length_take, List.length_drop]
      omega

/-- Merge sort returns a permutation of its input, in order. -/
theorem mergeSortBy_spec (r : α → α → Prop) [DecidableRel r] (hr : StrictTotal r)
    (v : List α) :
    (mergeSortBy r v).Perm v ∧ (mergeSortBy r v).Sorted (fun x y => ¬ r y x) :=
  ⟨mergeSortHelperBy_perm r _ _, mergeSortHelperBy_sorted r hr _ _ (le_refl _)⟩

/-! #### The sorting contract -/

/-- An ascending result: in order for `<` means non-decreasing. -/
theorem ascending_of_spec [LinearOrder α] {l S : List α}
    (h : l.Perm S ∧ l.Sorted (fun x y => ¬ y < x)) :
    l.Perm S ∧ l.Sorted (fun x y => x ≤ y) :=
  ⟨h.1, h.2.imp (fun hxy => not_lt.mp hxy)⟩

/-- A descending result: in order for `>` means non-increasing. -/
theorem descending_of_spec [LinearOrder α] {l S : List α}
    (h : l.Perm S ∧ l.Sorted (fun x y => ¬ y > x)) :
    l.Perm S ∧ l.Sorted (fun x y => x ≥ y) :=
  ⟨h.1, h.2.imp (fun hxy => not_lt.mp hxy)⟩

/-- C3: for every vector `S` over a linearly ordered element type and each of
the six sorting strategies (bubble, insertion, selection, Shell, quick, merge)
in both directions, the vector after the call is a permutation of `S` and is
non-decreasing for the Ascending form and non-increasing for the Descending
form. -/
theorem sorting_contract [LinearOrder α] (S : List α) :
    ((bubbleSortAscending S).Perm S ∧ (bubbleSortAscending S).Sorted (fun x y => x ≤ y)) ∧
    ((bubbleSortDescending S).Perm S ∧ (bubbleSortDescending S).Sorted (fun x y => x ≥ y)) ∧
    ((insertionSortAscending S).Perm S ∧
      (insertionSortAscending S).Sorted (fun x y => x ≤ y)) ∧
    ((insertionSortDescending S).Perm S ∧
      (insertionSortDescending S).Sorted (fun x y => x ≥ y)) ∧
    ((selectionSortAscending S).Perm S ∧
      (selectionSortAscending S).Sorted (fun x y => x ≤ y)) ∧
    ((selectionSortDescending S).Perm S ∧
      (selectionSortDescending S).Sorted (fun x y => x ≥ y)) ∧
    ((ShellSortAscending S).Perm S ∧ (ShellSortAscending S).Sorted (fun x y => x ≤ y)) ∧
    ((ShellSortDescending S).Perm S ∧ (ShellSortDescending S).Sorted (fun x y => x ≥ y)) ∧
    ((quickSortAscending S).Perm S ∧ (quickSortAscending S).Sorted (fun x y => x ≤ y)) ∧
    ((quickSortDescending S).Perm S ∧ (quickSortDescending S).Sorted (fun x y => x ≥ y)) ∧
    ((mergeSortAscending S).Perm S ∧ (mergeSortAscending S).Sorted (fun x y => x ≤ y)) ∧
    ((mergeSortDescending S).Perm S ∧ (mergeSortDescending S).Sorted (fun x y => x ≥ y)) :=
  ⟨ascending_of_spec (bubbleSortBy_spec _ strictTotal_lt S),
    descending_of_spec (bubbleSortBy_spec _ strictTotal_gt S),
    ascending_of_spec (insertionSortBy_spec _ strictTotal_lt S),
    descending_of_spec (insertionSortBy_spec _ strictTotal_gt S),
    ascending_of_spec (selectionSortBy_spec _ strictTotal_lt S),
    descending_of_spec (selectionSortBy_spec _ strictTotal_gt S),
    ascending_of_spec (ShellSortBy_spec _ strictTotal_lt S),
    descending_of_spec (ShellSortBy_spec _ strictTotal_gt S),
    ascending_of_spec (quickSortBy_spec _ strictTotal_lt S),
    descending_of_spec (quickSortBy_spec _ strictTotal_gt S),
    ascending_of_spec (mergeSortBy_spec _ strictTotal_lt S),
    descending_of_spec (mergeSortBy_spec _ strictTotal_gt S)⟩

end SortingProofs

/-! ### `findClosest` -/

/-- Invariant of the scan of `findClosest` over an ascending sequence: the kept
element belongs to the sequence, has minimal distance to `v`, and is the lowest
among the elements at that distance. -/
theorem findClosest_fold_spec (v : Int) (rest : List Int) :
    ∀ b : Int, (b :: rest).Sorted (· ≤ ·) →
      rest.foldl (findClosestStep v) b ∈ b :: rest ∧
      (∀ x ∈ b :: rest,
        (rest.foldl (findClosestStep v) b - v).natAbs ≤ (x - v).natAbs) ∧
      (∀ x ∈ b :: rest,
        (x - v).natAbs = (rest.foldl (findClosestStep v) b - v).natAbs →
          rest.foldl (findClosestStep v) b ≤ x) := by
  induction rest with
  | nil =>
    intro b _
    simp
  | cons y t ih =>
    intro b hs
    rw [List.foldl_cons]
    have hby : b ≤ y := List.rel_of_sorted_cons hs y (List.mem_cons_self _ _)
    have hyt : (y :: t).Sorted (· ≤ ·) := List.Sorted.of_cons hs
    have hbt : (b :: t).Sorted (· ≤ ·) := by
      have h1 := List.sorted_cons.mp hs
      have h2 := List.sorted_cons.mp hyt
      exact List.sorted_cons.mpr ⟨fun x hx => h1.1 x (List.mem_cons_of_mem _ hx), h2.2⟩
    by_cases hc : (y - v).natAbs < (b - v).natAbs
    · have e : findClosestStep v b y = y := by unfold findClosestStep; rw [if_pos hc]
      rw [e]
      obtain ⟨m1, m2, m3⟩ := ih y hyt
      refine ⟨List.mem_cons_of_mem _ m1, ?_, ?_⟩
      · intro x hx
        rcases List.mem_cons.mp hx with rfl | hx
        · have := m2 y (List.mem_cons_self _ _); omega
        · exact m2 x hx
      · intro x hx hd
        rcases List.mem_cons.mp hx with rfl | hx
        · have := m2 y (List.mem_cons_self _ _); omega
        · exact m3 x hx hd
    · have e : findClosestStep v b y = b := by unfold findClosestStep; rw [if_neg hc]
      rw [e]
      obtain ⟨m1, m2, m3⟩ := ih b hbt
      have hb := m2 b (List.mem_cons_self _ _)
      refine ⟨?_, ?_, ?_⟩
      · rcases List.mem_cons.mp m1 with h | h
        · rw [h]; exact List.mem_cons_self _ _
        · exact List.mem_cons_of_mem _ (List.mem_cons_of_mem _ h)
      · intro x hx
        rcases List.mem_cons.mp hx with rfl | hx
        · exact hb
        · rcases List.mem_cons.mp hx with rfl | hx
          · omega
          · exact m2 x (List.mem_cons_of_mem _ hx)
      · intro x hx hd
        rcases List.mem_cons.mp hx with rfl | hx
        · exact m3 x (List.mem_cons_self _ _) hd
        · rcases List.mem_cons.mp hx with rfl | hx
          · have := m3 b (List.mem_cons_self _ _) (by omega)
            omega
          · exact m3 x (List.mem_cons_of_mem _ hx) hd

/-- C4: for every non-empty ascending-sorted integer sequence `R` and every
value `v`, `findClosest R v` returns an element `r` of `R` that minimises
`|r - v|`, and every element of `R` at the same distance from `v` is at least
`r` (on a tie the smaller one is returned). -/
theorem findClosest_spec (R : List Int) (v : Int) (hne : R ≠ [])
    (hs : R.Sorted (· ≤ ·)) :
    ∃ r, findClosest R v = some r ∧ r ∈ R ∧
      (∀ x ∈ R, (r - v).natAbs ≤ (x - v).natAbs) ∧
      (∀ x ∈ R, (x - v).natAbs = (r - v).natAbs → r ≤ x) := by
  cases R with
  | nil => exact absurd rfl hne
  | cons b rest =>
    exact ⟨_, rfl, findClosest_fold_spec v rest b hs⟩

/-- Witness for C4: `findClosest [1, 3, 5, 7] 4 = 3` (the tie between `3` and
`5` goes to the lower value). -/
theorem findClosest_spec_witness :
    findClosest [1, 3, 5, 7] 4 = some 3 ∧
    ∃ r, findClosest [1, 3, 5, 7] 4 = some r ∧ r ∈ ([1, 3, 5, 7] : List Int) ∧
      (∀ x ∈ ([1, 3, 5, 7] : List Int), (r - 4).natAbs ≤ (x - 4).natAbs) ∧
      (∀ x ∈ ([1, 3, 5, 7] : List Int), (x - 4).natAbs = (r - 4).natAbs → r ≤ x) :=
  ⟨by decide, findClosest_spec [1, 3, 5, 7] 4 (by decide) (by decide)⟩

/-! ### `isBracketSequenceValid` -/

/-- Unfolding of one step of the scan. -/
theorem bracketScan_cons (c : Char) (cs stack : List Char) :
    bracketScan (c :: cs) stack =
      if isOpeningBracket c then bracketScan cs (c :: stack)
      else if isClosingBracket c then
        match stack with
        | [] => false
        | top :: below => if bracketsMatch top c then bracketScan cs below else false
      else bracketScan cs stack := by
  rw [bracketScan.eq_def]

/-- The first component of a matching pair is an opener. -/
theorem bracketsMatch_open {o c : Char} (h : bracketsMatch o c = true) :
    isOpeningBracket o = true := by
  simp only [bracketsMatch, isOpeningBracket, Bool.or_eq_true, Bool.and_eq_true, beq_iff_eq] at *
  tauto

/-- The second component of a matching pair is a closer and not an opener. -/
theorem bracketsMatch_close {o c : Char} (h : bracketsMatch o c = true) :
    isOpeningBracket c = false ∧ isClosingBracket c = true := by
  simp only [bracketsMatch, Bool.or_eq_true, Bool.and_eq_true, beq_iff_eq] at h
  rcases h with (⟨_, rfl⟩ | ⟨_, rfl⟩) | ⟨_, rfl⟩ <;> decide

/-- Scanning a balanced string leaves the stack as it was. -/
theorem bracketScan_balanced {s : List Char} (hs : Balanced s) :
    ∀ rest stack, bracketScan (s ++ rest) stack = bracketScan rest stack := by
  induction hs with
  | nil => intro rest stack; rfl
  | wrap o c s hm _ ih =>
    intro rest stack
    have ho := bracketsMatch_open hm
    obtain ⟨hc1, hc2⟩ := bracketsMatch_close hm
    have e : (o :: s ++ [c]) ++ rest = o :: (s ++ (c :: rest)) := by simp
    rw [e, bracketScan_cons, if_pos ho, ih, bracketScan_cons, hc1, hc2]
    simp [hm]
  | append s t _ _ ihs iht =>
    intro rest stack
    rw [List.append_assoc, ihs, iht]

/-- A balanced string may be put in front of a string closing a stack. -/
theorem Closes.prepend {b : List Char} (hb : Balanced b) :
    ∀ {stack s}, Closes stack s → Closes stack (b ++ s) := by
  intro stack s h
  cases h with
  | done s hs => exact Closes.done _ (Balanced.append _ _ hb hs)
  | close o c stack b2 s hm hb2 hc =>
    rw [← List.append_assoc]
    exact Closes.close o c stack (b ++ b2) s hm (Balanced.append _ _ hb hb2) hc

/-- An accepting scan from a stack of openers reads a string that closes that
stack. -/
theorem bracketScan_closes (s : List Char)
    (hall : ∀ c ∈ s, isOpeningBracket c = true ∨ isClosingBracket c = true) :
    ∀ stack, (∀ o ∈ stack, isOpeningBracket o = true) →
      bracketScan s stack = true → Closes stack s := by
  induction s with
  | nil =>
    intro stack _ h
    cases stack with
    | nil => exact Closes.done _ Balanced.nil
    | cons a t => simp [bracketScan] at h
  | cons c cs ih =>
    intro stack hst h
    have ih2 := ih (fun x hx => hall x (List.mem_cons_of_mem _ hx))
    rw [bracketScan_cons] at h
    by_cases ho : isOpeningBracket c = true
    · rw [if_pos ho] at h
      have hc := ih2 (c :: stack) (by
        intro o hmem
        rcases List.mem_cons.mp hmem with rfl | hmem
        · exact ho
        · exact hst o hmem) h
      cases hc with
      | close o c2 stack2 b s2 hm hb hrest =>
        have e : c :: (b ++ c2 :: s2) = (c :: b ++ [c2]) ++ s2 := by simp
        rw [e]
        exact Closes.prepend (Balanced.wrap c c2 b hm hb) hrest
    · rw [if_neg ho] at h
      have hcl : isClosingBracket c = true := by
        rcases hall c (List.mem_cons_self _ _) with h1 | h1
        · exact absurd h1 ho
        · exact h1
      rw [if_pos hcl] at h
      cases stack with
      | nil => simp at h
      | cons top below =>
        simp only at h
        by_cases hm : bracketsMatch top c = true
        · rw [if_pos hm] at h
          have hc := ih2 below (fun o ho2 => hst o (List.mem_cons_of_mem _ ho2)) h
          exact Closes.close top c below [] cs hm Balanced.nil hc
        · rw [if_neg hm] at h
          exact absurd h (by simp)

/-- C5: for every string over the characters `()[]{}`,
`isBracketSequenceValid` is true if and only if the string is a properly
nested, balanced bracket string. -/
theorem isBracketSequenceValid_iff_balanced (seq : String)
    (hall : ∀ c ∈ seq.data, c ∈ ['(', ')', '[', ']', '{', '}']) :
    isBracketSequenceValid seq = true ↔ Balanced seq.data := by
  constructor
  · intro h
    have hall2 : ∀ c ∈ seq.data, isOpeningBracket c = true ∨ isClosingBracket c = true := by
      intro c hc
      have := hall c hc
      simp only [List.mem_cons, List.mem_singleton, List.not_mem_nil, or_false] at this
      rcases this with rfl | rfl | rfl | rfl | rfl | rfl <;> decide
    have := bracketScan_closes seq.data hall2 [] (by simp) h
    cases this with
    | done s hs => exact hs
  · intro h
    have := bracketScan_balanced h [] []
    simpa [isBracketSequenceValid, bracketScan] using this

/-- Witness for C5: `{[()]}` is over the six brackets and accepted, hence
balanced; `{[(])}` is rejected. -/
theorem isBracketSequenceValid_iff_balanced_witness :
    (isBracketSequenceValid "\x7b[()]\x7d" = true ∧
      isBracketSequenceValid "\x7b[(])\x7d" = false) ∧
    (isBracketSequenceValid "\x7b[()]\x7d" = true ↔ Balanced "\x7b[()]\x7d".data) :=
  ⟨by decide, isBracketSequenceValid_iff_balanced "\x7b[()]\x7d" (by decide)⟩

/-! ### `lengthOfLongestSubstring` -/

/-- Distinctness on a range passes to every sub-range. -/
theorem DistinctOn.shrink {s : List Char} {a b a2 b2 : Nat} (h : DistinctOn s a b)
    (ha : a ≤ a2) (hb : b2 ≤ b) : DistinctOn s a2 b2 :=
  fun x y hx hxy hy => h x y (le_trans ha hx) hxy (lt_of_lt_of_le hy hb)

/-- Extending a range of distinct characters by one position on the right. -/
theorem distinctOn_succ {s : List Char} {a i : Nat} :
    DistinctOn s a (i + 1) ↔ DistinctOn s a i ∧ ∀ x, a ≤ x → x < i → s[x]? ≠ s[i]? := by
  constructor
  · intro h
    exact ⟨h.shrink (le_refl _) (Nat.le_succ _), fun x hx hxi => h x i hx hxi (Nat.lt_succ_self _)⟩
  · rintro ⟨h1, h2⟩ x y hx hxy hy
    by_cases hyi : y = i
    · subst hyi; exact h2 x hx hxy
    · exact h1 x y hx hxy (by omega)

/-- One iteration of the sliding-window loop preserves the invariant. -/
theorem LolsInv.step {s : List Char} {i start : Nat} {last : Char → Option Nat}
    {best : Nat} (inv : LolsInv s i start last best) {c : Char} (hc : s[i]? = some c)
    (hi : i < s.length) :
    LolsInv s (i + 1) (windowStart start (last c))
      (fun x => if x = c then some i else last x)
      (max best (i + 1 - windowStart start (last c))) := by
  have key : windowStart start (last c) ≤ i ∧
      DistinctOn s (windowStart start (last c)) (i + 1) ∧
      ∀ a, a < windowStart start (last c) → ¬ DistinctOn s a (i + 1) := by
    cases hl : last c with
    | none =>
      have hn := inv.last_none c hl
      refine ⟨inv.start_le, ?_, ?_⟩
      · refine distinctOn_succ.mpr ⟨inv.window, ?_⟩
        intro x _ hxi; rw [hc]; exact hn x hxi
      · intro a ha h
        exact inv.minimal a ha (distinctOn_succ.mp h).1
    | some q =>
      obtain ⟨hq, hsq, hafter⟩ := inv.last_some c q hl
      by_cases hsq2 : start ≤ q
      · have e : windowStart start (some q) = q + 1 := by
          unfold windowStart; simp [hsq2]
        rw [e]
        refine ⟨hq, ?_, ?_⟩
        · refine distinctOn_succ.mpr ⟨inv.window.shrink (by omega) (le_refl _), ?_⟩
          intro x hx hxi; rw [hc]; exact hafter x hx hxi
        · intro a ha h
          exact h q i (by omega) hq (Nat.lt_succ_self _) (by rw [hsq, hc])
      · have e : windowStart start (some q) = start := by
          unfold windowStart; simp [hsq2]
        rw [e]
        refine ⟨inv.start_le, ?_, ?_⟩
        · refine distinctOn_succ.mpr ⟨inv.window, ?_⟩
          intro x hx hxi; rw [hc]; exact hafter x (by omega) hxi
        · intro a ha h
          exact inv.minimal a ha (distinctOn_succ.mp h).1
  obtain ⟨k1, k2, k3⟩ := key
  refine ⟨by omega, hi, k2, k3, ?_, ?_, ?_, ?_⟩
  · intro d q hd
    by_cases hdc : d = c
    · subst hdc
      simp only [if_true] at hd
      have : q = i := by simpa using hd.symm
      subst this
      exact ⟨Nat.lt_succ_self _, hc, fun r h1 h2 => by omega⟩
    · simp only [if_neg hdc] at hd
      obtain ⟨h1, h2, h3⟩ := inv.last_some d q hd
      refine ⟨by omega, h2, ?_⟩
      intro r hr1 hr2
      by_cases hri : r = i
      · subst hri; rw [hc]; intro h; exact hdc (Option.some.inj h).symm
      · exact h3 r hr1 (by omega)
  · intro d hd r hr
    by_cases hdc : d = c
    · subst hdc; simp at hd
    · simp only [if_neg hdc] at hd
      by_cases hri : r = i
      · subst hri; rw [hc]; intro h; exact hdc (Option.some.inj h).symm
      · exact inv.last_none d hd r (by omega)
  · intro a b hab hb hd
    by_cases hbi : b = i + 1
    · subst hbi
      have : ¬ a < windowStart start (last c) := fun h => k3 a h hd
      have h2 : i + 1 - a ≤ i + 1 - windowStart start (last c) := by omega
      exact le_trans h2 (le_max_right _ _)
    · exact le_trans (inv.best_ub a b hab (by omega) hd) (le_max_left _ _)
  · obtain ⟨a, b, hab, hb, hd, he⟩ := inv.best_at
    by_cases hcmp : best ≤ i + 1 - windowStart start (last c)
    · exact ⟨windowStart start (last c), i + 1, by omega, le_refl _, k2,
        (max_eq_right hcmp).symm⟩
    · exact ⟨a, b, hab, by omega, hd, by rw [he]; exact (max_eq_left (by omega)).symm⟩

/-- From a state satisfying the invariant the loop returns the greatest length
of a run of distinct characters of the whole string. -/
theorem lolsLoop_spec (s : List Char) :
    ∀ cs i start last best, s.drop i = cs → LolsInv s i start last best →
      (∀ a b, a ≤ b → b ≤ s.length → DistinctOn s a b →
        b - a ≤ lolsLoop cs i start last best) ∧
      (∃ a b, a ≤ b ∧ b ≤ s.length ∧ DistinctOn s a b ∧
        b - a = lolsLoop cs i start last best) := by
  intro cs
  induction cs with
  | nil =>
    intro i start last best hdrop inv
    have hi : i = s.length := by
      have := List.drop_eq_nil_iff.mp hdrop
      have := inv.i_le
      omega
    subst hi
    exact ⟨inv.best_ub, inv.best_at⟩
  | cons c cs ih =>
    intro i start last best hdrop inv
    have hi : i < s.length := by
      by_contra h
      rw [List.drop_eq_nil_iff.mpr (by omega)] at hdrop
      exact List.noConfusion hdrop
    have hc : s[i]? = some c := by
      rw [← List.head?_drop, hdrop]; rfl
    have hdrop2 : s.drop (i + 1) = cs := by
      rw [← List.drop_drop 1 i, hdrop]; rfl
    exact ih _ _ _ _ hdrop2 (inv.step hc hi)

/-- The initial state satisfies the invariant. -/
theorem lolsInv_init (s : List Char) : LolsInv s 0 0 (fun _ => none) 0 := by
  refine ⟨le_refl _, Nat.zero_le _, ?_, ?_, ?_, ?_, ?_, ?_⟩
  · intro x y _ _ hy; omega
  · intro a ha; omega
  · intro c q h; simp at h
  · intro c _ r hr; omega
  · intro a b _ hb _; omega
  · exact ⟨0, 0, le_refl _, le_refl _, fun x y _ _ hy => by omega, rfl⟩

/-- A run `s[a..b)` has no repeated character iff its positions carry distinct
characters. -/
theorem nodup_run_iff (s : List Char) (a b : Nat) (hb : b ≤ s.length) :
    ((s.drop a).take (b - a)).Nodup ↔ DistinctOn s a b := by
  rw [List.nodup_iff_getElem?_ne_getElem?]
  constructor
  · intro h x y hx hxy hy
    have := h (x - a) (y - a) (by omega) (by simp; omega)
    rw [List.getElem?_take_of_lt (by omega), List.getElem?_take_of_lt (by omega),
      List.getElem?_drop, List.getElem?_drop] at this
    have e1 : a + (x - a) = x := by omega
    have e2 : a + (y - a) = y := by omega
    rwa [e1, e2] at this
  · intro h x y hxy hy
    simp only [List.length_take, List.length_drop] at hy
    rw [List.getElem?_take_of_lt (by omega), List.getElem?_take_of_lt (by omega),
      List.getElem?_drop, List.getElem?_drop]
    exact h (a + x) (a + y) (by omega) (by omega) (by omega)

/-- C6: for every string `s`, `lengthOfLongestSubstring s` is the maximum
length of a contiguous substring of `s` with pairwise distinct characters (it
bounds the length of every such substring and is the length of one); it is `0`
for the empty string and `3` for `abcabcbb`. -/
theorem lengthOfLongestSubstring_spec (s : String) :
    ((∀ t : List Char, t <:+: s.data → t.Nodup →
        (t.length : Int) ≤ lengthOfLongestSubstring s) ∧
      (∃ t : List Char, t <:+: s.data ∧ t.Nodup ∧
        (t.length : Int) = lengthOfLongestSubstring s)) ∧
    lengthOfLongestSubstring "" = 0 ∧ lengthOfLongestSubstring "abcabcbb" = 3 := by
  obtain ⟨h1, h2⟩ := lolsLoop_spec s.data s.data 0 0 (fun _ => none) 0 rfl (lolsInv_init _)
  refine ⟨⟨?_, ?_⟩, by decide, by decide⟩
  · intro t ht hnd
    obtain ⟨a, b, hab, hb, rfl⟩ := (infix_iff_run _ _).mp ht
    have := h1 a b hab hb ((nodup_run_iff _ a b hb).mp hnd)
    unfold lengthOfLongestSubstring
    simp only [List.length_take, List.length_drop]
    have e : min (b - a) (s.data.length - a) = b - a := by omega
    rw [e]
    exact_mod_cast this
  · obtain ⟨a, b, hab, hb, hd, he⟩ := h2
    refine ⟨(s.data.drop a).take (b - a), (infix_iff_run _ _).mpr ⟨a, b, hab, hb, rfl⟩,
      (nodup_run_iff _ a b hb).mpr hd, ?_⟩
    unfold lengthOfLongestSubstring
    simp only [List.length_take, List.length_drop]
    have e : min (b - a) (s.data.length - a) = b - a := by omega
    rw [e, he]

/-! ### `calculateIntervalsLength` -/

/-- A cell is covered iff some interval contains it. -/
theorem mem_coveredCells (l : List (Int × Int)) (k : Int) :
    k ∈ coveredCells l ↔ ∃ p ∈ l, p.1 ≤ k ∧ k < p.2 := by
  induction l with
  | nil => simp [coveredCells]
  | cons p t ih =>
    have e : coveredCells (p :: t) = Finset.Ico p.1 p.2 ∪ coveredCells t := rfl
    rw [e, Finset.mem_union, ih, Finset.mem_Ico]
    simp

/-- The covered cells do not depend on the order of the intervals. -/
theorem coveredCells_perm {l1 l2 : List (Int × Int)} (h : l1.Perm l2) :
    coveredCells l1 = coveredCells l2 := by
  ext k
  rw [mem_coveredCells, mem_coveredCells]
  constructor
  · rintro ⟨p, hp, h1⟩; exact ⟨p, h.mem_iff.mp hp, h1⟩
  · rintro ⟨p, hp, h1⟩; exact ⟨p, h.mem_iff.mpr hp, h1⟩

/-- The sweep over intervals sorted by start adds to the running total the
number of cells covered by the current merged interval and the remaining
intervals. -/
theorem sweepIntervals_spec (rest : List (Int × Int)) :
    ∀ cs ce total, cs ≤ ce →
      (∀ p ∈ rest, cs ≤ p.1 ∧ p.1 ≤ p.2) → rest.Pairwise (fun a b => a.1 ≤ b.1) →
      sweepIntervals rest cs ce total
        = total + ((Finset.Ico cs ce ∪ coveredCells rest).card : Int) := by
  induction rest with
  | nil =>
    intro cs ce total hle _ _
    have e : coveredCells [] = ∅ := rfl
    rw [sweepIntervals, e, Finset.union_empty, Int.card_Ico, Int.toNat_of_nonneg (by omega)]
  | cons p t ih =>
    intro cs ce total hle hall hsorted
    obtain ⟨s, e⟩ := p
    have hp := hall (s, e) (List.mem_cons_self _ _)
    simp only at hp
    have hcov : coveredCells ((s, e) :: t) = Finset.Ico s e ∪ coveredCells t := rfl
    have hsorted2 := List.pairwise_cons.mp hsorted
    rw [sweepIntervals, hcov]
    by_cases hc : s ≤ ce
    · rw [if_pos hc, ih cs (max ce e) total (le_trans hle (le_max_left _ _))
        (fun q hq => hall q (List.mem_cons_of_mem _ hq)) hsorted2.2]
      have hI : Finset.Ico cs (max ce e) = Finset.Ico cs ce ∪ Finset.Ico s e := by
        ext k
        simp only [Finset.mem_Ico, Finset.mem_union, lt_max_iff]
        constructor
        · rintro ⟨h1, h2 | h2⟩
          · exact Or.inl ⟨h1, h2⟩
          · by_cases hk : k < ce
            · exact Or.inl ⟨h1, hk⟩
            · exact Or.inr ⟨by omega, h2⟩
        · rintro (⟨h1, h2⟩ | ⟨h1, h2⟩)
          · exact ⟨h1, Or.inl h2⟩
          · exact ⟨by omega, Or.inr h2⟩
      rw [hI, Finset.union_assoc]
    · rw [if_neg hc, ih s e (total + (ce - cs)) hp.2
        (fun q hq => ⟨hsorted2.1 q hq, (hall q (List.mem_cons_of_mem _ hq)).2⟩) hsorted2.2]
      have hdisj : Disjoint (Finset.Ico cs ce) (Finset.Ico s e ∪ coveredCells t) := by
        rw [Finset.disjoint_left]
        intro k hk1 hk2
        rw [Finset.mem_Ico] at hk1
        rcases Finset.mem_union.mp hk2 with h | h
        · rw [Finset.mem_Ico] at h; omega
        · obtain ⟨q, hq, hq1, _⟩ := (mem_coveredCells t k).mp h
          have := hsorted2.1 q hq
          simp only at this
          omega
      rw [Finset.card_union_of_disjoint hdisj, Int.card_Ico]
      push_cast
      rw [Int.toNat_of_nonneg (by omega)]
      ring

/-- On well-formed intervals sorted by start the sweep returns the number of
covered cells. -/
theorem mergedLength_spec (l : List (Int × Int)) (hall : ∀ p ∈ l, p.1 ≤ p.2)
    (hsorted : l.Pairwise (fun a b => a.1 ≤ b.1)) :
    mergedLength l = ((coveredCells l).card : Int) := by
  cases l with
  | nil => rfl
  | cons p t =>
    obtain ⟨s, e⟩ := p
    have h2 := List.pairwise_cons.mp hsorted
    have := sweepIntervals_spec t s e 0 (hall (s, e) (List.mem_cons_self _ _))
      (fun q hq => ⟨h2.1 q hq, hall q (List.mem_cons_of_mem _ hq)⟩) h2.2
    simp only [mergedLength, this, zero_add]
    rfl

/-- C7: for every list of integer intervals `(start, end)` with `start ≤ end`,
`calculateIntervalsLength` returns the total length of the union of the
intervals, overlapping parts counted once. -/
theorem calculateIntervalsLength_union (intervals : List (Int × Int))
    (hall : ∀ p ∈ intervals, p.1 ≤ p.2) :
    calculateIntervalsLength intervals = ((coveredCells intervals).card : Int) := by
  unfold calculateIntervalsLength
  have hany : intervals.any (fun p => decide (p.1 > p.2)) = false := by
    rw [List.any_eq_false]
    intro p hp
    have := hall p hp
    simp only [decide_eq_true_eq]; omega
  rw [hany]
  simp only [Bool.false_eq_true, if_false]
  have hperm := List.perm_insertionSort startLE intervals
  have hs : (intervals.insertionSort startLE).Pairwise (fun a b => a.1 ≤ b.1) := by
    haveI : IsTotal (Int × Int) startLE := ⟨fun a b => le_total a.1 b.1⟩
    haveI : IsTrans (Int × Int) startLE := ⟨fun a b c h1 h2 => le_trans h1 h2⟩
    exact List.sorted_insertionSort startLE intervals
  rw [mergedLength_spec _ (fun p hp => hall p (hperm.mem_iff.mp hp)) hs,
    coveredCells_perm hperm]

/-- Witness for C7: `calculateIntervalsLength [(1,4),(3,6)] = 5`. -/
theorem calculateIntervalsLength_union_witness :
    calculateIntervalsLength [(1, 4), (3, 6)] = 5 ∧
    calculateIntervalsLength [(1, 4), (3, 6)]
      = ((coveredCells [(1, 4), (3, 6)]).card : Int) :=
  ⟨by decide, calculateIntervalsLength_union [(1, 4), (3, 6)] (by decide)⟩

/-- C8: for every list of intervals containing at least one interval with
`start > end`, `calculateIntervalsLength` returns the sentinel `-1` (as an
ordinary return value of a total function). -/
theorem calculateIntervalsLength_malformed (intervals : List (Int × Int))
    (hbad : ∃ p ∈ intervals, p.1 > p.2) :
    calculateIntervalsLength intervals = -1 := by
  unfold calculateIntervalsLength
  have hany : intervals.any (fun p => decide (p.1 > p.2)) = true := by
    rw [List.any_eq_true]
    obtain ⟨p, hp, h⟩ := hbad
    exact ⟨p, hp, by simpa using h⟩
  rw [hany]; rfl

/-- Witness for C8: the malformed interval `(6,3)` makes the result `-1`. -/
theorem calculateIntervalsLength_malformed_witness :
    (∃ p ∈ ([(1, 4), (6, 3)] : List (Int × Int)), p.1 > p.2) ∧
    calculateIntervalsLength [(1, 4), (6, 3)] = -1 :=
  ⟨by decide, calculateIntervalsLength_malformed [(1, 4), (6, 3)] (by decide)⟩

/-! ### `stringPermutations` -/

/-- The enumeration lists, without repetition, exactly the rearrangements of
its input. -/
theorem permutationsAux_spec :
    ∀ n (s : List Char), s.length = n →
      (permutationsAux n s).Nodup ∧ ∀ t, t ∈ permutationsAux n s ↔ t.Perm s := by
  intro n
  induction n with
  | zero =>
    intro s hs
    have : s = [] := List.length_eq_zero.mp hs
    subst this
    refine ⟨by simp [permutationsAux], ?_⟩
    intro t
    simp [permutationsAux]
  | succ n ih =>
    intro s hs
    have hlen : ∀ c ∈ s, (s.erase c).length = n := by
      intro c hc
      rw [List.length_erase_of_mem hc, hs]; rfl
    have hmem : ∀ t, t ∈ permutationsAux (n + 1) s ↔ t.Perm s := by
      intro t
      simp only [permutationsAux, List.mem_flatMap, List.mem_dedup, List.mem_map]
      constructor
      · rintro ⟨c, hc, u, hu, rfl⟩
        have := ((ih _ (hlen c hc)).2 u).mp hu
        exact (List.Perm.cons c this).trans (List.perm_cons_erase hc).symm
      · intro ht
        cases t with
        | nil =>
          have := ht.length_eq
          simp [hs] at this
        | cons c u =>
          have h := List.cons_perm_iff_perm_erase.mp ht
          exact ⟨c, h.1, u, ((ih _ (hlen c h.1)).2 u).mpr h.2, rfl⟩
    refine ⟨?_, hmem⟩
    simp only [permutationsAux]
    rw [List.nodup_flatMap]
    constructor
    · intro c hc
      have hc2 : c ∈ s := List.mem_dedup.mp hc
      exact (ih _ (hlen c hc2)).1.map (fun a b h => List.tail_eq_of_cons_eq h)
    · refine (List.nodup_dedup s).imp ?_
      intro c d hcd
      show List.Disjoint _ _
      rw [List.disjoint_left]
      intro t h1 h2
      obtain ⟨u, _, rfl⟩ := List.mem_map.mp h1
      obtain ⟨v, _, hv⟩ := List.mem_map.mp h2
      exact hcd (List.head_eq_of_cons_eq hv).symm

/-- C9: for every string `s`, `stringPermutations s` has no duplicate entry and
contains exactly the rearrangements of the characters of `s`; on `aab` it is
`aab`, `aba`, `baa`. -/
theorem stringPermutations_spec (s : String) :
    ((stringPermutations s).Nodup ∧
      ∀ t : String, t ∈ stringPermutations s ↔ t.data.Perm s.data) ∧
    stringPermutations "aab" = ["aab", "aba", "baa"] := by
  obtain ⟨h1, h2⟩ := permutationsAux_spec s.data.length s.data rfl
  refine ⟨⟨?_, ?_⟩, by decide⟩
  · exact h1.map (fun a b h => by injection h)
  · intro t
    rw [← h2]
    unfold stringPermutations
    rw [List.mem_map]
    constructor
    · rintro ⟨u, hu, rfl⟩; exact hu
    · intro h; exact ⟨t.data, h, rfl⟩

/-! ### `tribonacci` -/

/-- Appending `m` terms to a sequence of at least `k` elements: the length grows
by `m`, the sequence is kept as a prefix, and every appended term is the sum
of the `k` terms before it. -/
theorem tribonacciGrow_spec (k : Nat) :
    ∀ m acc, k ≤ acc.length →
      (tribonacciGrow k m acc).length = acc.length + m ∧
      acc <+: tribonacciGrow k m acc ∧
      ∀ i, acc.length ≤ i → i < acc.length + m →
        (tribonacciGrow k m acc)[i]?
          = some (((tribonacciGrow k m acc).drop (i - k)).take k).sum := by
  intro m
  induction m with
  | zero =>
    intro acc _
    exact ⟨rfl, List.prefix_refl _, fun i h1 h2 => by omega⟩
  | succ m ih =>
    intro acc hk
    rw [tribonacciGrow]
    set x : Int := (acc.drop (acc.length - k)).sum with hx
    obtain ⟨h1, h2, h3⟩ := ih (acc ++ [x]) (by simp; omega)
    have hpre : acc <+: tribonacciGrow k m (acc ++ [x]) :=
      (List.prefix_append acc [x]).trans h2
    refine ⟨by rw [h1]; simp; omega, hpre, ?_⟩
    intro i hi1 hi2
    by_cases hi : i = acc.length
    · subst hi
      obtain ⟨z, hz⟩ := h2
      rw [← hz]
      have e1 : (acc ++ [x] ++ z)[acc.length]? = some x := by
        rw [List.append_assoc, List.getElem?_append_right (le_refl _)]
        simp
      rw [e1]
      have e2 : List.drop (acc.length - k) (acc ++ [x] ++ z)
          = acc.drop (acc.length - k) ++ ([x] ++ z) := by
        rw [List.append_assoc, List.drop_append_of_le_length (by omega)]
      have e3 : (acc.drop (acc.length - k)).length = k := by
        rw [List.length_drop]; omega
      rw [e2, List.take_append_of_le_length (by omega), List.take_of_length_le (by omega)]
    · exact h3 i (by simp; omega) (by simp; omega)

/-- C10: for every signature of length `k ≥ 1` and every `n`,
`tribonacci signature n` has exactly `n` elements, its first `min k n` elements
are those of the signature, and every element at an index `i ≥ k` is the sum of
the `k` elements before it. -/
theorem tribonacci_spec (signature : List Int) (n : Nat) (_hk : 1 ≤ signature.length) :
    (tribonacci signature n).length = n ∧
    (∀ i, i < min signature.length n → (tribonacci signature n)[i]? = signature[i]?) ∧
    (∀ i, signature.length ≤ i → i < n →
      (tribonacci signature n)[i]?
        = some (((tribonacci signature n).drop (i - signature.length)).take
            signature.length).sum) := by
  unfold tribonacci
  by_cases hn : n ≤ signature.length
  · simp only [if_pos hn]
    refine ⟨by simp [hn], ?_, ?_⟩
    · intro i hi
      rw [List.getElem?_take_of_lt (by omega)]
    · intro i h1 h2; omega
  · simp only [if_neg hn]
    obtain ⟨h1, h2, h3⟩ :=
      tribonacciGrow_spec signature.length (n - signature.length) signature (le_refl _)
    refine ⟨by rw [h1]; omega, ?_, ?_⟩
    · intro i hi
      obtain ⟨z, hz⟩ := h2
      rw [← hz, List.getElem?_append_left (by omega)]
    · intro i hi1 hi2
      exact h3 i hi1 (by omega)

/-- Witness for C10: `tribonacci [0, 1, 1] 6 = [0, 1, 1, 2, 4, 7]`. -/
theorem tribonacci_spec_witness :
    tribonacci [0, 1, 1] 6 = [0, 1, 1, 2, 4, 7] ∧
    ((tribonacci [0, 1, 1] 6).length = 6 ∧
    (∀ i, i < min ([0, 1, 1] : List Int).length 6 →
      (tribonacci [0, 1, 1] 6)[i]? = ([0, 1, 1] : List Int)[i]?) ∧
    (∀ i, ([0, 1, 1] : List Int).length ≤ i → i < 6 →
      (tribonacci [0, 1, 1] 6)[i]?
        = some (((tribonacci [0, 1, 1] 6).drop (i - ([0, 1, 1] : List Int).length)).take
            ([0, 1, 1] : List Int).length).sum)) :=
  ⟨by decide, tribonacci_spec [0, 1, 1] 6 (by decide)⟩

/-! ### String checks -/

/-- The digits are the characters from `0` to `9`. -/
theorem isdigit_iff (c : Char) : isdigit c = true ↔ '0' ≤ c ∧ c ≤ '9' := by
  unfold isdigit Char.isDigit
  rw [Bool.and_eq_true, decide_eq_true_eq, decide_eq_true_eq]
  exact Iff.rfl

/-- A string is empty iff it has no characters. -/
theorem string_eq_empty_iff (s : String) : s = "" ↔ s.data = [] := by
  constructor
  · intro h; rw [h]
  · intro h
    cases s with
    | mk d =>
      have hd : d = [] := h
      rw [hd]

/-- C11: for every string `s`, `is_uint_number s` is true if and only if `s` is
non-empty and every character of `s` is a decimal digit `0`..`9`. -/
theorem is_uint_number_iff (s : String) :
    is_uint_number s = true ↔ s ≠ "" ∧ ∀ c ∈ s.data, '0' ≤ c ∧ c ≤ '9' := by
  unfold is_uint_number
  rw [Bool.and_eq_true, List.isEmpty_iff, Bool.not_eq_true', List.isEmpty_eq_false,
    List.dropWhile_eq_nil_iff]
  constructor
  · rintro ⟨h1, h2⟩
    exact ⟨fun h => h1 ((string_eq_empty_iff s).mp h),
      fun c hc => (isdigit_iff c).mp (h2 c hc)⟩
  · rintro ⟨h1, h2⟩
    exact ⟨fun h => h1 ((string_eq_empty_iff s).mpr h),
      fun c hc => (isdigit_iff c).mpr (h2 c hc)⟩

/-- A digit is not a minus sign. -/
theorem isdigit_ne_minus (c : Char) (h : isdigit c = true) : (c == '-') = false := by
  have := (isdigit_iff c).mp h
  rw [beq_eq_false_iff_ne]
  rintro rfl
  exact absurd this.1 (by decide)

/-- The direction of C12 that the code satisfies: one or more digits, with or
without a single leading minus sign, are accepted by `is_int_number`. -/
theorem is_int_number_of_digits (ds : List Char) (hne : ds ≠ [])
    (hall : ∀ c ∈ ds, isdigit c = true) :
    is_int_number (String.mk ds) = true ∧ is_int_number (String.mk ('-' :: ds)) = true := by
  have hdrop : ds.dropWhile (fun c => isdigit c || c == '-') = [] :=
    List.dropWhile_eq_nil_iff.mpr (fun c hc => by simp [hall c hc])
  have htake : ds.takeWhile (fun c => c == '-') = [] := by
    cases ds with
    | nil => rfl
    | cons d t =>
      exact List.takeWhile_cons_of_neg
        (by rw [isdigit_ne_minus d (hall d (List.mem_cons_self _ _))]; simp)
  constructor
  · unfold is_int_number
    simp only [htake, List.length_nil, Nat.zero_le, if_true, hdrop]
    cases ds with
    | nil => exact absurd rfl hne
    | cons d t => rfl
  · unfold is_int_number
    have h1 : ('-' :: ds).takeWhile (fun c => c == '-') = ['-'] := by
      rw [List.takeWhile_cons_of_pos (by simp), htake]
    have h2 : ('-' :: ds).dropWhile (fun c => isdigit c || c == '-') = [] := by
      rw [List.dropWhile_cons_of_pos (by simp), hdrop]
    simp only [h1, h2]
    rfl

/-- C12, the code at the failing inputs: `is_int_number` returns true on `1-2`
and on the lone minus sign `-`, neither of which is a signed integer number
(an optional single leading minus sign followed by one or more digits). -/
theorem is_int_number_accepts_inner_minus :
    (is_int_number "1-2" = true ∧ isSignedIntegerText "1-2".data = false) ∧
    (is_int_number "-" = true ∧ isSignedIntegerText "-".data = false) := by
  decide

/-- C13, the code at the failing inputs: `is_floating_number` returns true on
the lone minus sign `-` (no digit at all) and on `1-2` (a minus sign that is
not the first character), neither of which is a floating number. -/
theorem is_floating_number_accepts_lone_minus :
    (is_floating_number "-" = some true ∧ isFloatingText "-".data = false) ∧
    (is_floating_number "1-2" = some true ∧ isFloatingText "1-2".data = false) := by
  decide

/-- The part of C14 that the code satisfies: on every non-empty string
`is_floating_number` returns a boolean. -/
theorem is_floating_number_isSome (s : String) (h : s ≠ "") :
    (is_floating_number s).isSome = true := by
  unfold is_floating_number
  cases hd : s.data with
  | nil => exact absurd ((string_eq_empty_iff s).mpr hd) h
  | cons c t =>
    simp only []
    split <;> rfl

/-- C14, the code at the failing input: on the empty string `is_floating_number`
does not return `false`; reading `__str.at(0UL)` throws `std::out_of_range`
before the final emptiness test is reached. -/
theorem is_floating_number_empty_throws :
    is_floating_number "" = none ∧ is_floating_number "" ≠ some false := by
  decide

/-! ### Vowels -/

/-- C15: for every character `c`, `is_vowel c` is true if and only if `c` is
one of `a`, `e`, `i`, `o`, `u`, `A`, `E`, `I`, `O`, `U`. -/
theorem is_vowel_iff (c : Char) :
    is_vowel c = true ↔ c ∈ ['a', 'e', 'i', 'o', 'u', 'A', 'E', 'I', 'O', 'U'] := by
  simp [is_vowel, or_assoc]

/-- The compaction loop of `std::remove_if`, allowed to read up to the end of
the buffer: the part before the new logical end is the part already kept
followed by the elements still to read that do not satisfy the predicate. -/
theorem removeIfLoop_spec {α : Type} (pred : α → Bool) :
    ∀ fuel i first (buf : List α), first ≤ i → buf.length ≤ i + fuel →
      (removeIfLoop pred fuel i first buf).1.take (removeIfLoop pred fuel i first buf).2
        = buf.take first ++ (buf.drop i).filter (fun x => !pred x) := by
  intro fuel
  induction fuel with
  | zero =>
    intro i first buf _ hlen
    rw [removeIfLoop, List.drop_eq_nil_iff.mpr (by omega)]
    simp
  | succ fuel ih =>
    intro i first buf hfi hlen
    rw [removeIfLoop]
    cases hx : buf[i]? with
    | none =>
      have : buf.length ≤ i := List.getElem?_eq_none_iff.mp hx
      simp only []
      rw [List.drop_eq_nil_iff.mpr this]
      simp
    | some x =>
      have hi : i < buf.length := by
        by_contra hc
        rw [List.getElem?_eq_none (by omega)] at hx
        exact Option.noConfusion hx
      have hdrop : buf.drop i = x :: buf.drop (i + 1) := by
        rw [List.drop_eq_getElem_cons hi]
        congr 1
        rw [List.getElem?_eq_getElem hi] at hx
        exact Option.some.inj hx
      simp only []
      by_cases hp : pred x = true
      · rw [if_pos hp, ih (i + 1) first buf (by omega) (by omega), hdrop,
          List.filter_cons_of_neg (by simp [hp])]
      · rw [if_neg hp, ih (i + 1) (first + 1) (buf.set first x) (by omega)
          (by rw [List.length_set]; omega), hdrop, List.filter_cons_of_pos (by simp [hp])]
        have h1 : (buf.set first x).take (first + 1) = buf.take first ++ [x] := by
          rw [List.take_succ, List.set_take, List.set_eq_of_length_le (by simp),
            List.getElem?_set_self (by omega)]
          rfl
        have h2 : (buf.set first x).drop (i + 1) = buf.drop (i + 1) :=
          List.drop_set_of_lt _ _ (by omega)
        rw [h1, h2]
        simp

/-- The erase-remove idiom keeps exactly the elements that do not satisfy the
predicate, in their order. -/
theorem eraseToEnd_remove_if {α : Type} (pred : α → Bool) (l : List α) :
    eraseToEnd (remove_if pred l).1 (remove_if pred l).2 = l.filter (fun x => !pred x) := by
  unfold eraseToEnd remove_if
  rw [removeIfLoop_spec pred l.length 0 0 l (le_refl _) (by omega)]
  simp

/-- C16: for every string `s`, the returning `remove_vowels_ s` is exactly the
characters of `s` for which `is_vowel` is false, in their original order: the
result contains no vowel, is a subsequence of `s`, and keeps every non-vowel
with its multiplicity. -/
theorem remove_vowels_returning_spec (s : String) :
    (remove_vowels_ s).data = s.data.filter (fun c => !is_vowel c) ∧
    (∀ c ∈ (remove_vowels_ s).data, is_vowel c = false) ∧
    (remove_vowels_ s).data.Sublist s.data ∧
    (∀ c, is_vowel c = false → (remove_vowels_ s).data.count c = s.data.count c) := by
  have e : (remove_vowels_ s).data = s.data.filter (fun c => !is_vowel c) :=
    eraseToEnd_remove_if is_vowel s.data
  rw [e]
  refine ⟨rfl, ?_, List.filter_sublist _, ?_⟩
  · intro c hc
    have := (List.mem_filter.mp hc).2
    simpa using this
  · intro c hc
    rw [List.count_filter (by simp [hc])]

/-- C17, the code at the failing input: after the in-place
`remove_vowels_regex` the string `abc` is still `abc`, with its vowel, while
the returning `remove_vowels_regex` gives `bc`. -/
theorem remove_vowels_regex_inplace_unchanged :
    remove_vowels_regex_inplace "abc" = "abc" ∧ remove_vowels_regex "abc" = "bc" ∧
    remove_vowels_regex_inplace "abc" ≠ remove_vowels_regex "abc" ∧
    (∃ c ∈ (remove_vowels_regex_inplace "abc").data, is_vowel c = true) := by
  decide

/-! ### Erasing runs -/

section EraseRunsProofs

variable {α : Type}

/-- The outer loop at the position after `pre`, with as many iterations allowed
as elements follow: when no two neighbours among the remaining elements satisfy
the condition nothing is erased and the range is returned as it is; otherwise
an element is erased and the invalidated iterator is used. -/
theorem eraseOuter_eq (cond : α → α → Bool) :
    ∀ fuel (pre rest : List α), rest.length ≤ fuel →
      eraseOuter cond fuel pre.length (pre ++ rest)
        = if rest.Chain' (fun a b => cond a b = false) then some (pre ++ rest) else none := by
  intro fuel
  induction fuel with
  | zero =>
    intro pre rest h
    have : rest = [] := List.length_eq_zero.mp (by omega)
    subst this
    simp [eraseOuter]
  | succ fuel ih =>
    intro pre rest h
    rw [eraseOuter]
    cases rest with
    | nil => simp
    | cons a t =>
      rw [if_neg (by simp)]
      cases t with
      | nil =>
        have h1 : (pre ++ [a])[pre.length + 1]? = none :=
          List.getElem?_eq_none (by simp)
        have e : eraseInner cond pre.length (pre ++ [a]) = some (pre ++ [a]) := by
          unfold eraseInner
          rw [h1]
          split <;> simp_all
        rw [e]
        simp only []
        have hih := ih (pre ++ [a]) [] (by simp)
        simp only [List.append_nil, List.length_append, List.length_singleton] at hih
        rw [hih]
        simp
      | cons b t =>
        have h1 : (pre ++ a :: b :: t)[pre.length]? = some a := by
          rw [List.getElem?_append_right (le_refl _)]; simp
        have h2 : (pre ++ a :: b :: t)[pre.length + 1]? = some b := by
          rw [List.getElem?_append_right (by omega)]; simp
        by_cases hc : cond a b = true
        · have e : eraseInner cond pre.length (pre ++ a :: b :: t) = none := by
            unfold eraseInner
            rw [h1, h2]
            simp only []
            rw [if_pos hc]
          rw [e]
          simp only []
          rw [if_neg]
          intro hch
          have := (List.chain'_cons.mp hch).1
          rw [hc] at this
          cases this
        · have e : eraseInner cond pre.length (pre ++ a :: b :: t)
              = some (pre ++ a :: b :: t) := by
            unfold eraseInner
            rw [h1, h2]
            simp only []
            rw [if_neg hc]
          rw [e]
          simp only []
          have hih := ih (pre ++ [a]) (b :: t) (by simp at h ⊢; omega)
          simp only [List.append_assoc, List.singleton_append, List.length_append,
            List.length_singleton] at hih
          rw [hih]
          have hiff : (a :: b :: t).Chain' (fun a b => cond a b = false)
              ↔ (b :: t).Chain' (fun a b => cond a b = false) := by
            rw [List.chain'_cons]
            exact ⟨fun h => h.2, fun h => ⟨by simpa using hc, h⟩⟩
          by_cases hch : (b :: t).Chain' (fun a b => cond a b = false)
          · rw [if_pos hch, if_pos (hiff.mpr hch)]
          · rw [if_neg hch, if_neg (fun h => hch (hiff.mp h))]

/-- When only equal neighbours are dropped, collapsing keeps the value of the
first element. -/
theorem collapseRuns_head (cond : α → α → Bool) (hcond : ∀ a b, cond a b = true → a = b)
    (a : α) (t : List α) : ∃ t2, collapseRuns cond (a :: t) = a :: t2 := by
  induction t generalizing a with
  | nil => exact ⟨[], rfl⟩
  | cons b t ih =>
    rw [collapseRuns]
    by_cases hc : cond a b = true
    · rw [if_pos hc, hcond a b hc]; exact ih b
    · rw [if_neg hc]; exact ⟨_, rfl⟩

/-- When only equal neighbours are dropped, no two neighbours of the collapsed
list satisfy the condition. -/
theorem collapseRuns_chain (cond : α → α → Bool) (hcond : ∀ a b, cond a b = true → a = b)
    (l : List α) : (collapseRuns cond l).Chain' (fun a b => cond a b = false) := by
  induction l with
  | nil => simp [collapseRuns]
  | cons a t ih =>
    cases t with
    | nil => simp [collapseRuns]
    | cons b t =>
      rw [collapseRuns]
      by_cases hc : cond a b = true
      · rw [if_pos hc]; exact ih
      · rw [if_neg hc]
        obtain ⟨t2, ht2⟩ := collapseRuns_head cond hcond b t
        rw [ht2] at ih ⊢
        exact List.Chain'.cons (by simpa using hc) ih

/-- The collapsed list is a subsequence of the list. -/
theorem collapseRuns_sublist (cond : α → α → Bool) (l : List α) :
    (collapseRuns cond l).Sublist l := by
  induction l with
  | nil => simp [collapseRuns]
  | cons a t ih =>
    cases t with
    | nil => simp [collapseRuns]
    | cons b t =>
      rw [collapseRuns]
      split
      · exact ih.cons a
      · exact ih.cons₂ a

/-- Collapsing keeps, in order, the elements that are never dropped. -/
theorem collapseRuns_filter (cond : α → α → Bool) (q : α → Bool)
    (hq : ∀ a b, cond a b = true → q a = false) (l : List α) :
    (collapseRuns cond l).filter q = l.filter q := by
  induction l with
  | nil => simp [collapseRuns]
  | cons a t ih =>
    cases t with
    | nil => simp [collapseRuns]
    | cons b t =>
      rw [collapseRuns]
      by_cases hc : cond a b = true
      · rw [if_pos hc, ih]
        exact (List.filter_cons_of_neg (by simp [hq a b hc])).symm
      · rw [if_neg hc]
        simp only [List.filter_cons] at ih ⊢
        rw [ih]

/-- A list without a pair of neighbours satisfying the condition is left as it
is. -/
theorem collapseRuns_of_chain (cond : α → α → Bool) (l : List α)
    (h : l.Chain' (fun a b => cond a b = false)) : collapseRuns cond l = l := by
  induction l with
  | nil => simp [collapseRuns]
  | cons a t ih =>
    cases t with
    | nil => simp [collapseRuns]
    | cons b t =>
      rw [collapseRuns]
      have h2 := List.chain'_cons.mp h
      rw [if_neg (by simp [h2.1]), ih h2.2]

/-- `remove_same_elems` returns a vector exactly on the inputs without adjacent
duplicates (the empty vector included), which it leaves unchanged; on every
other input it erases through `it` and then uses the invalidated iterator. -/
theorem remove_same_elems_eq [DecidableEq α] (v : List α) :
    remove_same_elems v = if v.Chain' (fun a b => a ≠ b) then some v else none := by
  have := eraseOuter_eq (fun a b : α => decide (a = b)) v.length [] v (le_refl _)
  simp only [List.nil_append, List.length_nil] at this
  unfold remove_same_elems
  rw [this]
  have hiff : v.Chain' (fun a b => decide (a = b) = false) ↔ v.Chain' (fun a b => a ≠ b) :=
    ⟨fun h => h.imp (fun {_ _} h => of_decide_eq_false h),
      fun h => h.imp (fun {_ _} h => decide_eq_false h)⟩
  by_cases hch : v.Chain' (fun a b => a ≠ b)
  · rw [if_pos hch, if_pos (hiff.mpr hch)]
  · rw [if_neg hch, if_neg (fun h => hch (hiff.mp h))]

/-- Whenever `remove_same_elems` returns a vector, it is the input with its runs
collapsed (and the input had no run longer than one element). -/
theorem remove_same_elems_some [DecidableEq α] (v r : List α)
    (h : remove_same_elems v = some r) :
    r = collapseRuns (fun a b => decide (a = b)) v ∧ r = v := by
  rw [remove_same_elems_eq] at h
  by_cases hch : v.Chain' (fun a b => a ≠ b)
  · rw [if_pos hch] at h
    cases h
    exact ⟨(collapseRuns_of_chain _ _ (hch.imp (fun {_ _} h => decide_eq_false h))).symm, rfl⟩
  · rw [if_neg hch] at h
    cases h

end EraseRunsProofs

/-- `remove_consecutive_spaces` returns a string exactly on the inputs without
two adjacent spaces, which it returns unchanged; on every other input it erases
through `it` and then uses the invalidated iterator. -/
theorem remove_consecutive_spaces_eq (s : String) :
    remove_consecutive_spaces s
      = if s.data.Chain' (fun a b => ¬ (a = ' ' ∧ b = ' ')) then some s else none := by
  have := eraseOuter_eq (fun a b : Char => a == b && a == ' ') s.data.length [] s.data
    (le_refl _)
  simp only [List.nil_append, List.length_nil] at this
  unfold remove_consecutive_spaces
  rw [this]
  have hiff : s.data.Chain' (fun a b => (a == b && a == ' ') = false)
      ↔ s.data.Chain' (fun a b => ¬ (a = ' ' ∧ b = ' ')) := by
    constructor
    · intro h
      refine h.imp ?_
      intro a b h hab
      rw [hab.1, hab.2] at h
      exact absurd h (by decide)
    · intro h
      refine h.imp ?_
      intro a b h
      by_contra hc
      simp only [Bool.not_eq_false, Bool.and_eq_true, beq_iff_eq] at hc
      exact h ⟨hc.2, by rw [← hc.1]; exact hc.2⟩
  by_cases hch : s.data.Chain' (fun a b => ¬ (a = ' ' ∧ b = ' '))
  · rw [if_pos hch, if_pos (hiff.mpr hch)]
    rfl
  · rw [if_neg hch, if_neg (fun h => hch (hiff.mp h))]
    rfl

/-- C19, the code at the failing input `{1, 1, 2}`: the first two elements are
equal, `__range.erase(it)` runs and the loop test is evaluated again on the
invalidated `it`, so the call has no defined result, while the claim asks for
the collapsed vector `{1, 2}`. -/
theorem remove_same_elems_erase_undefined :
    remove_same_elems ([1, 1, 2] : List Int) = none ∧
    collapseRuns (fun a b => decide (a = b)) ([1, 1, 2] : List Int) = [1, 2] := by
  decide

/-- C18, the code at the failing input `a  b` (two spaces): `str.erase(it)` runs
at the first space and the loop test is evaluated again on the invalidated
`it`, so the call has no defined result, while the claim asks for `a b`. -/
theorem remove_consecutive_spaces_erase_undefined :
    remove_consecutive_spaces "a  b" = none ∧
    String.mk (collapseRuns (fun a b => a == b && a == ' ') "a  b".data) = "a b" := by
  decide

/-! ### `split_number_on_digits` -/

/-- The value of a digit list, one digit at a time. -/
theorem digitsValue_cons (d : Int) (t : List Int) :
    digitsValue (d :: t) = d + 10 * digitsValue t := by
  unfold digitsValue
  rw [List.length_cons, Finset.sum_range_succ', Finset.mul_sum]
  simp only [List.getD_cons_succ, List.getD_cons_zero, pow_zero, mul_one]
  rw [add_comm]
  congr 1
  apply Finset.sum_congr rfl
  intro i _
  ring

/-- With more iterations allowed than the number is large, the loop appends a
non-empty list of digits `0..9` whose value is the number, and `[0]` for zero. -/
theorem splitDigitsLoop_spec :
    ∀ fuel n (digits : List Int), n < fuel →
      ∃ ds : List Int, splitDigitsLoop fuel n digits = digits ++ ds ∧ ds ≠ [] ∧
        (∀ d ∈ ds, 0 ≤ d ∧ d ≤ 9) ∧ digitsValue ds = (n : Int) ∧ (n = 0 → ds = [0]) := by
  intro fuel
  induction fuel with
  | zero => intro n digits h; omega
  | succ fuel ih =>
    intro n digits h
    rw [splitDigitsLoop]
    by_cases hz : n / 10 = 0
    · rw [if_pos hz]
      refine ⟨[((n % 10 : Nat) : Int)], rfl, by simp, ?_, ?_, ?_⟩
      · intro d hd
        rw [List.mem_singleton.mp hd]
        omega
      · rw [digitsValue_cons]
        have : digitsValue [] = 0 := rfl
        rw [this]
        omega
      · intro h0; subst h0; rfl
    · rw [if_neg hz]
      obtain ⟨ds, h1, h2, h3, h4, _⟩ :=
        ih (n / 10) (digits ++ [((n % 10 : Nat) : Int)]) (by omega)
      refine ⟨((n % 10 : Nat) : Int) :: ds, by rw [h1]; simp, by simp, ?_, ?_, ?_⟩
      · intro d hd
        rcases List.mem_cons.mp hd with rfl | hd
        · omega
        · exact h3 d hd
      · rw [digitsValue_cons, h4]
        omega
      · intro h0; subst h0; simp at hz

/-- C20: for every non-negative integer `n`, `split_number_on_digits n` is a
non-empty list `d_0 .. d_m` with every `d_i` in `0..9` and
`n = sum over i of d_i * 10 ^ i` (the decimal digits of `n`, least significant
first); for `n = 0` the result is `[0]`. -/
theorem split_number_on_digits_spec (n : Nat) :
    split_number_on_digits n ≠ [] ∧
    (∀ d ∈ split_number_on_digits n, 0 ≤ d ∧ d ≤ 9) ∧
    digitsValue (split_number_on_digits n) = (n : Int) ∧
    split_number_on_digits 0 = [0] := by
  obtain ⟨ds, h1, h2, h3, h4, _⟩ := splitDigitsLoop_spec (n + 1) n [] (Nat.lt_succ_self n)
  have e : split_number_on_digits n = ds := by
    unfold split_number_on_digits; rw [h1]; rfl
  rw [e]
  exact ⟨h2, h3, h4, by decide⟩

/-! ### `split_number_on_digits`: order of the digits -/

/-- With more iterations allowed than the number is large, the digit appended
at position `i` is the coefficient of `10 ^ i` in the number. -/
theorem splitDigitsLoop_getD :
    ∀ fuel n (digits : List Int), n < fuel →
      ∃ ds : List Int, splitDigitsLoop fuel n digits = digits ++ ds ∧
        ∀ i, ds.getD i 0 = ((n / 10 ^ i % 10 : Nat) : Int) := by
  intro fuel
  induction fuel with
  | zero => intro n digits h; omega
  | succ fuel ih =>
    intro n digits h
    rw [splitDigitsLoop]
    by_cases hz : n / 10 = 0
    · rw [if_pos hz]
      refine ⟨[((n % 10 : Nat) : Int)], rfl, ?_⟩
      intro i
      cases i with
      | zero => simp
      | succ i =>
        have h10 : n < 10 := by omega
        have : n / 10 ^ (i + 1) = 0 := by
          apply Nat.div_eq_of_lt
          calc n < 10 := h10
            _ = 10 ^ 1 := by norm_num
            _ ≤ 10 ^ (i + 1) := Nat.pow_le_pow_right (by norm_num) (by omega)
        rw [this]
        simp
    · rw [if_neg hz]
      obtain ⟨ds, h1, h2⟩ := ih (n / 10) (digits ++ [((n % 10 : Nat) : Int)]) (by omega)
      refine ⟨((n % 10 : Nat) : Int) :: ds, by rw [h1]; simp, ?_⟩
      intro i
      cases i with
      | zero => simp
      | succ i =>
        rw [List.getD_cons_succ, h2 i, Nat.div_div_eq_div_mul, pow_succ, mul_comm]

/-- The returned array is the list of decimal digits of the number, least
significant first (`[0]` for zero). -/
theorem split_number_on_digits_eq_digits (n : Nat) :
    split_number_on_digits n = if n = 0 then [0] else (Nat.digits 10 n).map Int.ofNat := by
  have key : ∀ fuel n (digits : List Int), n < fuel → n ≠ 0 →
      splitDigitsLoop fuel n digits = digits ++ (Nat.digits 10 n).map Int.ofNat := by
    intro fuel
    induction fuel with
    | zero => intro n digits h; omega
    | succ fuel ih =>
      intro n digits h hn
      rw [splitDigitsLoop, Nat.digits_def' (by norm_num) (Nat.pos_of_ne_zero hn)]
      by_cases hz : n / 10 = 0
      · rw [if_pos hz, hz, Nat.digits_zero]
        rfl
      · rw [if_neg hz, ih (n / 10) _ (by omega) hz]
        simp
  by_cases hn : n = 0
  · subst hn; rfl
  · rw [if_neg hn]
    unfold split_number_on_digits
    rw [key (n + 1) n [] (Nat.lt_succ_self n) hn]
    rfl

/-- What the loop returns for every non-negative integer `n`: the decimal
digits of `n` from the last written digit to the first (least significant
first).  The digit at index `i` is `n / 10 ^ i % 10` (and `0` beyond the end),
and the array is the digit list of `n`; nothing sorts the digits by value. -/
theorem split_number_on_digits_positional (n : Nat) :
    (∀ i, (split_number_on_digits n).getD i 0 = ((n / 10 ^ i % 10 : Nat) : Int)) ∧
    split_number_on_digits n = (if n = 0 then [0] else (Nat.digits 10 n).map Int.ofNat) := by
  refine ⟨?_, split_number_on_digits_eq_digits n⟩
  obtain ⟨ds, h1, h2⟩ := splitDigitsLoop_getD (n + 1) n [] (Nat.lt_succ_self n)
  have e : split_number_on_digits n = ds := by
    unfold split_number_on_digits; rw [h1]; rfl
  rw [e]
  exact h2

/-- C21, the code at the failing input `21`: `split_number_on_digits 21` is
`[1, 2]`, whose first digit is smaller than the digit that follows it, while
the comment on the function and the claim ask for the digits in descending
order, `[2, 1]`. -/
theorem split_number_on_digits_not_descending :
    split_number_on_digits 21 = [1, 2] ∧
    ¬ (split_number_on_digits 21).Chain' (fun a b => a ≥ b) := by
  have e : split_number_on_digits 21 = [1, 2] := by decide
  refine ⟨e, ?_⟩
  rw [e]
  intro h
  have := (List.chain'_cons.mp h).1
  omega

/-! ### `split_str` -/

/-- The search returns the first position at which the text continues with `d`,
and `npos` only when there is none. -/
theorem findAt_spec (d : List Char) (rest : List Char) :
    ∀ p, (∀ q, findAt d rest p = some q →
        ∃ k, q = p + k ∧ k ≤ rest.length ∧ d <+: rest.drop k ∧
          ∀ j, j < k → ¬ d <+: rest.drop j) ∧
      (findAt d rest p = none → ∀ j, ¬ d <+: rest.drop j) := by
  induction rest with
  | nil =>
    intro p
    rw [findAt]
    by_cases h : d.isPrefixOf [] = true
    · rw [if_pos h]
      refine ⟨fun q hq => ⟨0, by simpa using hq.symm, le_refl _,
        List.isPrefixOf_iff_prefix.mp h, fun j hj => by omega⟩, fun hn => by simp at hn⟩
    · rw [if_neg h]
      refine ⟨fun q hq => by simp at hq, fun _ j hp => h ?_⟩
      rw [List.drop_nil] at hp
      exact List.isPrefixOf_iff_prefix.mpr hp
  | cons c cs ih =>
    intro p
    rw [findAt]
    by_cases h : d.isPrefixOf (c :: cs) = true
    · rw [if_pos h]
      refine ⟨fun q hq => ⟨0, by simpa using hq.symm, Nat.zero_le _,
        List.isPrefixOf_iff_prefix.mp h, fun j hj => by omega⟩, fun hn => by simp at hn⟩
    · rw [if_neg h]
      obtain ⟨ih1, ih2⟩ := ih (p + 1)
      have h0 : ¬ d <+: (c :: cs).drop 0 := fun hp => h (List.isPrefixOf_iff_prefix.mpr hp)
      constructor
      · intro q hq
        obtain ⟨k, hk1, hk2, hk3, hk4⟩ := ih1 q hq
        refine ⟨k + 1, by omega, by simp; omega, hk3, ?_⟩
        intro j hj
        cases j with
        | zero => exact h0
        | succ j => exact hk4 j (by omega)
      · intro hn j
        cases j with
        | zero => exact h0
        | succ j => exact ih2 hn j

/-- A position returned by `find` is the lowest one, from `start` on, at which
`d` occurs. -/
theorem find_some (str d : List Char) (start q : Nat) (h : find str d start = some q) :
    start ≤ q ∧ q ≤ str.length ∧ d <+: str.drop q ∧
      ∀ j, start ≤ j → j < q → ¬ d <+: str.drop j := by
  unfold find at h
  by_cases hs : start ≤ str.length
  · rw [if_pos hs] at h
    obtain ⟨k, hk1, hk2, hk3, hk4⟩ := (findAt_spec d (str.drop start) start).1 q h
    rw [List.length_drop] at hk2
    rw [List.drop_drop] at hk3
    subst hk1
    refine ⟨by omega, by omega, ?_, ?_⟩
    · exact hk3
    · intro j hj1 hj2 hp
      apply hk4 (j - start) (by omega)
      rw [List.drop_drop]
      have : start + (j - start) = j := by omega
      rw [this]; exact hp
  · rw [if_neg hs] at h
    exact Option.noConfusion h

/-- When `find` returns `npos`, `d` occurs nowhere from `start` on. -/
theorem find_none (str d : List Char) (start : Nat) (hs : start ≤ str.length)
    (h : find str d start = none) : ∀ j, start ≤ j → ¬ d <+: str.drop j := by
  unfold find at h
  rw [if_pos hs] at h
  intro j hj hp
  apply (findAt_spec d (str.drop start) start).2 h (j - start)
  rw [List.drop_drop]
  have : start + (j - start) = j := by omega
  rw [this]; exact hp

/-- A non-empty `d` contained in the piece `[a, a + n)` of a string occurs at a
position of that piece. -/
theorem prefix_of_infix_slice (str d : List Char) (a n : Nat) (hd : d ≠ [])
    (h : d <:+: (str.drop a).take n) :
    ∃ j, a ≤ j ∧ j < a + n ∧ d <+: str.drop j := by
  obtain ⟨s1, s2, hs⟩ := h
  have hlen : 0 < d.length := List.length_pos.mpr hd
  have h1 : d <+: ((str.drop a).take n).drop s1.length := by
    rw [← hs, List.append_assoc, List.drop_left]
    exact List.prefix_append _ _
  rw [List.drop_take, List.drop_drop] at h1
  obtain ⟨h2, h3⟩ := List.prefix_take_iff.mp h1
  exact ⟨a + s1.length, by omega, by omega, h2⟩


/-- For a non-empty delimiter the loop, started with `pos` the result of the
search from `initial_pos` and enough iterations allowed, returns a vector, and
no word of it contains the delimiter. -/
theorem splitLoop_nonempty (str d : List Char) (hd : d ≠ []) :
    ∀ fuel pos initial_pos (acc : List String), pos = find str d initial_pos →
      initial_pos ≤ str.length → str.length + 2 ≤ initial_pos + fuel →
      (∀ w ∈ acc, ¬ d <:+: w.data) →
      ∃ ws, splitLoop str d fuel pos initial_pos acc = SplitOutcome.returned ws ∧
        ∀ w ∈ ws, ¬ d <:+: w.data := by
  intro fuel
  induction fuel with
  | zero => intro pos ip acc _ h1 h2; omega
  | succ fuel ih =>
    intro pos ip acc hpos h1 h2 hacc
    have hlen : 0 < d.length := List.length_pos.mpr hd
    cases pos with
    | some p =>
      obtain ⟨f1, f2, f3, f4⟩ := find_some str d ip p hpos.symm
      have hp : p < str.length := by
        have := f3.length_le
        rw [List.length_drop] at this
        omega
      rw [splitLoop]
      have hsub : substr str ip (p - ip) = some ((str.drop ip).take (p - ip)) := by
        unfold substr; rw [if_pos h1]
      rw [hsub]
      simp only []
      refine ih _ (p + 1) _ rfl (by omega) (by omega) ?_
      intro w hw
      rcases List.mem_append.mp hw with hw | hw
      · exact hacc w hw
      · rw [List.mem_singleton.mp hw]
        intro hin
        obtain ⟨j, hj1, hj2, hj3⟩ := prefix_of_infix_slice str d ip (p - ip) hd hin
        exact f4 j hj1 (by omega) hj3
    | none =>
      rw [splitLoop]
      have hsub : substr str ip (str.length - ip + 1)
          = some ((str.drop ip).take (str.length - ip + 1)) := by
        unfold substr; rw [if_pos h1]
      rw [hsub]
      simp only []
      refine ⟨_, rfl, ?_⟩
      intro w hw
      rcases List.mem_append.mp hw with hw | hw
      · exact hacc w hw
      · rw [List.mem_singleton.mp hw]
        intro hin
        obtain ⟨j, hj1, _, hj3⟩ := prefix_of_infix_slice str d ip _ hd hin
        exact find_none str d ip h1 hpos.symm j hj1 hj3

/-- The empty delimiter is found at every position up to the size. -/
theorem find_empty (str : List Char) (start : Nat) (h : start ≤ str.length) :
    find str [] start = some start := by
  unfold find
  rw [if_pos h]
  cases hr : str.drop start with
  | nil => rfl
  | cons c cs => rfl

/-- For the empty delimiter the loop walks `initial_pos` up to `size + 1` and the
last `substr` throws. -/
theorem splitLoop_empty (str : List Char) :
    ∀ fuel initial_pos (acc : List String), initial_pos ≤ str.length + 1 →
      str.length + 2 ≤ initial_pos + fuel →
      splitLoop str [] fuel (find str [] initial_pos) initial_pos acc
        = SplitOutcome.out_of_range := by
  intro fuel
  induction fuel with
  | zero => intro ip acc h1 h2; omega
  | succ fuel ih =>
    intro ip acc h1 h2
    by_cases hip : ip ≤ str.length
    · rw [find_empty str ip hip, splitLoop]
      have hsub : substr str ip (ip - ip) = some ((str.drop ip).take (ip - ip)) := by
        unfold substr; rw [if_pos hip]
      rw [hsub]
      simp only []
      exact ih (ip + 1) _ (by omega) (by omega)
    · have hf : find str [] ip = none := by
        unfold find; rw [if_neg hip]
      rw [hf, splitLoop]
      have hsub : substr str ip (str.length - ip + 1) = none := by
        unfold substr; rw [if_neg hip]
      rw [hsub]

/-- C22: for every string `s` and every non-empty delimiter `d`, `split_str s d`
returns a vector and no element of it contains `d` as a substring (so with the
delimiter `" "` no returned word contains a space). -/
theorem split_str_no_delimiter (s d : String) (hd : d ≠ "") :
    ∃ ws, split_str s d = SplitOutcome.returned ws ∧ ∀ w ∈ ws, ¬ d.data <:+: w.data := by
  have hd2 : d.data ≠ [] := fun h => hd ((string_eq_empty_iff d).mpr h)
  exact splitLoop_nonempty s.data d.data hd2 _ _ 0 [] rfl (Nat.zero_le _) (by omega)
    (fun w hw => by simp at hw)

/-- Witness for C22: `"a b  c"` split at spaces gives `a`, `b`, an empty word
and `c`. -/
theorem split_str_no_delimiter_witness :
    split_str "a b  c" " " = SplitOutcome.returned ["a", "b", "", "c"] ∧
    ∃ ws, split_str "a b  c" " " = SplitOutcome.returned ws ∧
      ∀ w ∈ ws, ¬ " ".data <:+: w.data :=
  ⟨by decide, split_str_no_delimiter "a b  c" " " (by decide)⟩

/-- With the empty delimiter `split_str` throws `std::out_of_range` on every
string. -/
theorem split_str_empty_delimiter (s : String) :
    split_str s "" = SplitOutcome.out_of_range :=
  splitLoop_empty s.data _ 0 [] (Nat.zero_le _) (by omega)

/-- C26, the code at the failing inputs: with the empty delimiter `split_str`
does not return a vector, on `abc` and on the empty string alike; the last
`substr` is called with `initial_pos = size + 1` and throws
`std::out_of_range`. -/
theorem split_str_empty_delimiter_throws :
    split_str "abc" "" = SplitOutcome.out_of_range ∧
    split_str "" "" = SplitOutcome.out_of_range := by
  decide

/-! ### `sliceVector` and `make_vector_of_pairs_by_two_vectors` -/

section VectorsProofs

variable {α β : Type}

/-- C23: for every vector `v` and indices `first ≤ last < |v|`, the returning
`sliceVector v first last` has exactly `last - first + 1` elements and its
`i`-th element is `v[first + i]` (the closed range `[first, last]`); the result
is a new vector, `v` is only read. -/
theorem sliceVector_spec (v : List α) (first last : Nat) (h1 : first ≤ last)
    (h2 : last < v.length) :
    ∃ res, sliceVector v first last = some res ∧ res.length = last - first + 1 ∧
      ∀ i, i < last - first + 1 → res[i]? = v[first + i]? := by
  refine ⟨(v.drop first).take (last + 1 - first), ?_, ?_, ?_⟩
  · unfold sliceVector
    rw [if_pos ⟨by omega, by omega⟩]
  · rw [List.length_take, List.length_drop]; omega
  · intro i hi
    rw [List.getElem?_take_of_lt (by omega), List.getElem?_drop]

/-- Witness for C23: the positions `1 .. 3` of a vector of five elements. -/
theorem sliceVector_spec_witness :
    sliceVector [10, 20, 30, 40, 50] 1 3 = some [20, 30, 40] ∧
    ∃ res, sliceVector [10, 20, 30, 40, 50] 1 3 = some res ∧ res.length = 3 - 1 + 1 ∧
      ∀ i, i < 3 - 1 + 1 → res[i]? = ([10, 20, 30, 40, 50] : List Nat)[1 + i]? :=
  ⟨by decide, sliceVector_spec [10, 20, 30, 40, 50] 1 3 (by decide) (by decide)⟩

/-- On two ranges of the same length the transform returns as many pairs, the
pair at every position made of the two elements at that position. -/
theorem transformPairs_spec (a : List α) :
    ∀ b : List β, a.length = b.length →
      ∃ res : List (α × β), transformPairs a b = some res ∧ res.length = a.length ∧
        ∀ (i : Nat) (x : α) (y : β), a[i]? = some x → b[i]? = some y → res[i]? = some (x, y) := by
  induction a with
  | nil => intro b _; exact ⟨[], rfl, rfl, fun i x y h => by simp at h⟩
  | cons x t ih =>
    intro b hb
    cases b with
    | nil => simp at hb
    | cons y u =>
      obtain ⟨res, h1, h2, h3⟩ := ih u (by simpa using hb)
      refine ⟨(x, y) :: res, ?_, by simp [h2], ?_⟩
      · rw [transformPairs, h1]
      · intro i x2 y2 hx hy
        cases i with
        | zero =>
          simp only [List.getElem?_cons_zero, Option.some.injEq] at hx hy ⊢
          rw [hx, hy]
        | succ i =>
          simp only [List.getElem?_cons_succ] at hx hy ⊢
          exact h3 i x2 y2 hx hy

/-- C24: for every two vectors `a` and `b` of the same length,
`make_vector_of_pairs_by_two_vectors a b` has that same length and its `i`-th
element is the pair `(a[i], b[i])` for every index `i`. -/
theorem make_vector_of_pairs_spec (a : List α) (b : List β) (h : a.length = b.length) :
    ∃ res : List (α × β), make_vector_of_pairs_by_two_vectors a b = some res ∧ res.length = a.length ∧
      ∀ (i : Nat) (x : α) (y : β), a[i]? = some x → b[i]? = some y → res[i]? = some (x, y) :=
  transformPairs_spec a b h

/-- Witness for C24: three numbers paired with three characters. -/
theorem make_vector_of_pairs_spec_witness :
    make_vector_of_pairs_by_two_vectors [1, 2, 3] ['a', 'b', 'c']
      = some [(1, 'a'), (2, 'b'), (3, 'c')] ∧
    ∃ res : List (Nat × Char),
      make_vector_of_pairs_by_two_vectors [1, 2, 3] ['a', 'b', 'c'] = some res ∧
      res.length = ([1, 2, 3] : List Nat).length ∧
      ∀ (i : Nat) (x : Nat) (y : Char), ([1, 2, 3] : List Nat)[i]? = some x →
        (['a', 'b', 'c'] : List Char)[i]? = some y → res[i]? = some (x, y) :=
  ⟨by decide, make_vector_of_pairs_spec [1, 2, 3] ['a', 'b', 'c'] (by decide)⟩

end VectorsProofs

/-! ### Comparison wrappers -/

/-- C25: for every two values `a`, `b` of a totally ordered type, exactly one
of `is_lower a b`, `is_equal a b`, `is_bigger a b` is true, and
`is_bigger a b = is_lower b a`; in particular equal elements compare as
neither lower nor bigger. -/
theorem comparison_trichotomy {α : Type} [LinearOrder α] (a b : α) :
    ((is_lower a b = true ∧ is_equal a b = false ∧ is_bigger a b = false) ∨
      (is_lower a b = false ∧ is_equal a b = true ∧ is_bigger a b = false) ∨
      (is_lower a b = false ∧ is_equal a b = false ∧ is_bigger a b = true)) ∧
    is_bigger a b = is_lower b a ∧
    (a = b → is_lower a b = false ∧ is_bigger a b = false) := by
  unfold is_lower is_equal is_bigger
  refine ⟨?_, rfl, ?_⟩
  · rcases lt_trichotomy a b with h | h | h
    · left
      simp [h, ne_of_lt h, not_lt_of_gt h]
    · right; left
      simp [h]
    · right; right
      simp [h, ne_of_gt h, not_lt_of_gt h]
  · intro h; simp [h]

end lvt
